import Mathlib

/-!
Verification of the protohackers JSON codec (`utils/src/json.rs`) and the
prime-time line handler (`p01_prime_time/src/main.rs`).

Byte buffers are modelled as `List Nat` (each element a byte value).
Fallible code returns `Except Error`.  The Rust `Cursor` is a byte offset
threaded explicitly through the parsing functions.
-/

namespace Protohackers

/-- ASCII bytes of a Lean string; used to write byte-list literals. -/
def bytes (s : String) : List Nat := s.data.map Char.toNat

/-- `struct Error { msg: &'static str, pos: usize }` from json.rs. -/
structure Error where
  msg : String
  pos : Nat
deriving Repr, DecidableEq

/-- Model of Rust `f64` values as they occur in this program.  The codec
never computes with floats: it only converts numeric literal strings to
`f64` (`str::parse::<f64>`) and formats floats with `write!("{}", v)`.
We therefore model an `f64` as either the not-a-number value or an opaque
finite value identified by a decimal literal string `s` (standing for the
finite `f64` whose `Display` output is `s`; e.g. `ofLit "-0.5"` is -0.5).
Only the `nan` display case (`"NaN"`, documented behaviour of Rust's
`Display for f64`) is relied on by any theorem below. -/
inductive F64 where
  | nan
  | ofLit (s : List Nat)
deriving Repr, DecidableEq

/-- `Cow<'a, str>`: either a borrowed view into the input buffer or an
owned decoded buffer.  The payload is the UTF-8 byte content. -/
inductive CowStr where
  | borrowed (s : List Nat)
  | owned (s : List Nat)
deriving Repr, DecidableEq

/-- Content bytes of a `Cow<str>` (what `Deref` yields in Rust). -/
def CowStr.data : CowStr → List Nat
  | .borrowed s => s
  | .owned s => s

/-- `enum Value<'a>` from json.rs.  `Object` is modelled as the list of
key/value entries in the `HashMap`'s iteration order. -/
inductive Value where
  | String (s : CowStr)
  | Float (x : F64)
  | Int (n : Int)
  | Bool (b : Bool)
  | Null
  | Array (elems : List Value)
  | Object (entries : List (CowStr × Value))

/-! ## Serializer (json.rs lines 369-429) -/

/-- Recursion core of `natToDigits`; the fuel (always supplied as `n + 1`,
an upper bound on the digit count) only makes the recursion structural. -/
def natToDigits_go : Nat → Nat → List Nat
  | 0, _ => []
  | fuel + 1, n =>
    if n < 10 then [48 + n]
    else natToDigits_go fuel (n / 10) ++ [48 + n % 10]

/-- Decimal digit bytes of a natural number, most significant first
(helper for modelling `write!("{}", i64)`). -/
def natToDigits (n : Nat) : List Nat := natToDigits_go (n + 1) n

/-- Models Rust `write!(buf, "{}", v)` for `i64`: decimal form, `-` sign
for negatives. -/
def intDisplay (n : Int) : List Nat :=
  if n < 0 then 45 :: natToDigits (-n).toNat else natToDigits n.toNat

/-- Models Rust `write!(buf, "{}", v)` for `f64` (std `Display`):
not-a-number prints as `NaN`; a finite value prints its decimal literal. -/
def floatDisplay : F64 → List Nat
  | .nan => bytes "NaN"
  | .ofLit s => s

/-- Models Rust `write!(buf, "{}", v)` for `bool`. -/
def boolDisplay (b : Bool) : List Nat :=
  if b then bytes "true" else bytes "false"

/-- The per-byte escaping of `serialize_str`'s loop body (json.rs 385-398):
the bytes appended to the output for one input byte `c`. -/
def escByte (c : Nat) : List Nat :=
  if c = 34 then [92, 34]        -- '"'  -> \"
  else if c = 92 then [92, 92]   -- '\'  -> \\
  else if c = 47 then [47]       -- '/'  -> /
  else if c = 10 then [92, 110]  -- '\n' -> \n
  else if c = 13 then [92, 114]  -- '\r' -> \r
  else if c = 9 then [92, 116]   -- '\t' -> \t
  else if c = 8 then [92, 98]    -- 0x08 -> \b
  else if c = 12 then [92, 102]  -- 0x0C -> \f
  else [c]

/-- The `for c in s.bytes()` loop of `serialize_str`. -/
def serialize_str_content : List Nat → List Nat
  | [] => []
  | c :: rest => escByte c ++ serialize_str_content rest

/-- `serialize_str` (json.rs 381-401): quote, escaped content, quote. -/
def serialize_str (s : List Nat) : List Nat :=
  34 :: serialize_str_content s ++ [34]

mutual

/-- `serialize_json` (json.rs 369-379). -/
def serialize_json : Value → List Nat
  | .Int n => intDisplay n
  | .Bool b => boolDisplay b
  | .Float x => floatDisplay x
  | .Null => bytes "null"
  | .String c => serialize_str c.data
  | .Object kvs => 123 :: serialize_obj_items true kvs ++ [125]
  | .Array xs => 91 :: serialize_arr_items true xs ++ [93]

/-- The `first`-flagged loop of `serialize_array` (json.rs 418-429). -/
def serialize_arr_items : Bool → List Value → List Nat
  | _, [] => []
  | first, v :: rest =>
    (if first then [] else bytes ", ") ++ serialize_json v
      ++ serialize_arr_items false rest

/-- The `first`-flagged loop of `serialize_object` (json.rs 403-416). -/
def serialize_obj_items : Bool → List (CowStr × Value) → List Nat
  | _, [] => []
  | first, (k, v) :: rest =>
    (if first then [] else bytes ", ") ++ serialize_str k.data
      ++ bytes ": " ++ serialize_json v ++ serialize_obj_items false rest

end

/-! ## Cursor (json.rs 19-150) -/

/-- Byte classes used by `Cursor::next_token` (json.rs 33-55). -/
def isDigit (c : Nat) : Bool := 48 ≤ c ∧ c ≤ 57

/-- Token-start bytes of `next_token`. -/
def isTokenStart (c : Nat) : Bool :=
  c = 123 ∨ c = 125 ∨ c = 91 ∨ c = 93 ∨ c = 34 ∨ c = 58 ∨ c = 44
    ∨ isDigit c = true ∨ c = 116 ∨ c = 102 ∨ c = 110

/-- Whitespace bytes skipped by `next_token`. -/
def isWs (c : Nat) : Bool := c = 32 ∨ c = 10 ∨ c = 9 ∨ c = 13

/-- Recursion core of `next_token`; the fuel (always at least
`buf.length + 1 - pos`, so never exhausted before the end of the buffer)
only makes the whitespace-skipping loop structural. -/
def next_token_go : Nat → List Nat → Nat → Nat × Nat
  | 0, _, pos => (0, pos)
  | fuel + 1, buf, pos =>
    match buf[pos]? with
    | none => (0, pos)
    | some c =>
      if isTokenStart c then (c, pos)
      else if isWs c then next_token_go fuel buf (pos + 1)
      else (0, pos)

/-- `Cursor::next_token` (json.rs 33-55): skip whitespace; return the
token byte (leaving the position at it), or 0 at end of input or at a
non-token byte.  Returns the token and the new cursor position. -/
def next_token (buf : List Nat) (pos : Nat) : Nat × Nat :=
  next_token_go (buf.length + 1 - pos) buf pos

/-- Recursion core of the `consume_str` scanning loop; fuel as in
`next_token_go` (at zero fuel the position is past the end of the buffer,
which is the end-of-data error case). -/
def consume_str_scan : Nat → List Nat → Nat → Bool → Bool → Except Error (Nat × Bool)
  | 0, _, pos, _, _ => .error ⟨"Unexpected data end while parsing string", pos⟩
  | fuel + 1, buf, pos, escape, escaped =>
    match buf[pos]? with
    | none => .error ⟨"Unexpected data end while parsing string", pos⟩
    | some c =>
      if c = 92 ∧ escape = false then consume_str_scan fuel buf (pos + 1) true true
      else if c = 34 ∧ escape = false then .ok (pos, escaped)
      else consume_str_scan fuel buf (pos + 1) false escaped

/-- The scanning loop of `consume_str` (json.rs 68-85): starting at `pos`
(just past the opening quote), find the unescaped closing quote, tracking
the escape flag.  Returns the index of the closing quote and whether any
escape was seen. -/
def consume_str_go (buf : List Nat) (pos : Nat) (escape escaped : Bool) :
    Except Error (Nat × Bool) :=
  consume_str_scan (buf.length + 1 - pos) buf pos escape escaped

/-- `Cursor::consume_str` (json.rs 57-90): requires an opening quote at
`pos`; returns the span between the quotes, the escape flag, and the
position just past the closing quote. -/
def consume_str (buf : List Nat) (pos : Nat) :
    Except Error ((List Nat × Bool) × Nat) :=
  if buf[pos]? ≠ some 34 then
    .error ⟨"Couldn't parse string. Missed first \"", pos⟩
  else
    match consume_str_go buf (pos + 1) false false with
    | .error e => .error e
    | .ok (spanEnd, escaped) =>
      .ok (((buf.drop (pos + 1)).take (spanEnd - (pos + 1)), escaped), spanEnd + 1)

/-- Recursion core of the `consume_number` scanning loop; fuel as in
`next_token_go`. -/
def consume_number_scan : Nat → List Nat → Nat → Bool → Nat × Bool
  | 0, _, pos, float => (pos, float)
  | fuel + 1, buf, pos, float =>
    match buf[pos]? with
    | none => (pos, float)
    | some c =>
      if isDigit c then consume_number_scan fuel buf (pos + 1) float
      else if c = 46 then consume_number_scan fuel buf (pos + 1) true
      else (pos, float)

/-- The scanning loop of `consume_number` (json.rs 101-113): consume
digits and dots, flipping the float flag on a dot.  Returns the end of
the run and the flag. -/
def consume_number_go (buf : List Nat) (pos : Nat) (float : Bool) : Nat × Bool :=
  consume_number_scan (buf.length + 1 - pos) buf pos float

/-- `Cursor::consume_number` (json.rs 92-116): requires an ASCII digit at
`pos` (`current(buf).unwrap_or(0)`), then consumes the maximal digit/dot
run.  Returns the span, the float flag and the position past the run. -/
def consume_number (buf : List Nat) (pos : Nat) :
    Except Error ((List Nat × Bool) × Nat) :=
  if isDigit ((buf[pos]?).getD 0) = false then
    .error ⟨"Couldn't parse number. Missed first digit", pos⟩
  else
    let ef := consume_number_go buf pos false
    .ok (((buf.drop pos).take (ef.1 - pos), ef.2), ef.1)

/-- `Cursor::consume_lit` (json.rs 118-134). -/
def consume_lit (buf : List Nat) (pos : Nat) (lit : List Nat) : Except Error Nat :=
  if buf.length < pos + lit.length then
    .error ⟨"Unexpected data end while parsing litteral", pos⟩
  else if (buf.drop pos).take lit.length ≠ lit then
    .error ⟨"Unexpected value for litteral", pos⟩
  else .ok (pos + lit.length)

/-- `Cursor::consume_null` (json.rs 136-139). -/
def consume_null (buf : List Nat) (pos : Nat) : Except Error Nat :=
  consume_lit buf pos (bytes "null")

/-- `Cursor::consume_true` (json.rs 141-144). -/
def consume_true (buf : List Nat) (pos : Nat) : Except Error Nat :=
  consume_lit buf pos (bytes "true")

/-- `Cursor::consume_false` (json.rs 146-149). -/
def consume_false (buf : List Nat) (pos : Nat) : Except Error Nat :=
  consume_lit buf pos (bytes "false")

/-! ## Standard-library models (code outside this repository) -/

/-- A UTF-8 continuation byte. -/
def isCont (c : Nat) : Bool := 128 ≤ c ∧ c ≤ 191

/-- Byte classes of a UTF-8 leading byte: ASCII, two-byte leader,
three- or four-byte leader (with the admissible range of the first
continuation byte), or invalid. -/
inductive U8Class where
  | ascii
  | two
  | three (lo hi : Nat)
  | four (lo hi : Nat)
  | bad

/-- Classification of a UTF-8 leading byte (std `str::from_utf8` rules:
overlong encodings, surrogates and code points above U+10FFFF are
rejected through the restricted first-continuation ranges). -/
def classify (c : Nat) : U8Class :=
  if c ≤ 127 then .ascii
  else if 194 ≤ c ∧ c ≤ 223 then .two
  else if c = 224 then .three 160 191
  else if 225 ≤ c ∧ c ≤ 236 then .three 128 191
  else if c = 237 then .three 128 159
  else if 238 ≤ c ∧ c ≤ 239 then .three 128 191
  else if c = 240 then .four 144 191
  else if 241 ≤ c ∧ c ≤ 243 then .four 128 191
  else if c = 244 then .four 128 143
  else .bad

mutual

/-- Models Rust `str::from_utf8` / `String::from_utf8` validity (std,
outside this repository): standard UTF-8. -/
def validUtf8 : List Nat → Bool
  | [] => true
  | c :: rest =>
    if c ≤ 127 then validUtf8 rest
    else validAfter (classify c) rest

/-- Check the continuation bytes demanded by a non-ASCII leading byte's
class, then continue validating.  (`ascii` is handled before dispatch and
unreachable here.) -/
def validAfter : U8Class → List Nat → Bool
  | .ascii, _ => false
  | .two, c1 :: r => isCont c1 && validUtf8 r
  | .two, [] => false
  | .three lo hi, c1 :: c2 :: r =>
    (lo ≤ c1 && c1 ≤ hi) && isCont c2 && validUtf8 r
  | .three _ _, _ => false
  | .four lo hi, c1 :: c2 :: c3 :: r =>
    (lo ≤ c1 && c1 ≤ hi) && isCont c2 && isCont c3 && validUtf8 r
  | .four _ _, _ => false
  | .bad, _ => false

end

/-- Numeric value of a run of ASCII digit bytes (accumulator form). -/
def digitsToNat : List Nat → Nat → Nat
  | [], acc => acc
  | c :: rest, acc => digitsToNat rest (acc * 10 + (c - 48))

/-- Models Rust `str::parse::<i64>()` (std, outside this repository) on
the strings this parser feeds it — nonempty digit/dot runs starting with
a digit: it succeeds exactly on all-digit strings whose value fits in
`i64` (a dot, or overflow past `2^63 - 1`, is a conversion failure). -/
def i64FromStr (s : List Nat) : Option Int :=
  if s ≠ [] ∧ s.all isDigit = true ∧ digitsToNat s 0 < 2 ^ 63 then
    some (Int.ofNat (digitsToNat s 0))
  else none

/-- Models Rust `str::parse::<f64>()` (std, outside this repository) on
the strings this parser feeds it — nonempty digit/dot runs starting with
a digit: the float grammar admits at most one decimal point (`"1.2"` and
`"1."` parse, `"1.2.3"` does not); overflow never fails for `f64`. -/
def f64FromStr (s : List Nat) : Option F64 :=
  if s.count 46 ≤ 1 then some (.ofLit s) else none

/-! ## Parser (json.rs 191-367) -/

/-- The escape-decoding match of `parse_str`'s second pass
(json.rs 241-260): the byte a recognized escape letter decodes to. -/
def decodeEsc (c : Nat) : Option Nat :=
  if c = 34 ∨ c = 92 ∨ c = 47 then some c
  else if c = 98 then some 8
  else if c = 102 then some 12
  else if c = 110 then some 10
  else if c = 114 then some 13
  else if c = 116 then some 9
  else none

/-- The second pass of `parse_str` (json.rs 223-261): decode two-character
escapes in the raw span.  `errPos` is the cursor position the Rust code
reports errors at (it is past the closing quote by then). -/
def unescape (errPos : Nat) : List Nat → Bool → Except Error (List Nat)
  | [], _ => .ok []
  | c :: rest, false =>
    if c = 92 then unescape errPos rest true
    else
      match unescape errPos rest false with
      | .ok u => .ok (c :: u)
      | .error e => .error e
  | c :: rest, true =>
    match decodeEsc c with
    | some d =>
      match unescape errPos rest false with
      | .ok u => .ok (d :: u)
      | .error e => .error e
    | none =>
      .error ⟨if c = 117 then "Hex character not handled"
              else "Unrecognised escape sequence", errPos⟩

/-- `parse_str` (json.rs 220-272). -/
def parse_str (buf : List Nat) (pos : Nat) : Except Error (CowStr × Nat) :=
  match consume_str buf pos with
  | .error e => .error e
  | .ok ((s, escaped), pos') =>
    if escaped then
      match unescape pos' s false with
      | .error e => .error e
      | .ok u =>
        if validUtf8 u then .ok (.owned u, pos')
        else .error ⟨"String wasn't utf8 encoded", pos'⟩
    else
      if validUtf8 s then .ok (.borrowed s, pos')
      else .error ⟨"String wasn't utf8 encoded", pos'⟩

/-- `parse_number` (json.rs 274-291). -/
def parse_number (buf : List Nat) (pos : Nat) : Except Error (Value × Nat) :=
  match consume_number buf pos with
  | .error e => .error e
  | .ok ((s, float), pos') =>
    if validUtf8 s then
      if float then
        match f64FromStr s with
        | some x => .ok (.Float x, pos')
        | none => .error ⟨"Wasn't able to parse number as float", pos'⟩
      else
        match i64FromStr s with
        | some n => .ok (.Int n, pos')
        | none => .error ⟨"Wasn't able to parse number as integer", pos'⟩
    else .error ⟨"Couldn't decode number", pos'⟩

/-- Models `HashMap::insert` (std, outside this repository) on the entry
list: replace the value at an existing (content-equal) key, keeping the
original key, else append the new entry. -/
def insertEntry (kvs : List (CowStr × Value)) (k : CowStr) (v : Value) :
    List (CowStr × Value) :=
  if kvs.any (fun e => decide (e.1.data = k.data)) then
    kvs.map (fun e => if e.1.data = k.data then (e.1, v) else e)
  else kvs ++ [(k, v)]

mutual

/-- `_parse_json` (json.rs 196-218).  `fuel` bounds loop iterations and
recursion depth; the Rust original needs none because the cursor strictly
advances.  `parse_json` supplies fuel that is never exhausted. -/
def _parse_json : Nat → List Nat → Nat → Except Error (Value × Nat)
  | 0, _, pos => .error ⟨"fuel", pos⟩
  | fuel + 1, buf, pos =>
    let tp := next_token buf pos
    if tp.1 = 34 then
      match parse_str buf tp.2 with
      | .ok sp => .ok (.String sp.1, sp.2)
      | .error e => .error e
    else if isDigit tp.1 then parse_number buf tp.2
    else if tp.1 = 110 then
      match consume_null buf tp.2 with
      | .ok p => .ok (.Null, p)
      | .error e => .error e
    else if tp.1 = 116 then
      match consume_true buf tp.2 with
      | .ok p => .ok (.Bool true, p)
      | .error e => .error e
    else if tp.1 = 102 then
      match consume_false buf tp.2 with
      | .ok p => .ok (.Bool false, p)
      | .error e => .error e
    else if tp.1 = 123 then
      match parse_object fuel buf tp.2 with
      | .ok op => .ok (.Object op.1, op.2)
      | .error e => .error e
    else if tp.1 = 91 then
      match parse_array fuel buf tp.2 with
      | .ok ap => .ok (.Array ap.1, ap.2)
      | .error e => .error e
    else if tp.1 = 0 then .error ⟨"Unexpected message end", tp.2⟩
    else .error ⟨"Unexpected token while parsing message", tp.2⟩
termination_by structural fuel => fuel

/-- `parse_array` (json.rs 307-330): advance past `[`, then loop. -/
def parse_array : Nat → List Nat → Nat → Except Error (List Value × Nat)
  | 0, _, pos => .error ⟨"fuel", pos⟩
  | fuel + 1, buf, pos => parse_array_go fuel buf (pos + 1) []
termination_by structural fuel => fuel

/-- The element loop of `parse_array` (json.rs 310-327), with the final
`cursor.advance()` applied at each `break`. -/
def parse_array_go : Nat → List Nat → Nat → List Value →
    Except Error (List Value × Nat)
  | 0, _, pos, _ => .error ⟨"fuel", pos⟩
  | fuel + 1, buf, pos, acc =>
    let tp := next_token buf pos
    if tp.1 = 93 then .ok (acc, tp.2 + 1)
    else
      match _parse_json fuel buf tp.2 with
      | .error e => .error e
      | .ok vp =>
        let tq := next_token buf vp.2
        if tq.1 = 44 then parse_array_go fuel buf (tq.2 + 1) (acc ++ [vp.1])
        else if tq.1 = 93 then .ok (acc ++ [vp.1], tq.2 + 1)
        else .error ⟨"Unexpected token when parsing array", tq.2⟩
termination_by structural fuel => fuel

/-- `parse_object` (json.rs 332-367): advance past the opening brace,
then loop. -/
def parse_object : Nat → List Nat → Nat →
    Except Error (List (CowStr × Value) × Nat)
  | 0, _, pos => .error ⟨"fuel", pos⟩
  | fuel + 1, buf, pos => parse_object_go fuel buf (pos + 1) []
termination_by structural fuel => fuel

/-- The member loop of `parse_object` (json.rs 338-364), with the final
`cursor.advance()` applied at each `break`. -/
def parse_object_go : Nat → List Nat → Nat → List (CowStr × Value) →
    Except Error (List (CowStr × Value) × Nat)
  | 0, _, pos, _ => .error ⟨"fuel", pos⟩
  | fuel + 1, buf, pos, acc =>
    let tp := next_token buf pos
    if tp.1 = 125 then .ok (acc, tp.2 + 1)
    else
      match parse_str buf tp.2 with
      | .error e => .error e
      | .ok kp =>
        let tc := next_token buf kp.2
        if tc.1 ≠ 58 then
          .error ⟨"Unexpcted object key value separator", tc.2⟩
        else
          match _parse_json fuel buf (tc.2 + 1) with
          | .error e => .error e
          | .ok vp =>
            let tq := next_token buf vp.2
            if tq.1 = 44 then
              parse_object_go fuel buf (tq.2 + 1) (insertEntry acc kp.1 vp.1)
            else if tq.1 = 125 then .ok (insertEntry acc kp.1 vp.1, tq.2 + 1)
            else .error ⟨"Unexpected token when parsing object", tq.2⟩
termination_by structural fuel => fuel

end

/-- `parse_json` (json.rs 191-194).  The fuel `8 * buf.length + 8`
exceeds the number of parser steps possible on any input (every loop
iteration and every recursion step strictly advances the cursor, and a
single byte accounts for at most a few steps), so it is never
exhausted. -/
def parse_json (buf : List Nat) : Except Error Value :=
  match _parse_json (8 * buf.length + 8) buf 0 with
  | .ok vp => .ok vp.1
  | .error e => .error e

/-! ## Value accessors (json.rs 152-178, the `accessors!` macro) -/

/-- Alias for `Bool`, usable inside the `Value` namespace where the bare
name refers to the `Value.Bool` constructor. -/
abbrev RBool := Bool

/-- `Value::string`. -/
def Value.string : Value → Option CowStr
  | .String v => some v
  | _ => none

/-- `Value::int`.  (`ℤ` is the ambient integer type; inside the `Value`
namespace the bare name `Int` is the constructor.) -/
def Value.int : Value → Option ℤ
  | .Int v => some v
  | _ => none

/-- `Value::float`. -/
def Value.float : Value → Option F64
  | .Float v => some v
  | _ => none

/-- `Value::bool`.  (`RBool` aliases `Bool`, which inside the `Value`
namespace names the constructor.) -/
def Value.bool : Value → Option RBool
  | .Bool v => some v
  | _ => none

/-- `Value::null`. -/
def Value.null : Value → Option Unit
  | .Null => some ()
  | _ => none

/-- `Value::array`. -/
def Value.array : Value → Option (List Value)
  | .Array v => some v
  | _ => none

/-- `Value::object`. -/
def Value.object : Value → Option (List (CowStr × Value))
  | .Object v => some v
  | _ => none

/-! ## Prime-time handler (p01_prime_time/src/main.rs) -/

/-- Models `BufReader::read_until(b'\n')` (std, outside this repository)
on the connection's remaining input: split off the first line, including
the delimiter when present; at end of stream the partial line is
returned. -/
def readLine : List Nat → List Nat × List Nat
  | [] => ([], [])
  | c :: rest =>
    if c = 10 then ([10], rest)
    else
      let lr := readLine rest
      (c :: lr.1, lr.2)

/-- Models `HashMap::get` (std, outside this repository) on the entry
list, with `Cow<str>` keys compared by content. -/
def getEntry (kvs : List (CowStr × Value)) (key : List Nat) : Option Value :=
  (kvs.find? (fun e => decide (e.1.data = key))).map (fun e => e.2)

/-- The per-line request validation of `handle` (main.rs 47-65): parse
the line as JSON, then require an object whose `method` field is the
string `"isPrime"` and whose `prime` field is an `Int`; returns the
`prime` argument on success. -/
def checkRequest (line : List Nat) : Option Int :=
  match parse_json line with
  | .error _ => none
  | .ok req =>
    match req.object with
    | none => none
    | some o =>
      match (getEntry o (bytes "method")).bind Value.string,
            (getEntry o (bytes "prime")).bind Value.int with
      | some m, some n => if m.data = bytes "isPrime" then some n else none
      | _, _ => none

/-- `write_error` (main.rs 14-17): the single-line error response. -/
def errorBytes : List Nat := bytes "\x7b\"error\": \"malformed request\"\x7d"

/-- The response `handle` writes for a conforming request with argument
`n` (main.rs 66-81): the two-field object serialized, then a newline.
The handler's primality test is a parameter (`is_prime` computes its
trial-division bound through `f64::sqrt`, which a shallow embedding
cannot represent).  The entry list models the 2-entry `HashMap` in
insertion order; the real iteration order is unspecified and no claim
depends on it. -/
def respBytes (is_prime : Int → Bool) (n : Int) : List Nat :=
  serialize_json (.Object
    [(.borrowed (bytes "method"), .String (.borrowed (bytes "isPrime"))),
     (.borrowed (bytes "prime"), .Bool (is_prime n))]) ++ [10]

/-- Recursion core of `handle`; the fuel (always supplied as one more
than the stream length, and so never exhausted: every loop iteration
consumes at least one byte of the stream) only makes the loop
structural. -/
def handle_go : Nat → (Int → Bool) → List Nat → List Nat
  | 0, _, _ => []
  | _ + 1, _, [] => errorBytes
  | fuel + 1, is_prime, c :: stream =>
    let lr := readLine (c :: stream)
    match checkRequest lr.1 with
    | some n => respBytes is_prime n ++ handle_go fuel is_prime lr.2
    | none => errorBytes

/-- `handle` (main.rs 33-84), as a function from the connection's input
byte stream to the bytes written back on the socket: read a line
(a zero-length read — exhausted stream — writes the error response and
stops with `Ok(())`), validate it (failure writes the error response and
stops), else append the response and continue with the rest of the
stream.  Socket writes are modelled as infallible. -/
def handle (is_prime : Int → Bool) (stream : List Nat) : List Nat :=
  handle_go (stream.length + 1) is_prime stream

/-! ## Helpers for the round-trip statement -/

/-- Whether serializing this string content emits any escape sequence,
i.e. whether the content contains a byte `serialize_str` escapes with a
backslash (`/` is rendered as itself). -/
def needsEsc (s : List Nat) : Bool :=
  s.any (fun c => c = 34 ∨ c = 92 ∨ c = 10 ∨ c = 13 ∨ c = 9 ∨ c = 8 ∨ c = 12)

/-- The `Cow` variant the parser produces for a serialized string with
content `s`: borrowed when the span between the quotes contains no
backslash, owned when escapes were decoded. -/
def reparsedCow (s : List Nat) : CowStr :=
  if needsEsc s then .owned s else .borrowed s

mutual

/-- The value `parse_json` returns when fed `serialize_json v`: the same
tree with each string's `Cow` variant set to what the parser produces.
(Rust's `PartialEq` on `Cow` ignores the variant, so this is `==` to
`v`.) -/
def normalize : Value → Value
  | .String c => .String (reparsedCow c.data)
  | .Array xs => .Array (normalizeList xs)
  | .Object kvs => .Object (normalizeEntries kvs)
  | .Int n => .Int n
  | .Float x => .Float x
  | .Bool b => .Bool b
  | .Null => .Null

/-- `normalize` on array elements. -/
def normalizeList : List Value → List Value
  | [] => []
  | v :: rest => normalize v :: normalizeList rest

/-- `normalize` on object entries (keys are `Cow`s too). -/
def normalizeEntries : List (CowStr × Value) → List (CowStr × Value)
  | [] => []
  | (k, v) :: rest => (reparsedCow k.data, normalize v) :: normalizeEntries rest

end

/-- Whether a `Display` literal denotes an IEEE zero: `0.0` prints as
`0`, `-0.0` prints as `-0`, and the two values compare equal. -/
def zeroLit (s : List Nat) : Bool :=
  decide (s = bytes "0") || decide (s = bytes "-0")

/-- Model of IEEE `f64` equality as used by the derived `PartialEq` on
`Value`: `NaN` is not equal to anything; distinct finite values have
distinct `Display` literals and compare equal exactly when the literals
agree — except the two zeros, which differ in sign bit (and literal)
but compare equal. -/
def f64eq : F64 → F64 → Bool
  | .nan, _ => false
  | _, .nan => false
  | .ofLit s, .ofLit t => decide (s = t) || (zeroLit s && zeroLit t)

mutual

/-- Recursion core of `veq` (fuel makes the recursion structural: the
`HashMap` comparison looks a value up in the right-hand list, which is
not a subterm).  The fuel is at least the tree depth of the first
argument, so it is never exhausted. -/
def veq_go : Nat → Value → Value → Bool
  | 0, _, _ => false
  | _ + 1, .String a, .String b => decide (a.data = b.data)
  | _ + 1, .Float x, .Float y => f64eq x y
  | _ + 1, .Int a, .Int b => decide (a = b)
  | _ + 1, .Bool a, .Bool b => decide (a = b)
  | _ + 1, .Null, .Null => true
  | fuel + 1, .Array xs, .Array ys => veqList_go fuel xs ys
  | fuel + 1, .Object a, .Object b =>
    decide (a.length = b.length) && veqEntries_go fuel a b
  | _ + 1, _, _ => false

/-- Element-wise comparison of two arrays (derived `PartialEq` on
`Vec`). -/
def veqList_go : Nat → List Value → List Value → Bool
  | _, [], [] => true
  | fuel, x :: xs, y :: ys => veq_go fuel x y && veqList_go fuel xs ys
  | _, _, _ => false

/-- `HashMap` comparison: every entry of the left map is looked up by
key content in the right map and the values compared. -/
def veqEntries_go : Nat → List (CowStr × Value) → List (CowStr × Value) → Bool
  | _, [], _ => true
  | fuel, (k, v) :: rest, b =>
    (match b.find? (fun e => decide (e.1.data = k.data)) with
     | some e => veq_go fuel v e.2
     | none => false) && veqEntries_go fuel rest b

end

mutual

/-- Tree depth of a `Value` (fuel bound for `veq_go`). -/
def vdepth : Value → Nat
  | .Array xs => 1 + vdepthList xs
  | .Object kvs => 1 + vdepthEntries kvs
  | _ => 1

/-- Depth of a list of values. -/
def vdepthList : List Value → Nat
  | [] => 0
  | v :: rest => max (vdepth v) (vdepthList rest)

/-- Depth of a list of entries. -/
def vdepthEntries : List (CowStr × Value) → Nat
  | [] => 0
  | (_, v) :: rest => max (vdepth v) (vdepthEntries rest)

end

/-- Model of the derived `PartialEq` on `Value` (json.rs 180): `Cow`
compares by content, `f64` by IEEE equality (`NaN != NaN`), arrays
element-wise, `HashMap`s by size plus key lookup. -/
def veq (a b : Value) : Bool := veq_go (vdepth a) a b

/-- Distinctness of object keys by content (guaranteed for any entry
list that models an actual `HashMap`). -/
def distinctKeys (kvs : List (CowStr × Value)) : Bool :=
  decide (kvs.map (fun e => e.1.data)).Nodup

/-- The floats the round trip preserves: finite values whose `Display`
literal is a digit run starting with a digit and containing exactly one
decimal point (e.g. `3.14`).  Excluded are `NaN`, infinities (`inf`),
negative floats (leading `-`, which the parser rejects) and floats whose
literal is a bare integer (`1.0` prints as `1`, which reparses as
`Int`). -/
def floatLitOk : F64 → Bool
  | .nan => false
  | .ofLit [] => false
  | .ofLit (c :: r) =>
    isDigit c && (c :: r).all (fun d => isDigit d || d = 46)
      && decide ((c :: r).count 46 = 1)

mutual

/-- Side conditions of the round-trip theorem: no negative `Int` and
only dotted-literal floats (the amendment the counterexamples force),
together with invariants every Rust-constructible `Value` has by its
types: string contents are valid UTF-8 (`String`/`str`), integers fit in
`i64`, object keys are distinct (`HashMap`). -/
def rt_ok : Value → Bool
  | .String c => validUtf8 c.data
  | .Int n => decide (0 ≤ n) && decide (n < 2 ^ 63)
  | .Float x => floatLitOk x
  | .Bool _ => true
  | .Null => true
  | .Array xs => rt_okList xs
  | .Object kvs => distinctKeys kvs && rt_okEntries kvs

/-- `rt_ok` on array elements. -/
def rt_okList : List Value → Bool
  | [] => true
  | v :: rest => rt_ok v && rt_okList rest

/-- `rt_ok` on object entries (keys must be valid UTF-8 too). -/
def rt_okEntries : List (CowStr × Value) → Bool
  | [] => true
  | (k, v) :: rest => validUtf8 k.data && rt_ok v && rt_okEntries rest

end

mutual

/-- Fuel sufficient for `_parse_json` to parse `serialize_json v`: one
step to dispatch, one to enter a container, one per loop iteration. -/
def fuelNeed : Value → Nat
  | .Array xs => 2 + fuelNeedItems xs
  | .Object kvs => 2 + fuelNeedEntries kvs
  | _ => 1

/-- Fuel needed by the array-element loop. -/
def fuelNeedItems : List Value → Nat
  | [] => 1
  | v :: rest => 1 + max (fuelNeed v) (fuelNeedItems rest)

/-- Fuel needed by the object-member loop. -/
def fuelNeedEntries : List (CowStr × Value) → Nat
  | [] => 1
  | (_, v) :: rest => 1 + max (fuelNeed v) (fuelNeedEntries rest)

end

/-- The maximal digit/dot run at a position (what `consume_number`'s
scanning loop consumes). -/
def numRun (buf : List Nat) (pos : Nat) : List Nat :=
  (buf.drop pos).takeWhile (fun c => isDigit c || c = 46)

/-- The suffix after a serialized value never starts with a digit or a
dot, so the number scanner stops exactly at the value's end.  Holds for
every suffix the serializer produces: empty, `,`, `]`, `:`, `}`. -/
def headSafe : List Nat → Bool
  | [] => true
  | c :: _ => !(isDigit c || c = 46)

/-! ## Basic lemmas -/

theorem reparsedCow_data (s : List Nat) : (reparsedCow s).data = s := by
  unfold reparsedCow
  split <;> rfl

theorem getElem?_pre (pre s : List Nat) (i : Nat) :
    (pre ++ s)[pre.length + i]? = s[i]? := by
  rw [List.getElem?_append_right (by omega)]
  congr 1
  omega

theorem getElem?_pre0 (pre s : List Nat) :
    (pre ++ s)[pre.length]? = s[0]? := by
  simpa using getElem?_pre pre s 0

theorem natToDigits_go_congr :
    ∀ f₁ f₂ n, n < f₁ → n < f₂ → natToDigits_go f₁ n = natToDigits_go f₂ n := by
  intro f₁
  induction f₁ using Nat.strong_induction_on with
  | _ f₁ ih =>
    intro f₂ n h₁ h₂
    match f₁, f₂ with
    | fa + 1, fb + 1 =>
      simp only [natToDigits_go]
      by_cases h10 : n < 10
      · simp [h10]
      · have hdiv : n / 10 < n := Nat.div_lt_self (by omega) (by norm_num)
        simp only [h10, if_false]
        rw [ih fa (by omega) fb (n / 10) (by omega) (by omega)]

/-- The recursion equation of `natToDigits` with the fuel hidden. -/
theorem natToDigits_eq (n : Nat) :
    natToDigits n = if n < 10 then [48 + n]
      else natToDigits (n / 10) ++ [48 + n % 10] := by
  show natToDigits_go (n + 1) n = _
  by_cases h10 : n < 10
  · simp [natToDigits_go, h10]
  · have hdiv : n / 10 < n := Nat.div_lt_self (by omega) (by norm_num)
    simp only [natToDigits_go, h10, if_false]
    rw [natToDigits_go_congr n (n / 10 + 1) (n / 10) (by omega) (Nat.lt_succ_self _)]
    rfl

/-! ## `next_token` characterization -/

theorem next_token_eq (buf : List Nat) (pos : Nat) :
    next_token buf pos =
      match buf[pos]? with
      | none => (0, pos)
      | some c =>
        if isTokenStart c then (c, pos)
        else if isWs c then next_token buf (pos + 1)
        else (0, pos) := by
  match h : buf[pos]? with
  | none =>
    unfold next_token
    cases hf : buf.length + 1 - pos with
    | zero => simp [next_token_go]
    | succ k => simp [next_token_go, h]
  | some c =>
    have hlt : pos < buf.length := by
      by_contra hge
      rw [List.getElem?_eq_none (Nat.le_of_not_lt hge)] at h
      exact Option.noConfusion h
    unfold next_token
    have hf : buf.length + 1 - pos = (buf.length - pos) + 1 := by omega
    rw [hf]
    simp only [next_token_go, h]
    have h2 : buf.length - pos = buf.length + 1 - (pos + 1) := by omega
    rw [h2]

theorem next_token_none {buf : List Nat} {pos : Nat} (h : buf[pos]? = none) :
    next_token buf pos = (0, pos) := by
  rw [next_token_eq, h]

theorem next_token_token {buf : List Nat} {pos : Nat} {c : Nat}
    (h : buf[pos]? = some c) (ht : isTokenStart c = true) :
    next_token buf pos = (c, pos) := by
  rw [next_token_eq, h]
  simp [ht]

theorem ws_not_token {c : Nat} (hw : isWs c = true) : isTokenStart c = false := by
  simp only [isWs, decide_eq_true_eq] at hw
  rcases hw with h | h | h | h <;> subst h <;> rfl

theorem next_token_ws_step {buf : List Nat} {pos : Nat} {c : Nat}
    (h : buf[pos]? = some c) (hw : isWs c = true) :
    next_token buf pos = next_token buf (pos + 1) := by
  rw [next_token_eq, h]
  simp [ws_not_token hw, hw]

theorem next_token_other {buf : List Nat} {pos : Nat} {c : Nat}
    (h : buf[pos]? = some c) (h1 : isTokenStart c = false) (h2 : isWs c = false) :
    next_token buf pos = (0, pos) := by
  rw [next_token_eq, h]
  simp [h1, h2]

theorem next_token_skip_ws (ws : List Nat) (hws : ∀ b ∈ ws, isWs b = true)
    (pre rest : List Nat) :
    next_token (pre ++ ws ++ rest) pre.length
      = next_token (pre ++ ws ++ rest) (pre.length + ws.length) := by
  induction ws generalizing pre with
  | nil => simp
  | cons b ws ih =>
    have hb : (pre ++ (b :: ws) ++ rest)[pre.length]? = some b := by
      rw [List.append_assoc, getElem?_pre0]
      simp
    rw [next_token_ws_step hb (hws b (by simp))]
    have hre : pre ++ (b :: ws) ++ rest = (pre ++ [b]) ++ ws ++ rest := by simp
    have hws' : ∀ x ∈ ws, isWs x = true := fun x hx => hws x (by simp [hx])
    have := ih hws' (pre ++ [b])
    rw [hre]
    have hlen : (pre ++ [b]).length = pre.length + 1 := by simp
    rw [hlen] at this
    rw [show pre.length + (b :: ws).length = pre.length + 1 + ws.length by simp; omega]
    exact this

theorem byteAt (pre : List Nat) (c : Nat) (rest : List Nat) :
    (pre ++ c :: rest)[pre.length]? = some c := by
  rw [getElem?_pre0]
  simp

theorem take_takeWhile_length {α : Type} (p : α → Bool) (l : List α) :
    l.take (l.takeWhile p).length = l.takeWhile p := by
  induction l with
  | nil => rfl
  | cons a l ih =>
    rw [List.takeWhile_cons]
    by_cases h : p a = true
    · simp [h, ih]
    · simp [h]

/-! ## `consume_number` characterization -/

theorem consume_number_go_eq (buf : List Nat) (pos : Nat) (float : Bool) :
    consume_number_go buf pos float =
      match buf[pos]? with
      | none => (pos, float)
      | some c =>
        if isDigit c then consume_number_go buf (pos + 1) float
        else if c = 46 then consume_number_go buf (pos + 1) true
        else (pos, float) := by
  match h : buf[pos]? with
  | none =>
    unfold consume_number_go
    cases hf : buf.length + 1 - pos with
    | zero => simp [consume_number_scan]
    | succ k => simp [consume_number_scan, h]
  | some c =>
    have hlt : pos < buf.length := by
      by_contra hge
      rw [List.getElem?_eq_none (Nat.le_of_not_lt hge)] at h
      exact Option.noConfusion h
    unfold consume_number_go
    have hf : buf.length + 1 - pos = (buf.length - pos) + 1 := by omega
    rw [hf]
    simp only [consume_number_scan, h]
    have h2 : buf.length - pos = buf.length + 1 - (pos + 1) := by omega
    rw [h2]

theorem numRun_nil {buf : List Nat} {pos : Nat} (h : buf[pos]? = none) :
    numRun buf pos = [] := by
  unfold numRun
  have : buf.length ≤ pos := by
    by_contra hlt
    rw [List.getElem?_eq_getElem (by omega)] at h
    exact Option.noConfusion h
  rw [List.drop_eq_nil_of_le this]
  rfl

theorem numRun_cons {buf : List Nat} {pos : Nat} {c : Nat} (h : buf[pos]? = some c) :
    numRun buf pos
      = if (isDigit c || c = 46) then c :: numRun buf (pos + 1) else [] := by
  unfold numRun
  have hlt : pos < buf.length := by
    by_contra hge
    rw [List.getElem?_eq_none (Nat.le_of_not_lt hge)] at h
    exact Option.noConfusion h
  have hc : buf[pos] = c := by
    rw [List.getElem?_eq_getElem hlt] at h
    exact Option.some.inj h
  rw [List.drop_eq_getElem_cons hlt, hc, List.takeWhile_cons]

theorem consume_number_go_spec (buf : List Nat) (pos : Nat) (float : Bool) :
    consume_number_go buf pos float
      = (pos + (numRun buf pos).length, float || decide (46 ∈ numRun buf pos)) := by
  have key : ∀ (k pos : Nat) (float : Bool), buf.length + 1 - pos ≤ k →
      consume_number_go buf pos float
        = (pos + (numRun buf pos).length, float || decide (46 ∈ numRun buf pos)) := by
    intro k
    induction k with
    | zero =>
      intro pos float hk
      have hnone : buf[pos]? = none := List.getElem?_eq_none (by omega)
      rw [consume_number_go_eq, hnone, numRun_nil hnone]
      simp
    | succ k ih =>
      intro pos float hk
      rw [consume_number_go_eq]
      match hc : buf[pos]? with
      | none =>
        rw [numRun_nil hc]
        simp
      | some c =>
        have hlt : pos < buf.length := by
          by_contra hge
          rw [List.getElem?_eq_none (Nat.le_of_not_lt hge)] at hc
          exact Option.noConfusion hc
        rw [numRun_cons hc]
        cases hd : isDigit c with
        | true =>
          have hc46 : ¬(46 = c) := by
            simp only [isDigit, decide_eq_true_eq] at hd
            omega
          simp only [hd, Bool.true_or, if_true]
          rw [ih (pos + 1) float (by omega)]
          rw [Prod.mk.injEq]
          constructor
          · simp
            omega
          · simp [List.mem_cons, hc46]
        | false =>
          by_cases h46 : c = 46
          · subst h46
            simp only [hd, Bool.false_or, if_true, reduceIte]
            rw [ih (pos + 1) true (by omega)]
            rw [Prod.mk.injEq]
            constructor
            · simp
              omega
            · simp [List.mem_cons]
          · have hcond : (isDigit c || decide (c = 46)) = false := by simp [hd, h46]
            simp only [hd, Bool.false_eq_true, if_false, h46, hcond]
            simp
  exact key (buf.length + 1 - pos) pos float (le_refl _)

theorem consume_number_spec {buf : List Nat} {pos : Nat} {c : Nat}
    (h : buf[pos]? = some c) (hd : isDigit c = true) :
    consume_number buf pos
      = .ok ((numRun buf pos, decide (46 ∈ numRun buf pos)),
             pos + (numRun buf pos).length) := by
  unfold consume_number
  rw [h]
  simp only [Option.getD_some, hd]
  rw [consume_number_go_spec]
  simp only [Bool.false_or]
  have hspan : (buf.drop pos).take (pos + (numRun buf pos).length - pos)
      = numRun buf pos := by
    have h1 : pos + (numRun buf pos).length - pos = (numRun buf pos).length := by omega
    rw [h1]
    exact take_takeWhile_length _ _
  rw [hspan]
  simp

/-! ## `consume_lit` characterization -/

theorem consume_lit_spec (pre lit suf : List Nat) :
    consume_lit (pre ++ lit ++ suf) pre.length lit = .ok (pre.length + lit.length) := by
  unfold consume_lit
  have h1 : ¬((pre ++ lit ++ suf).length < pre.length + lit.length) := by
    simp only [List.length_append]
    omega
  have h2 : (((pre ++ lit ++ suf)).drop pre.length).take lit.length = lit := by
    rw [List.append_assoc, List.drop_left, List.take_left]
  simp [h1, h2]

/-! ## `consume_str` characterization -/

theorem consume_str_go_eq (buf : List Nat) (pos : Nat) (escape escaped : Bool) :
    consume_str_go buf pos escape escaped =
      match buf[pos]? with
      | none => .error ⟨"Unexpected data end while parsing string", pos⟩
      | some c =>
        if c = 92 ∧ escape = false then consume_str_go buf (pos + 1) true true
        else if c = 34 ∧ escape = false then .ok (pos, escaped)
        else consume_str_go buf (pos + 1) false escaped := by
  match h : buf[pos]? with
  | none =>
    unfold consume_str_go
    cases hf : buf.length + 1 - pos with
    | zero => simp [consume_str_scan]
    | succ k => simp [consume_str_scan, h]
  | some c =>
    have hlt : pos < buf.length := by
      by_contra hge
      rw [List.getElem?_eq_none (Nat.le_of_not_lt hge)] at h
      exact Option.noConfusion h
    unfold consume_str_go
    have hf : buf.length + 1 - pos = (buf.length - pos) + 1 := by omega
    rw [hf]
    simp only [consume_str_scan, h]
    have h2 : buf.length - pos = buf.length + 1 - (pos + 1) := by omega
    rw [h2]

theorem consume_str_go_step {buf : List Nat} {pos : Nat} {c : Nat} (e b : Bool)
    (h : buf[pos]? = some c) :
    consume_str_go buf pos e b
      = if c = 92 ∧ e = false then consume_str_go buf (pos + 1) true true
        else if c = 34 ∧ e = false then .ok (pos, b)
        else consume_str_go buf (pos + 1) false b := by
  rw [consume_str_go_eq, h]

/-- Scanning passes over a span containing no quote and no backslash. -/
theorem consume_str_go_pass (s : List Nat) (hs : ∀ c ∈ s, c ≠ 34 ∧ c ≠ 92) :
    ∀ (pre rest : List Nat) (b : Bool),
    consume_str_go (pre ++ (s ++ rest)) pre.length false b
      = consume_str_go (pre ++ (s ++ rest)) (pre.length + s.length) false b := by
  induction s with
  | nil => intro pre rest b; simp
  | cons c s ih =>
    intro pre rest b
    have hb : (pre ++ ((c :: s) ++ rest))[pre.length]? = some c := byteAt pre c (s ++ rest)
    have hc := hs c (by simp)
    rw [consume_str_go_eq, hb]
    simp only [hc.2, hc.1, false_and, if_false]
    have hre : pre ++ ((c :: s) ++ rest) = (pre ++ [c]) ++ (s ++ rest) := by simp
    rw [hre]
    have := ih (fun x hx => hs x (by simp [hx])) (pre ++ [c]) rest b
    rw [show (pre ++ [c]).length = pre.length + 1 by simp] at this
    rw [show pre.length + (c :: s).length = pre.length + 1 + s.length by simp; omega]
    exact this

/-- Scanning an escape pair: the backslash sets the flag and the next
byte (any byte, even a quote) is skipped. -/
theorem consume_str_go_escpair (pre : List Nat) (x : Nat) (rest : List Nat) (b : Bool) :
    consume_str_go (pre ++ 92 :: x :: rest) pre.length false b
      = consume_str_go (pre ++ 92 :: x :: rest) (pre.length + 2) false true := by
  rw [consume_str_go_eq, byteAt pre 92 (x :: rest)]
  simp only [and_true, if_true, reduceIte]
  have hb2 : (pre ++ 92 :: x :: rest)[pre.length + 1]? = some x := by
    have : pre ++ 92 :: x :: rest = (pre ++ [92]) ++ x :: rest := by simp
    rw [this, show pre.length + 1 = (pre ++ [92]).length by simp]
    exact byteAt (pre ++ [92]) x rest
  rw [consume_str_go_eq, hb2]
  by_cases hx92 : x = 92
  · subst hx92
    simp
  · by_cases hx34 : x = 34
    · subst hx34
      simp [show pre.length + 1 + 1 = pre.length + 2 by omega]
    · simp [hx92, hx34, show pre.length + 1 + 1 = pre.length + 2 by omega]

/-- Scanning stops at an unescaped quote. -/
theorem consume_str_go_close (pre rest : List Nat) (b : Bool) :
    consume_str_go (pre ++ 34 :: rest) pre.length false b = .ok (pre.length, b) := by
  rw [consume_str_go_eq, byteAt pre 34 rest]
  simp

/-! ## String escaping lemmas -/

theorem escByte_plain {c : Nat}
    (h : ¬(c = 34 ∨ c = 92 ∨ c = 10 ∨ c = 13 ∨ c = 9 ∨ c = 8 ∨ c = 12)) :
    escByte c = [c] := by
  push_neg at h
  obtain ⟨h34, h92, h10, h13, h9, h8, h12⟩ := h
  by_cases h47 : c = 47
  · subst h47
    rfl
  · unfold escByte
    simp [h34, h92, h47, h10, h13, h9, h8, h12]

theorem escByte_esc {c : Nat}
    (h : c = 34 ∨ c = 92 ∨ c = 10 ∨ c = 13 ∨ c = 9 ∨ c = 8 ∨ c = 12) :
    ∃ x, escByte c = [92, x] ∧ decodeEsc x = some c := by
  rcases h with h | h | h | h | h | h | h <;> subst h <;> exact ⟨_, rfl, rfl⟩

theorem needsEsc_cons (c : Nat) (s : List Nat) :
    needsEsc (c :: s)
      = (decide (c = 34 ∨ c = 92 ∨ c = 10 ∨ c = 13 ∨ c = 9 ∨ c = 8 ∨ c = 12)
          || needsEsc s) := by
  unfold needsEsc
  simp

theorem content_plain {s : List Nat} (h : needsEsc s = false) :
    serialize_str_content s = s := by
  induction s with
  | nil => rfl
  | cons c s ih =>
    rw [needsEsc_cons] at h
    simp only [Bool.or_eq_false_iff, decide_eq_false_iff_not] at h
    unfold serialize_str_content
    rw [escByte_plain h.1, ih h.2]
    rfl

theorem validUtf8_ascii (s : List Nat) (h : ∀ c ∈ s, c ≤ 127) :
    validUtf8 s = true := by
  induction s with
  | nil => rfl
  | cons c s ih =>
    show (if c ≤ 127 then validUtf8 s else validAfter (classify c) s) = true
    rw [if_pos (h c (by simp))]
    exact ih (fun x hx => h x (by simp [hx]))

theorem decodeEsc_ascii {c d : Nat} (h : decodeEsc c = some d) : d ≤ 127 := by
  unfold decodeEsc at h
  split_ifs at h with h1 h2 h3 h4 h5 h6
  · injection h with h'
    rcases h1 with h1 | h1 | h1 <;> omega
  · injection h with h'
    omega
  · injection h with h'
    omega
  · injection h with h'
    omega
  · injection h with h'
    omega
  · injection h with h'
    omega

/-! ## `consume_str` on serialized content -/

theorem consume_str_go_content (s : List Nat) :
    ∀ (pre rest : List Nat) (b : Bool),
    consume_str_go (pre ++ (serialize_str_content s ++ 34 :: rest)) pre.length false b
      = .ok (pre.length + (serialize_str_content s).length, b || needsEsc s) := by
  induction s with
  | nil =>
    intro pre rest b
    have h0 : serialize_str_content [] = ([] : List Nat) := rfl
    rw [h0]
    simpa [needsEsc] using consume_str_go_close pre rest b
  | cons c s ih =>
    intro pre rest b
    by_cases hs : c = 34 ∨ c = 92 ∨ c = 10 ∨ c = 13 ∨ c = 9 ∨ c = 8 ∨ c = 12
    · obtain ⟨x, hx, hdx⟩ := escByte_esc hs
      have hform : pre ++ (serialize_str_content (c :: s) ++ 34 :: rest)
          = pre ++ 92 :: x :: (serialize_str_content s ++ 34 :: rest) := by
        show pre ++ ((escByte c ++ serialize_str_content s) ++ 34 :: rest) = _
        rw [hx]
        simp
      rw [hform, consume_str_go_escpair]
      have hform2 : pre ++ 92 :: x :: (serialize_str_content s ++ 34 :: rest)
          = (pre ++ [92, x]) ++ (serialize_str_content s ++ 34 :: rest) := by simp
      rw [hform2, show pre.length + 2 = (pre ++ [92, x]).length by simp]
      rw [ih (pre ++ [92, x]) rest true]
      simp only [Except.ok.injEq, Prod.mk.injEq]
      constructor
      · show (pre ++ [92, x]).length + (serialize_str_content s).length
          = pre.length + (serialize_str_content (c :: s)).length
        show _ = pre.length + (escByte c ++ serialize_str_content s).length
        rw [hx]
        simp
        omega
      · rw [needsEsc_cons]
        simp [hs]
    · have hc34 : c ≠ 34 := fun hh => hs (by simp [hh])
      have hc92 : c ≠ 92 := fun hh => hs (by simp [hh])
      have hform : pre ++ (serialize_str_content (c :: s) ++ 34 :: rest)
          = pre ++ ([c] ++ (serialize_str_content s ++ 34 :: rest)) := by
        show pre ++ ((escByte c ++ serialize_str_content s) ++ 34 :: rest) = _
        rw [escByte_plain hs]
        simp
      rw [hform, consume_str_go_pass [c] (by simp [hc34, hc92]) pre _ b]
      have hform2 : pre ++ ([c] ++ (serialize_str_content s ++ 34 :: rest))
          = (pre ++ [c]) ++ (serialize_str_content s ++ 34 :: rest) := by simp
      rw [hform2, show pre.length + [c].length = (pre ++ [c]).length by simp]
      rw [ih (pre ++ [c]) rest b]
      simp only [Except.ok.injEq, Prod.mk.injEq]
      constructor
      · show (pre ++ [c]).length + (serialize_str_content s).length
          = pre.length + (escByte c ++ serialize_str_content s).length
        rw [escByte_plain hs]
        simp
        omega
      · rw [needsEsc_cons]
        simp [hs]

theorem serialize_str_length (s : List Nat) :
    (serialize_str s).length = (serialize_str_content s).length + 2 := by
  unfold serialize_str
  simp

theorem consume_str_serialize (s pre rest : List Nat) :
    consume_str (pre ++ (serialize_str s ++ rest)) pre.length
      = .ok ((serialize_str_content s, needsEsc s),
             pre.length + (serialize_str s).length) := by
  have hform : pre ++ (serialize_str s ++ rest)
      = pre ++ 34 :: (serialize_str_content s ++ 34 :: rest) := by
    unfold serialize_str
    simp
  rw [hform]
  unfold consume_str
  rw [byteAt pre 34 _]
  simp only [ne_eq, not_true_eq_false, if_false, reduceIte]
  have hform2 : pre ++ 34 :: (serialize_str_content s ++ 34 :: rest)
      = (pre ++ [34]) ++ (serialize_str_content s ++ 34 :: rest) := by simp
  rw [hform2, show pre.length + 1 = (pre ++ [34]).length by simp]
  rw [consume_str_go_content s (pre ++ [34]) rest false]
  simp only [Bool.false_or]
  have hdrop : ((pre ++ [34]) ++ (serialize_str_content s ++ 34 :: rest)).drop
      ((pre ++ [34]).length) = serialize_str_content s ++ 34 :: rest :=
    List.drop_left _ _
  have harith : (pre ++ [34]).length + (serialize_str_content s).length
      - (pre ++ [34]).length = (serialize_str_content s).length := by omega
  have hfin : (pre ++ [34]).length + (serialize_str_content s).length + 1
      = pre.length + (serialize_str s).length := by
    rw [serialize_str_length]
    simp only [List.length_append, List.length_cons, List.length_nil]
    omega
  rw [hdrop, harith, List.take_left, hfin]

/-! ## `unescape` on serialized content -/

theorem unescape_serialize (s : List Nat) (errPos : Nat) :
    unescape errPos (serialize_str_content s) false = .ok s := by
  induction s with
  | nil => rfl
  | cons c s ih =>
    by_cases hs : c = 34 ∨ c = 92 ∨ c = 10 ∨ c = 13 ∨ c = 9 ∨ c = 8 ∨ c = 12
    · obtain ⟨x, hx, hdx⟩ := escByte_esc hs
      show unescape errPos (escByte c ++ serialize_str_content s) false = _
      rw [hx]
      show unescape errPos (92 :: x :: serialize_str_content s) false = _
      rw [show unescape errPos (92 :: x :: serialize_str_content s) false
        = unescape errPos (x :: serialize_str_content s) true by simp [unescape]]
      simp [unescape, hdx, ih]
    · have hc92 : c ≠ 92 := fun hh => hs (by simp [hh])
      show unescape errPos (escByte c ++ serialize_str_content s) false = _
      rw [escByte_plain hs]
      simp [unescape, hc92, ih]

/-! ## `parse_str` on serialized strings -/

theorem parse_str_serialize (s : List Nat) (hutf : validUtf8 s = true)
    (pre rest : List Nat) :
    parse_str (pre ++ (serialize_str s ++ rest)) pre.length
      = .ok (reparsedCow s, pre.length + (serialize_str s).length) := by
  unfold parse_str
  rw [consume_str_serialize]
  cases hne : needsEsc s with
  | false =>
    rw [content_plain hne]
    simp [hutf, reparsedCow, hne]
  | true =>
    simp [unescape_serialize, hutf, reparsedCow, hne]

/-! ## `consume_str` and `parse_str` on raw spans -/

theorem consume_str_plain (s : List Nat) (hq : ∀ c ∈ s, c ≠ 34 ∧ c ≠ 92)
    (pre rest : List Nat) :
    consume_str (pre ++ 34 :: (s ++ 34 :: rest)) pre.length
      = .ok ((s, false), pre.length + s.length + 2) := by
  have hscan : consume_str_go (pre ++ 34 :: (s ++ 34 :: rest)) (pre.length + 1) false false
      = .ok (pre.length + 1 + s.length, false) := by
    have e1 : pre ++ 34 :: (s ++ 34 :: rest) = (pre ++ [34]) ++ (s ++ 34 :: rest) := by simp
    have e2 : pre.length + 1 = (pre ++ [34]).length := by simp
    rw [e1, e2, consume_str_go_pass s hq (pre ++ [34]) (34 :: rest) false]
    have e3 : (pre ++ [34]) ++ (s ++ 34 :: rest) = ((pre ++ [34]) ++ s) ++ 34 :: rest := by
      simp
    have e4 : (pre ++ [34]).length + s.length = ((pre ++ [34]) ++ s).length :=
      (List.length_append _ _).symm
    rw [e3, e4, consume_str_go_close ((pre ++ [34]) ++ s) rest false]
    try simp only [Except.ok.injEq, Prod.mk.injEq, List.length_append, List.length_cons,
      List.length_nil, and_true, and_self, true_and]
    all_goals first | rfl | trivial | omega
  unfold consume_str
  rw [byteAt pre 34 _]
  simp only [ne_eq, not_true_eq_false, if_false, reduceIte, hscan]
  have e6 : (pre ++ 34 :: (s ++ 34 :: rest)).drop (pre.length + 1) = s ++ 34 :: rest := by
    rw [show pre ++ 34 :: (s ++ 34 :: rest) = (pre ++ [34]) ++ (s ++ 34 :: rest) by simp,
        show pre.length + 1 = (pre ++ [34]).length by simp]
    exact List.drop_left _ _
  have e7 : pre.length + 1 + s.length - (pre.length + 1) = s.length := by omega
  rw [e6, e7, List.take_left]
  simp only [Except.ok.injEq, Prod.mk.injEq, List.length_append, List.length_cons,
    List.length_nil, and_true, and_self, true_and]
  all_goals first | rfl | trivial | omega

theorem consume_str_escaped_quote (s₁ s₂ : List Nat)
    (h₁ : ∀ c ∈ s₁, c ≠ 34 ∧ c ≠ 92) (h₂ : ∀ c ∈ s₂, c ≠ 34 ∧ c ≠ 92)
    (pre rest : List Nat) :
    consume_str (pre ++ 34 :: (s₁ ++ 92 :: 34 :: (s₂ ++ 34 :: rest))) pre.length
      = .ok ((s₁ ++ 92 :: 34 :: s₂, true),
             pre.length + s₁.length + s₂.length + 4) := by
  have hscan : consume_str_go (pre ++ 34 :: (s₁ ++ 92 :: 34 :: (s₂ ++ 34 :: rest)))
      (pre.length + 1) false false
      = .ok (pre.length + 1 + (s₁.length + (s₂.length + 2)), true) := by
    have e1 : pre ++ 34 :: (s₁ ++ 92 :: 34 :: (s₂ ++ 34 :: rest))
        = (pre ++ [34]) ++ (s₁ ++ (92 :: 34 :: (s₂ ++ 34 :: rest))) := by simp
    have e2 : pre.length + 1 = (pre ++ [34]).length := by simp
    rw [e1, e2, consume_str_go_pass s₁ h₁ (pre ++ [34]) _ false]
    have e3 : (pre ++ [34]) ++ (s₁ ++ (92 :: 34 :: (s₂ ++ 34 :: rest)))
        = ((pre ++ [34]) ++ s₁) ++ 92 :: 34 :: (s₂ ++ 34 :: rest) := by simp
    have e4 : (pre ++ [34]).length + s₁.length = ((pre ++ [34]) ++ s₁).length :=
      (List.length_append _ _).symm
    rw [e3, e4, consume_str_go_escpair ((pre ++ [34]) ++ s₁) 34 _ false]
    have e5 : ((pre ++ [34]) ++ s₁).length + 2 = (((pre ++ [34]) ++ s₁) ++ [92, 34]).length := by
      simp only [List.length_append, List.length_cons, List.length_nil] <;> omega
    have e6 : ((pre ++ [34]) ++ s₁) ++ 92 :: 34 :: (s₂ ++ 34 :: rest)
        = (((pre ++ [34]) ++ s₁) ++ [92, 34]) ++ (s₂ ++ (34 :: rest)) := by simp
    rw [e5, e6, consume_str_go_pass s₂ h₂ (((pre ++ [34]) ++ s₁) ++ [92, 34]) _ true]
    have e7 : (((pre ++ [34]) ++ s₁) ++ [92, 34]).length + s₂.length
        = ((((pre ++ [34]) ++ s₁) ++ [92, 34]) ++ s₂).length :=
      (List.length_append _ _).symm
    have e8 : (((pre ++ [34]) ++ s₁) ++ [92, 34]) ++ (s₂ ++ (34 :: rest))
        = ((((pre ++ [34]) ++ s₁) ++ [92, 34]) ++ s₂) ++ 34 :: rest := by simp
    rw [e7, e8, consume_str_go_close ((((pre ++ [34]) ++ s₁) ++ [92, 34]) ++ s₂) rest true]
    simp only [Except.ok.injEq, Prod.mk.injEq, List.length_append, List.length_cons,
      List.length_nil, and_true, and_self, true_and]
    all_goals first | rfl | trivial | omega
  unfold consume_str
  rw [byteAt pre 34 _]
  simp only [ne_eq, not_true_eq_false, if_false, reduceIte, hscan]
  have e10 : (pre ++ 34 :: (s₁ ++ 92 :: 34 :: (s₂ ++ 34 :: rest))).drop (pre.length + 1)
      = (s₁ ++ 92 :: 34 :: s₂) ++ 34 :: rest := by
    rw [show pre ++ 34 :: (s₁ ++ 92 :: 34 :: (s₂ ++ 34 :: rest))
        = (pre ++ [34]) ++ ((s₁ ++ 92 :: 34 :: s₂) ++ 34 :: rest) by simp,
        show pre.length + 1 = (pre ++ [34]).length by simp]
    exact List.drop_left _ _
  have e11 : pre.length + 1 + (s₁.length + (s₂.length + 2)) - (pre.length + 1)
      = (s₁ ++ 92 :: 34 :: s₂).length := by
    simp only [List.length_append, List.length_cons, List.length_nil] <;> omega
  rw [e10, e11, List.take_left]
  simp only [Except.ok.injEq, Prod.mk.injEq, List.length_append, List.length_cons,
    List.length_nil, and_true, and_self, true_and]
  all_goals first | rfl | trivial | omega

theorem consume_str_go_noclose (s : List Nat) (hq : 34 ∉ s) :
    ∀ (pre : List Nat) (e b : Bool),
    consume_str_go (pre ++ s) pre.length e b
      = .error ⟨"Unexpected data end while parsing string", (pre ++ s).length⟩ := by
  induction s with
  | nil =>
    intro pre e b
    rw [consume_str_go_eq]
    have hn : (pre ++ [])[pre.length]? = none :=
      List.getElem?_eq_none (by simp)
    rw [hn]
    simp
  | cons c s ih =>
    intro pre e b
    have hc34 : c ≠ 34 := fun hh => hq (by simp [hh])
    have hre : pre ++ c :: s = (pre ++ [c]) ++ s := by simp
    have hlen : pre.length + 1 = (pre ++ [c]).length := by simp
    have hq' : 34 ∉ s := fun hh => hq (by simp [hh])
    rw [consume_str_go_step e b (byteAt pre c s)]
    by_cases h92 : c = 92 ∧ e = false
    · rw [if_pos h92, hre, hlen, ih hq' (pre ++ [c]) true true]
    · rw [if_neg h92, if_neg (by simp [hc34]), hre, hlen, ih hq' (pre ++ [c]) false b]

theorem consume_str_eof (s : List Nat) (h : 34 ∉ s) (pre : List Nat) :
    consume_str (pre ++ 34 :: s) pre.length
      = .error ⟨"Unexpected data end while parsing string", (pre ++ 34 :: s).length⟩ := by
  unfold consume_str
  rw [byteAt pre 34 s]
  simp only [ne_eq, not_true_eq_false, if_false, reduceIte]
  have hform : pre ++ 34 :: s = (pre ++ [34]) ++ s := by simp
  rw [hform, show pre.length + 1 = (pre ++ [34]).length by simp]
  rw [consume_str_go_noclose s h (pre ++ [34])]

theorem parse_str_plain (s : List Nat) (hq : ∀ c ∈ s, c ≠ 34 ∧ c ≠ 92)
    (hutf : validUtf8 s = true) (pre rest : List Nat) :
    parse_str (pre ++ 34 :: (s ++ 34 :: rest)) pre.length
      = .ok (.borrowed s, pre.length + s.length + 2) := by
  unfold parse_str
  rw [consume_str_plain s hq]
  simp [hutf]

theorem parse_str_badutf (s : List Nat) (hq : ∀ c ∈ s, c ≠ 34 ∧ c ≠ 92)
    (hutf : validUtf8 s = false) (pre rest : List Nat) :
    parse_str (pre ++ 34 :: (s ++ 34 :: rest)) pre.length
      = .error ⟨"String wasn't utf8 encoded", pre.length + s.length + 2⟩ := by
  unfold parse_str
  rw [consume_str_plain s hq]
  simp [hutf]

theorem consume_str_single_escape (c : Nat) (rest : List Nat) :
    consume_str (34 :: 92 :: c :: 34 :: rest) 0 = .ok (([92, c], true), 4) := by
  have hscan : consume_str_go (34 :: 92 :: c :: 34 :: rest) 1 false false
      = .ok (3, true) := by
    have h1 : (34 : Nat) :: 92 :: c :: 34 :: rest = [34] ++ 92 :: c :: (34 :: rest) := by
      simp
    have hp := consume_str_go_escpair [34] c (34 :: rest) false
    rw [show ([34] : List Nat).length = 1 from rfl] at hp
    rw [h1, hp]
    have h2 : ([34] : List Nat) ++ 92 :: c :: (34 :: rest) = [34, 92, c] ++ 34 :: rest := by
      simp
    have hc := consume_str_go_close [34, 92, c] rest true
    rw [show ([34, 92, c] : List Nat).length = 3 from rfl] at hc
    rw [h2] at hp ⊢
    rw [show (1 : Nat) + 2 = 3 from rfl, hc]
  unfold consume_str
  have h0 : (34 :: 92 :: c :: 34 :: rest)[0]? = some 34 := rfl
  rw [h0]
  simp only [ne_eq, not_true_eq_false, if_false, reduceIte]
  rw [show (0 : Nat) + 1 = 1 from rfl]
  simp only [hscan]
  rfl

theorem parse_str_escape_good {c d : Nat} (hd : decodeEsc c = some d)
    (rest : List Nat) :
    parse_str (34 :: 92 :: c :: 34 :: rest) 0 = .ok (.owned [d], 4) := by
  unfold parse_str
  rw [consume_str_single_escape c rest]
  have hun : unescape 4 [92, c] false = .ok [d] := by
    simp [unescape, hd]
  have hutf : validUtf8 [d] = true :=
    validUtf8_ascii [d] (by simpa using decodeEsc_ascii hd)
  simp [hun, hutf]

theorem parse_str_escape_bad {c : Nat} (hd : decodeEsc c = none)
    (rest : List Nat) :
    parse_str (34 :: 92 :: c :: 34 :: rest) 0
      = .error ⟨if c = 117 then "Hex character not handled"
                else "Unrecognised escape sequence", 4⟩ := by
  unfold parse_str
  rw [consume_str_single_escape c rest]
  have hun : unescape 4 [92, c] false
      = .error ⟨if c = 117 then "Hex character not handled"
                else "Unrecognised escape sequence", 4⟩ := by
    simp [unescape, hd]
  simp [hun]

/-! ## `parse_number` characterization -/

theorem numRun_first {buf : List Nat} {pos c : Nat} (h : buf[pos]? = some c)
    (hd : isDigit c = true) :
    numRun buf pos = c :: numRun buf (pos + 1) := by
  rw [numRun_cons h, if_pos (by simp [hd])]

theorem numRun_ascii (buf : List Nat) (pos : Nat) :
    validUtf8 (numRun buf pos) = true := by
  apply validUtf8_ascii
  intro c hc
  have h1 := List.mem_takeWhile_imp hc
  simp only [Bool.or_eq_true, decide_eq_true_eq, isDigit] at h1
  rcases h1 with h1 | h1 <;> omega

theorem numRun_all_digit {buf : List Nat} {pos : Nat}
    (hnd : (46 ∈ numRun buf pos) = False) :
    (numRun buf pos).all isDigit = true := by
  rw [List.all_eq_true]
  intro c hc
  have h1 := List.mem_takeWhile_imp hc
  simp only [Bool.or_eq_true, decide_eq_true_eq] at h1
  rcases h1 with h1 | h1
  · exact h1
  · subst h1
    exact absurd hc (by simp [hnd])

theorem parse_number_int_ok {buf : List Nat} {pos c : Nat}
    (h : buf[pos]? = some c) (hd : isDigit c = true)
    (hnd : (46 ∈ numRun buf pos) = False)
    (hlt : digitsToNat (numRun buf pos) 0 < 2 ^ 63) :
    parse_number buf pos
      = .ok (.Int (digitsToNat (numRun buf pos) 0),
             pos + (numRun buf pos).length) := by
  unfold parse_number
  rw [consume_number_spec h hd]
  have hne : numRun buf pos ≠ [] := by
    rw [numRun_first h hd]
    simp
  have hi : i64FromStr (numRun buf pos)
      = some (Int.ofNat (digitsToNat (numRun buf pos) 0)) := by
    unfold i64FromStr
    rw [if_pos ⟨hne, numRun_all_digit hnd, hlt⟩]
  simp [numRun_ascii, hnd, hi]

theorem parse_number_int_overflow {buf : List Nat} {pos c : Nat}
    (h : buf[pos]? = some c) (hd : isDigit c = true)
    (hnd : (46 ∈ numRun buf pos) = False)
    (hge : ¬digitsToNat (numRun buf pos) 0 < 2 ^ 63) :
    parse_number buf pos
      = .error ⟨"Wasn't able to parse number as integer",
                pos + (numRun buf pos).length⟩ := by
  unfold parse_number
  rw [consume_number_spec h hd]
  have hi : i64FromStr (numRun buf pos) = none := by
    unfold i64FromStr
    rw [if_neg (fun hand => hge hand.2.2)]
  simp [numRun_ascii, hnd, hi]

theorem parse_number_float_ok {buf : List Nat} {pos c : Nat}
    (h : buf[pos]? = some c) (hd : isDigit c = true)
    (hdot : (46 ∈ numRun buf pos) = True)
    (hcount : (numRun buf pos).count 46 ≤ 1) :
    parse_number buf pos
      = .ok (.Float (.ofLit (numRun buf pos)),
             pos + (numRun buf pos).length) := by
  unfold parse_number
  rw [consume_number_spec h hd]
  have hf : f64FromStr (numRun buf pos) = some (.ofLit (numRun buf pos)) := by
    unfold f64FromStr
    rw [if_pos hcount]
  simp [numRun_ascii, hdot, hf]

theorem parse_number_float_err {buf : List Nat} {pos c : Nat}
    (h : buf[pos]? = some c) (hd : isDigit c = true)
    (hdot : (46 ∈ numRun buf pos) = True)
    (hcount : ¬(numRun buf pos).count 46 ≤ 1) :
    parse_number buf pos
      = .error ⟨"Wasn't able to parse number as float",
                pos + (numRun buf pos).length⟩ := by
  unfold parse_number
  rw [consume_number_spec h hd]
  have hf : f64FromStr (numRun buf pos) = none := by
    unfold f64FromStr
    rw [if_neg hcount]
  simp [numRun_ascii, hdot, hf]

/-! ## `_parse_json` dispatch -/

theorem _parse_json_str {buf : List Nat} {pos p : Nat} (fuel : Nat)
    (h : next_token buf pos = (34, p)) :
    _parse_json (fuel + 1) buf pos
      = match parse_str buf p with
        | .ok sp => .ok (.String sp.1, sp.2)
        | .error e => .error e := by
  simp only [_parse_json, h]
  norm_num

theorem _parse_json_digit {buf : List Nat} {pos c p : Nat} (fuel : Nat)
    (h : next_token buf pos = (c, p)) (hd : isDigit c = true) :
    _parse_json (fuel + 1) buf pos = parse_number buf p := by
  have hc34 : ¬(c = 34) := by
    simp only [isDigit, decide_eq_true_eq] at hd
    omega
  simp only [_parse_json, h, hc34, if_false, hd, if_true, reduceIte]

theorem _parse_json_null {buf : List Nat} {pos p : Nat} (fuel : Nat)
    (h : next_token buf pos = (110, p)) :
    _parse_json (fuel + 1) buf pos
      = match consume_null buf p with
        | .ok q => .ok (.Null, q)
        | .error e => .error e := by
  simp only [_parse_json, h]
  norm_num [isDigit]

theorem _parse_json_true {buf : List Nat} {pos p : Nat} (fuel : Nat)
    (h : next_token buf pos = (116, p)) :
    _parse_json (fuel + 1) buf pos
      = match consume_true buf p with
        | .ok q => .ok (.Bool true, q)
        | .error e => .error e := by
  simp only [_parse_json, h]
  norm_num [isDigit]

theorem _parse_json_false {buf : List Nat} {pos p : Nat} (fuel : Nat)
    (h : next_token buf pos = (102, p)) :
    _parse_json (fuel + 1) buf pos
      = match consume_false buf p with
        | .ok q => .ok (.Bool false, q)
        | .error e => .error e := by
  simp only [_parse_json, h]
  norm_num [isDigit]

theorem _parse_json_obj {buf : List Nat} {pos p : Nat} (fuel : Nat)
    (h : next_token buf pos = (123, p)) :
    _parse_json (fuel + 1) buf pos
      = match parse_object fuel buf p with
        | .ok op => .ok (.Object op.1, op.2)
        | .error e => .error e := by
  simp only [_parse_json, h]
  norm_num [isDigit]

theorem _parse_json_arr {buf : List Nat} {pos p : Nat} (fuel : Nat)
    (h : next_token buf pos = (91, p)) :
    _parse_json (fuel + 1) buf pos
      = match parse_array fuel buf p with
        | .ok ap => .ok (.Array ap.1, ap.2)
        | .error e => .error e := by
  simp only [_parse_json, h]
  norm_num [isDigit]

theorem _parse_json_end {buf : List Nat} {pos p : Nat} (fuel : Nat)
    (h : next_token buf pos = (0, p)) :
    _parse_json (fuel + 1) buf pos = .error ⟨"Unexpected message end", p⟩ := by
  simp only [_parse_json, h]
  norm_num [isDigit]

theorem parse_json_eq (buf : List Nat) :
    parse_json buf
      = match _parse_json (8 * buf.length + 7 + 1) buf 0 with
        | .ok vp => .ok vp.1
        | .error e => .error e := by
  unfold parse_json
  rw [show 8 * buf.length + 8 = 8 * buf.length + 7 + 1 by omega]

/-! ## Handler lemmas -/

theorem readLine_snd_le (s : List Nat) : (readLine s).2.length ≤ s.length := by
  induction s with
  | nil => simp [readLine]
  | cons c s ih =>
    unfold readLine
    by_cases h : c = 10
    · simp [h]
    · simp only [h, if_false, reduceIte]
      exact Nat.le_succ_of_le ih

theorem readLine_cons_snd_le (c : Nat) (s : List Nat) :
    (readLine (c :: s)).2.length ≤ s.length := by
  unfold readLine
  by_cases h : c = 10
  · simp [h]
  · simp only [h, if_false, reduceIte]
    exact readLine_snd_le s

theorem readLine_of_line (l rest : List Nat) (hl : 10 ∉ l) :
    readLine (l ++ 10 :: rest) = (l ++ [10], rest) := by
  induction l with
  | nil => simp [readLine]
  | cons c l ih =>
    have hc : c ≠ 10 := fun h => hl (by simp [h])
    have ih' := ih (fun h => hl (by simp [h]))
    show readLine (c :: (l ++ 10 :: rest)) = _
    unfold readLine
    simp only [hc, if_false, reduceIte, ih']
    simp

theorem handle_go_congr : ∀ f₁ : Nat, ∀ (f₂ : Nat) (ip : Int → Bool) (s : List Nat),
    s.length < f₁ → s.length < f₂ → handle_go f₁ ip s = handle_go f₂ ip s := by
  intro f₁
  induction f₁ using Nat.strong_induction_on with
  | _ f₁ ih =>
    intro f₂ ip s h₁ h₂
    match f₁, f₂, s with
    | fa + 1, fb + 1, [] => rfl
    | fa + 1, fb + 1, c :: s' =>
      simp only [handle_go]
      cases hc : checkRequest (readLine (c :: s')).1 with
      | none => rfl
      | some n =>
        have hlt := readLine_cons_snd_le c s'
        have ha : (readLine (c :: s')).2.length < fa := by
          simp only [List.length_cons] at h₁
          omega
        have hb : (readLine (c :: s')).2.length < fb := by
          simp only [List.length_cons] at h₂
          omega
        rw [ih fa (by omega) fb ip (readLine (c :: s')).2 ha hb]

theorem handle_cons (ip : Int → Bool) (c : Nat) (s : List Nat) :
    handle ip (c :: s)
      = match checkRequest (readLine (c :: s)).1 with
        | some n => respBytes ip n ++ handle ip (readLine (c :: s)).2
        | none => errorBytes := by
  show handle_go ((c :: s).length + 1) ip (c :: s) = _
  rw [show (c :: s).length + 1 = (s.length + 1) + 1 by simp]
  simp only [handle_go]
  cases hc : checkRequest (readLine (c :: s)).1 with
  | none => rfl
  | some n =>
    rw [handle_go_congr (s.length + 1) ((readLine (c :: s)).2.length + 1) ip _
      (by have := readLine_cons_snd_le c s; omega) (by omega)]
    rfl

/-! ## Trailing-comma loop lemmas -/

theorem parse_array_go_comma_close {fuel : Nat} {buf : List Nat} {pos : Nat}
    {acc : List Value} {v : Value} {p₂ : Nat}
    (h0 : (next_token buf pos).1 ≠ 93)
    (h1 : _parse_json fuel buf (next_token buf pos).2 = .ok (v, p₂))
    (h2 : (next_token buf p₂).1 = 44)
    (h3 : (next_token buf ((next_token buf p₂).2 + 1)).1 = 93) :
    parse_array_go (fuel + 1) buf pos acc
      = .ok (acc ++ [v], (next_token buf ((next_token buf p₂).2 + 1)).2 + 1) := by
  obtain ⟨f, rfl⟩ : ∃ f, fuel = f + 1 := by
    cases fuel with
    | zero => exact absurd h1 (by simp [_parse_json])
    | succ f => exact ⟨f, rfl⟩
  simp only [parse_array_go, h0, if_false, reduceIte, h1, h2, if_true, reduceIte]
  simp only [parse_array_go, h3, if_true, reduceIte]

theorem parse_object_go_comma_close {fuel : Nat} {buf : List Nat} {pos : Nat}
    {acc : List (CowStr × Value)} {key : CowStr} {v : Value} {p₂ p₃ : Nat}
    (h0 : (next_token buf pos).1 ≠ 125)
    (h1 : parse_str buf (next_token buf pos).2 = .ok (key, p₂))
    (h2 : (next_token buf p₂).1 = 58)
    (h3 : _parse_json fuel buf ((next_token buf p₂).2 + 1) = .ok (v, p₃))
    (h4 : (next_token buf p₃).1 = 44)
    (h5 : (next_token buf ((next_token buf p₃).2 + 1)).1 = 125) :
    parse_object_go (fuel + 1) buf pos acc
      = .ok (insertEntry acc key v,
             (next_token buf ((next_token buf p₃).2 + 1)).2 + 1) := by
  obtain ⟨f, rfl⟩ : ∃ f, fuel = f + 1 := by
    cases fuel with
    | zero => exact absurd h3 (by simp [_parse_json])
    | succ f => exact ⟨f, rfl⟩
  simp only [parse_object_go, h0, if_false, reduceIte, h1]
  rw [if_neg (by rw [h2]; simp)]
  simp only [h3, h4, if_true, reduceIte]
  simp only [parse_object_go, h5, if_true, reduceIte]

/-! ## Decimal digit lemmas -/

theorem natToDigits_all_digit : ∀ n : Nat, ∀ c ∈ natToDigits n, isDigit c = true := by
  intro n
  induction n using Nat.strong_induction_on with
  | _ n ih =>
    intro c hc
    rw [natToDigits_eq] at hc
    by_cases h10 : n < 10
    · rw [if_pos h10] at hc
      simp only [List.mem_singleton] at hc
      subst hc
      simp only [isDigit, decide_eq_true_eq]
      omega
    · rw [if_neg h10] at hc
      rcases List.mem_append.mp hc with h | h
      · exact ih (n / 10) (Nat.div_lt_self (by omega) (by norm_num)) c h
      · simp only [List.mem_singleton] at h
        subst h
        have : n % 10 < 10 := Nat.mod_lt n (by norm_num)
        simp only [isDigit, decide_eq_true_eq]
        omega

theorem natToDigits_ne_nil (n : Nat) : natToDigits n ≠ [] := by
  rw [natToDigits_eq]
  by_cases h10 : n < 10 <;> simp [h10]

theorem digitsToNat_append (a b : List Nat) (acc : Nat) :
    digitsToNat (a ++ b) acc = digitsToNat b (digitsToNat a acc) := by
  induction a generalizing acc with
  | nil => rfl
  | cons c a ih => simp [digitsToNat, ih]

theorem digitsToNat_natToDigits (n : Nat) : digitsToNat (natToDigits n) 0 = n := by
  induction n using Nat.strong_induction_on with
  | _ n ih =>
    rw [natToDigits_eq]
    by_cases h10 : n < 10
    · rw [if_pos h10]
      simp only [digitsToNat]
      omega
    · rw [if_neg h10, digitsToNat_append,
        ih (n / 10) (Nat.div_lt_self (by omega) (by norm_num))]
      simp only [digitsToNat]
      omega

/-! ## Serializer shape lemmas -/

theorem serialize_str_content_flatMap (s : List Nat) :
    serialize_str_content s = s.flatMap escByte := by
  induction s with
  | nil => rfl
  | cons c s ih =>
    show escByte c ++ serialize_str_content s = _
    simp [ih]

theorem serialize_arr_items_false (vs : List Value) :
    serialize_arr_items false vs
      = vs.flatMap (fun u => bytes ", " ++ serialize_json u) := by
  induction vs with
  | nil => rfl
  | cons v vs ih =>
    show bytes ", " ++ serialize_json v ++ serialize_arr_items false vs = _
    simp [ih]

theorem serialize_obj_items_false (kvs : List (CowStr × Value)) :
    serialize_obj_items false kvs
      = kvs.flatMap (fun e =>
          bytes ", " ++ serialize_str e.1.data ++ bytes ": " ++ serialize_json e.2) := by
  induction kvs with
  | nil => rfl
  | cons e kvs ih =>
    show bytes ", " ++ serialize_str e.1.data ++ bytes ": " ++ serialize_json e.2
        ++ serialize_obj_items false kvs = _
    simp [ih]

/-! ## Sign rejection -/

theorem parse_json_sign_reject (ws : List Nat) (hws : ∀ b ∈ ws, isWs b = true)
    {c : Nat} (hc : c = 45 ∨ c = 43) (rest : List Nat) :
    parse_json (ws ++ c :: rest) = .error ⟨"Unexpected message end", ws.length⟩ := by
  have hnt : next_token (ws ++ c :: rest) 0 = (0, ws.length) := by
    have h0 := next_token_skip_ws ws hws [] (c :: rest)
    simp only [List.nil_append, List.length_nil, Nat.zero_add] at h0
    rw [h0]
    have hb : (ws ++ c :: rest)[ws.length]? = some c := byteAt ws c rest
    have ht : isTokenStart c = false := by rcases hc with h | h <;> subst h <;> rfl
    have hw : isWs c = false := by rcases hc with h | h <;> subst h <;> rfl
    exact next_token_other hb ht hw
  rw [parse_json_eq, _parse_json_end _ hnt]

theorem handle_tail_error (is_prime : Int → Bool) :
    ∀ (n : Nat) (stream : List Nat), stream.length ≤ n →
      ∃ pre, handle is_prime stream = pre ++ errorBytes := by
  intro n
  induction n with
  | zero =>
    intro stream h
    have hnil : stream = [] := List.eq_nil_of_length_eq_zero (by omega)
    subst hnil
    exact ⟨[], rfl⟩
  | succ n ih =>
    intro stream h
    cases stream with
    | nil => exact ⟨[], rfl⟩
    | cons c s' =>
      rw [handle_cons]
      cases hc : checkRequest (readLine (c :: s')).1 with
      | none => exact ⟨[], rfl⟩
      | some k =>
        obtain ⟨pre, hpre⟩ := ih (readLine (c :: s')).2
          (by have := readLine_cons_snd_le c s'; simp only [List.length_cons] at h; omega)
        rw [hpre]
        exact ⟨respBytes is_prime k ++ pre, by simp⟩

/-! ## Position bounds (for the error-offset invariant) -/

theorem next_token_le (buf : List Nat) : ∀ k pos, buf.length - pos ≤ k →
    pos ≤ buf.length → pos ≤ (next_token buf pos).2
      ∧ (next_token buf pos).2 ≤ buf.length := by
  intro k
  induction k with
  | zero =>
    intro pos hk hp
    have hpos : pos = buf.length := by omega
    have hn : buf[pos]? = none := List.getElem?_eq_none (by omega)
    rw [next_token_none hn]
    omega
  | succ k ih =>
    intro pos hk hp
    rw [next_token_eq]
    match hc : buf[pos]? with
    | none => simpa using hp
    | some c =>
      have hlt : pos < buf.length := by
        by_contra hge
        rw [List.getElem?_eq_none (Nat.le_of_not_lt hge)] at hc
        exact Option.noConfusion hc
      by_cases ht : isTokenStart c = true
      · simp [ht]
        omega
      · by_cases hw : isWs c = true
        · simp only [ht, if_false, hw, if_true, reduceIte]
          have := ih (pos + 1) (by omega) (by omega)
          exact ⟨le_trans (by omega) this.1, this.2⟩
        · simp [ht, hw]
          omega

theorem next_token_found (buf : List Nat) : ∀ k pos, buf.length - pos ≤ k →
    (next_token buf pos).1 ≠ 0 →
    buf[(next_token buf pos).2]? = some (next_token buf pos).1 := by
  intro k
  induction k with
  | zero =>
    intro pos hk h0
    by_cases hp : pos < buf.length
    · omega
    · rw [next_token_none (List.getElem?_eq_none (by omega))] at h0
      exact absurd rfl h0
  | succ k ih =>
    intro pos hk h0
    match hc : buf[pos]? with
    | none =>
      rw [next_token_none hc] at h0
      exact absurd rfl h0
    | some c =>
      have hlt : pos < buf.length := by
        by_contra hge
        rw [List.getElem?_eq_none (Nat.le_of_not_lt hge)] at hc
        exact Option.noConfusion hc
      by_cases ht : isTokenStart c = true
      · rw [next_token_token hc ht]
        exact hc
      · by_cases hw : isWs c = true
        · rw [next_token_ws_step hc hw] at h0 ⊢
          exact ih (pos + 1) (by omega) h0
        · rw [next_token_other hc (by simpa using ht) (by simpa using hw)] at h0
          exact absurd rfl h0

theorem next_token_found_lt (buf : List Nat) (pos : Nat)
    (h0 : (next_token buf pos).1 ≠ 0) : (next_token buf pos).2 < buf.length := by
  have h := next_token_found buf (buf.length - pos) pos (le_refl _) h0
  by_contra hge
  rw [List.getElem?_eq_none (by omega)] at h
  exact Option.noConfusion h

theorem numRun_length_le (buf : List Nat) (pos : Nat) (hp : pos ≤ buf.length) :
    pos + (numRun buf pos).length ≤ buf.length := by
  have h1 : (numRun buf pos).length ≤ (buf.drop pos).length :=
    (List.takeWhile_prefix _).length_le
  rw [List.length_drop] at h1
  omega

theorem error_pos_le {α : Type} {m : String} {p n : Nat} (hpn : p ≤ n) :
    ∀ err : Error, (Except.error ⟨m, p⟩ : Except Error α) = .error err →
      err.pos ≤ n := by
  intro err herr
  injection herr with h
  rw [← h]
  exact hpn

theorem consume_str_go_le (buf : List Nat) : ∀ k pos e b, buf.length - pos ≤ k →
    pos ≤ buf.length →
    (∀ err, consume_str_go buf pos e b = .error err → err.pos ≤ buf.length)
    ∧ (∀ q esc, consume_str_go buf pos e b = .ok (q, esc) → q < buf.length) := by
  intro k
  induction k with
  | zero =>
    intro pos e b hk hp
    have hn : buf[pos]? = none := List.getElem?_eq_none (by omega)
    rw [consume_str_go_eq, hn]
    exact ⟨error_pos_le hp, fun q esc hq => Except.noConfusion hq⟩
  | succ k ih =>
    intro pos e b hk hp
    match hc : buf[pos]? with
    | none =>
      rw [consume_str_go_eq, hc]
      exact ⟨error_pos_le hp, fun q esc hq => Except.noConfusion hq⟩
    | some c =>
      have hlt : pos < buf.length := by
        by_contra hge
        rw [List.getElem?_eq_none (Nat.le_of_not_lt hge)] at hc
        exact Option.noConfusion hc
      rw [consume_str_go_step e b hc]
      by_cases h92 : c = 92 ∧ e = false
      · rw [if_pos h92]
        exact ih (pos + 1) true true (by omega) (by omega)
      · rw [if_neg h92]
        by_cases h34 : c = 34 ∧ e = false
        · rw [if_pos h34]
          exact ⟨fun err herr => Except.noConfusion herr,
                 fun q esc hq => by injection hq with h; injection h with h1 h2; omega⟩
        · rw [if_neg h34]
          exact ih (pos + 1) false b (by omega) (by omega)

theorem consume_str_le (buf : List Nat) (pos : Nat) (hp : pos ≤ buf.length) :
    (∀ err, consume_str buf pos = .error err → err.pos ≤ buf.length)
    ∧ (∀ sp p', consume_str buf pos = .ok (sp, p') → p' ≤ buf.length) := by
  unfold consume_str
  by_cases hq : buf[pos]? ≠ some 34
  · rw [if_pos hq]
    exact ⟨error_pos_le hp, fun sp p' hsp => Except.noConfusion hsp⟩
  · rw [if_neg hq]
    push_neg at hq
    have hlt : pos < buf.length := by
      by_contra hge
      rw [List.getElem?_eq_none (Nat.le_of_not_lt hge)] at hq
      exact Option.noConfusion hq
    have hgo := consume_str_go_le buf (buf.length - (pos + 1)) (pos + 1) false false
      (le_refl _) (by omega)
    cases hscan : consume_str_go buf (pos + 1) false false with
    | error e =>
      exact ⟨fun err herr => by
               injection herr with h
               exact h ▸ hgo.1 e hscan,
             fun sp p' hsp => Except.noConfusion hsp⟩
    | ok qe =>
      have hq2 := hgo.2 qe.1 qe.2 (by rw [hscan])
      exact ⟨fun err herr => Except.noConfusion herr,
             fun sp p' hsp => by
               injection hsp with h
               injection h with h1 h2
               omega⟩

theorem consume_number_le (buf : List Nat) (pos : Nat) (hp : pos ≤ buf.length) :
    (∀ err, consume_number buf pos = .error err → err.pos ≤ buf.length)
    ∧ (∀ sf p', consume_number buf pos = .ok (sf, p') → p' ≤ buf.length) := by
  unfold consume_number
  by_cases hd : isDigit ((buf[pos]?).getD 0) = false
  · rw [if_pos hd]
    exact ⟨error_pos_le hp, fun sf p' h => Except.noConfusion h⟩
  · rw [if_neg hd]
    refine ⟨fun err herr => Except.noConfusion herr, fun sf p' h => ?_⟩
    injection h with h
    injection h with h1 h2
    rw [← h2, consume_number_go_spec]
    exact numRun_length_le buf pos hp

theorem consume_lit_le (buf : List Nat) (pos : Nat) (lit : List Nat)
    (hp : pos ≤ buf.length) :
    (∀ err, consume_lit buf pos lit = .error err → err.pos ≤ buf.length)
    ∧ (∀ p', consume_lit buf pos lit = .ok p' → p' ≤ buf.length) := by
  unfold consume_lit
  by_cases h1 : buf.length < pos + lit.length
  · rw [if_pos h1]
    exact ⟨error_pos_le hp, fun p' h => Except.noConfusion h⟩
  · rw [if_neg h1]
    by_cases h2 : (buf.drop pos).take lit.length ≠ lit
    · rw [if_pos h2]
      exact ⟨error_pos_le hp, fun p' h => Except.noConfusion h⟩
    · rw [if_neg h2]
      exact ⟨fun err h => Except.noConfusion h,
             fun p' h => by injection h with h; omega⟩

theorem unescape_error_pos (errPos : Nat) : ∀ (s : List Nat) (fl : Bool) err,
    unescape errPos s fl = .error err → err.pos = errPos := by
  intro s
  induction s with
  | nil =>
    intro fl err h
    cases fl <;> exact Except.noConfusion h
  | cons c rest ih =>
    intro fl err h
    cases fl with
    | false =>
      simp only [unescape] at h
      by_cases hc : c = 92
      · rw [if_pos hc] at h
        exact ih true err h
      · rw [if_neg hc] at h
        cases hrec : unescape errPos rest false with
        | ok u =>
          rw [hrec] at h
          exact Except.noConfusion h
        | error e =>
          rw [hrec] at h
          injection h with h
          rw [← h]
          exact ih false e hrec
    | true =>
      simp only [unescape] at h
      cases hdec : decodeEsc c with
      | some d =>
        rw [hdec] at h
        cases hrec : unescape errPos rest false with
        | ok u =>
          rw [hrec] at h
          exact Except.noConfusion h
        | error e =>
          rw [hrec] at h
          injection h with h
          rw [← h]
          exact ih false e hrec
      | none =>
        rw [hdec] at h
        injection h with h
        rw [← h]

theorem parse_str_le (buf : List Nat) (pos : Nat) (hp : pos ≤ buf.length) :
    (∀ err, parse_str buf pos = .error err → err.pos ≤ buf.length)
    ∧ (∀ cw p', parse_str buf pos = .ok (cw, p') → p' ≤ buf.length) := by
  unfold parse_str
  cases hcs : consume_str buf pos with
  | error e =>
    have he := (consume_str_le buf pos hp).1 e hcs
    exact ⟨fun err herr => by injection herr with h; rw [← h]; exact he,
           fun cw p' h => Except.noConfusion h⟩
  | ok sp =>
    obtain ⟨⟨s, escaped⟩, p'⟩ := sp
    have hple := (consume_str_le buf pos hp).2 (s, escaped) p' hcs
    cases escaped with
    | true =>
      simp only [reduceIte]
      cases hun : unescape p' s false with
      | error e =>
        have he := unescape_error_pos p' s false e hun
        exact ⟨fun err herr => by injection herr with h; rw [← h]; omega,
               fun cw q h => Except.noConfusion h⟩
      | ok u =>
        simp only []
        by_cases hutf : validUtf8 u = true
        · rw [if_pos hutf]
          exact ⟨fun err herr => Except.noConfusion herr,
                 fun cw q h => by injection h with h; injection h with h1 h2; omega⟩
        · rw [if_neg hutf]
          exact ⟨error_pos_le hple, fun cw q h => Except.noConfusion h⟩
    | false =>
      simp only [reduceIte]
      by_cases hutf : validUtf8 s = true
      · rw [if_pos hutf]
        exact ⟨fun err herr => Except.noConfusion herr,
               fun cw q h => by injection h with h; injection h with h1 h2; omega⟩
      · rw [if_neg hutf]
        exact ⟨error_pos_le hple, fun cw q h => Except.noConfusion h⟩

theorem parse_number_le (buf : List Nat) (pos : Nat) (hp : pos ≤ buf.length) :
    (∀ err, parse_number buf pos = .error err → err.pos ≤ buf.length)
    ∧ (∀ v p', parse_number buf pos = .ok (v, p') → p' ≤ buf.length) := by
  unfold parse_number
  cases hcn : consume_number buf pos with
  | error e =>
    have he := (consume_number_le buf pos hp).1 e hcn
    exact ⟨fun err herr => by injection herr with h; rw [← h]; exact he,
           fun v p' h => Except.noConfusion h⟩
  | ok sp =>
    obtain ⟨⟨s, fl⟩, p'⟩ := sp
    have hple := (consume_number_le buf pos hp).2 (s, fl) p' hcn
    simp only []
    by_cases hutf : validUtf8 s = true
    · rw [if_pos hutf]
      cases fl with
      | true =>
        try simp only [reduceIte]
        cases hf : f64FromStr s with
        | some x =>
          exact ⟨fun err herr => Except.noConfusion herr,
                 fun v q h => by injection h with h; injection h with h1 h2; omega⟩
        | none =>
          exact ⟨error_pos_le hple, fun v q h => Except.noConfusion h⟩
      | false =>
        try simp only [reduceIte]
        cases hf : i64FromStr s with
        | some n =>
          exact ⟨fun err herr => Except.noConfusion herr,
                 fun v q h => by injection h with h; injection h with h1 h2; omega⟩
        | none =>
          exact ⟨error_pos_le hple, fun v q h => Except.noConfusion h⟩
    · rw [if_neg hutf]
      exact ⟨error_pos_le hple, fun v q h => Except.noConfusion h⟩

theorem _parse_json_other {buf : List Nat} {pos c p : Nat} (fuel : Nat)
    (h : next_token buf pos = (c, p)) (h34 : c ≠ 34) (hd : isDigit c = false)
    (h110 : c ≠ 110) (h116 : c ≠ 116) (h102 : c ≠ 102) (h123 : c ≠ 123)
    (h91 : c ≠ 91) (h0 : c ≠ 0) :
    _parse_json (fuel + 1) buf pos
      = .error ⟨"Unexpected token while parsing message", p⟩ := by
  simp only [_parse_json, h, h34, hd, h110, h116, h102, h123, h91, h0,
    if_false, reduceIte, Bool.false_eq_true]

/-- Every parser result position, and every error offset, is bounded by
the buffer length (joint induction on fuel over the mutual parser). -/
theorem parse_bounded : ∀ fuel : Nat,
    (∀ (buf : List Nat) (pos : Nat), pos ≤ buf.length →
      (∀ e, _parse_json fuel buf pos = .error e → e.pos ≤ buf.length)
      ∧ (∀ v p, _parse_json fuel buf pos = .ok (v, p) → p ≤ buf.length))
    ∧ (∀ (buf : List Nat) (pos : Nat), pos < buf.length →
      (∀ e, parse_array fuel buf pos = .error e → e.pos ≤ buf.length)
      ∧ (∀ vs p, parse_array fuel buf pos = .ok (vs, p) → p ≤ buf.length))
    ∧ (∀ (buf : List Nat) (pos : Nat) (acc : List Value), pos ≤ buf.length →
      (∀ e, parse_array_go fuel buf pos acc = .error e → e.pos ≤ buf.length)
      ∧ (∀ vs p, parse_array_go fuel buf pos acc = .ok (vs, p) → p ≤ buf.length))
    ∧ (∀ (buf : List Nat) (pos : Nat), pos < buf.length →
      (∀ e, parse_object fuel buf pos = .error e → e.pos ≤ buf.length)
      ∧ (∀ kv p, parse_object fuel buf pos = .ok (kv, p) → p ≤ buf.length))
    ∧ (∀ (buf : List Nat) (pos : Nat) (acc : List (CowStr × Value)),
        pos ≤ buf.length →
      (∀ e, parse_object_go fuel buf pos acc = .error e → e.pos ≤ buf.length)
      ∧ (∀ kv p, parse_object_go fuel buf pos acc = .ok (kv, p) → p ≤ buf.length)) := by
  intro fuel
  induction fuel with
  | zero =>
    refine ⟨fun buf pos hp => ⟨error_pos_le hp, fun v p h => Except.noConfusion h⟩,
            fun buf pos hp => ⟨error_pos_le (by omega), fun v p h => Except.noConfusion h⟩,
            fun buf pos acc hp => ⟨error_pos_le hp, fun v p h => Except.noConfusion h⟩,
            fun buf pos hp => ⟨error_pos_le (by omega), fun v p h => Except.noConfusion h⟩,
            fun buf pos acc hp => ⟨error_pos_le hp, fun v p h => Except.noConfusion h⟩⟩
  | succ fuel ih =>
    obtain ⟨ihJ, ihA, ihAgo, ihO, ihOgo⟩ := ih
    have hnt2 : ∀ (buf : List Nat) (pos : Nat), pos ≤ buf.length →
        (next_token buf pos).2 ≤ buf.length :=
      fun buf pos hp => (next_token_le buf (buf.length - pos) pos (le_refl _) hp).2
    refine ⟨?_, ?_, ?_, ?_, ?_⟩
    · -- _parse_json
      intro buf pos hp
      have hnt : next_token buf pos = ((next_token buf pos).1, (next_token buf pos).2) :=
        rfl
      have hple : (next_token buf pos).2 ≤ buf.length := hnt2 buf pos hp
      by_cases h34 : (next_token buf pos).1 = 34
      · rw [_parse_json_str fuel (by rw [hnt, h34])]
        cases hps : parse_str buf (next_token buf pos).2 with
        | error e =>
          refine ⟨fun err herr => ?_, fun v q h => Except.noConfusion h⟩
          injection herr with h
          rw [← h]
          exact (parse_str_le buf _ hple).1 e hps
        | ok sp =>
          refine ⟨fun err herr => Except.noConfusion herr, fun v q h => ?_⟩
          injection h with h
          injection h with h1 h2
          rw [← h2]
          exact (parse_str_le buf _ hple).2 sp.1 sp.2 (by rw [hps])
      · by_cases hd : isDigit (next_token buf pos).1 = true
        · rw [_parse_json_digit fuel hnt hd]
          exact ⟨(parse_number_le buf _ hple).1,
                 fun v q h => (parse_number_le buf _ hple).2 v q h⟩
        · by_cases h110 : (next_token buf pos).1 = 110
          · rw [_parse_json_null fuel (by rw [hnt, h110])]
            cases hcl : consume_null buf (next_token buf pos).2 with
            | error e =>
              refine ⟨fun err herr => ?_, fun v q h => Except.noConfusion h⟩
              injection herr with h
              rw [← h]
              exact (consume_lit_le buf _ (bytes "null") hple).1 e hcl
            | ok q0 =>
              refine ⟨fun err herr => Except.noConfusion herr, fun v q h => ?_⟩
              injection h with h
              injection h with h1 h2
              rw [← h2]
              exact (consume_lit_le buf _ (bytes "null") hple).2 q0 hcl
          · by_cases h116 : (next_token buf pos).1 = 116
            · rw [_parse_json_true fuel (by rw [hnt, h116])]
              cases hcl : consume_true buf (next_token buf pos).2 with
              | error e =>
                refine ⟨fun err herr => ?_, fun v q h => Except.noConfusion h⟩
                injection herr with h
                rw [← h]
                exact (consume_lit_le buf _ (bytes "true") hple).1 e hcl
              | ok q0 =>
                refine ⟨fun err herr => Except.noConfusion herr, fun v q h => ?_⟩
                injection h with h
                injection h with h1 h2
                rw [← h2]
                exact (consume_lit_le buf _ (bytes "true") hple).2 q0 hcl
            · by_cases h102 : (next_token buf pos).1 = 102
              · rw [_parse_json_false fuel (by rw [hnt, h102])]
                cases hcl : consume_false buf (next_token buf pos).2 with
                | error e =>
                  refine ⟨fun err herr => ?_, fun v q h => Except.noConfusion h⟩
                  injection herr with h
                  rw [← h]
                  exact (consume_lit_le buf _ (bytes "false") hple).1 e hcl
                | ok q0 =>
                  refine ⟨fun err herr => Except.noConfusion herr, fun v q h => ?_⟩
                  injection h with h
                  injection h with h1 h2
                  rw [← h2]
                  exact (consume_lit_le buf _ (bytes "false") hple).2 q0 hcl
              · by_cases h123 : (next_token buf pos).1 = 123
                · rw [_parse_json_obj fuel (by rw [hnt, h123])]
                  have hplt : (next_token buf pos).2 < buf.length :=
                    next_token_found_lt buf pos (by rw [h123]; omega)
                  cases hpo : parse_object fuel buf (next_token buf pos).2 with
                  | error e =>
                    refine ⟨fun err herr => ?_, fun v q h => Except.noConfusion h⟩
                    injection herr with h
                    rw [← h]
                    exact (ihO buf _ hplt).1 e hpo
                  | ok op =>
                    refine ⟨fun err herr => Except.noConfusion herr, fun v q h => ?_⟩
                    injection h with h
                    injection h with h1 h2
                    rw [← h2]
                    exact (ihO buf _ hplt).2 op.1 op.2 (by rw [hpo])
                · by_cases h91 : (next_token buf pos).1 = 91
                  · rw [_parse_json_arr fuel (by rw [hnt, h91])]
                    have hplt : (next_token buf pos).2 < buf.length :=
                      next_token_found_lt buf pos (by rw [h91]; omega)
                    cases hpa : parse_array fuel buf (next_token buf pos).2 with
                    | error e =>
                      refine ⟨fun err herr => ?_, fun v q h => Except.noConfusion h⟩
                      injection herr with h
                      rw [← h]
                      exact (ihA buf _ hplt).1 e hpa
                    | ok ap =>
                      refine ⟨fun err herr => Except.noConfusion herr, fun v q h => ?_⟩
                      injection h with h
                      injection h with h1 h2
                      rw [← h2]
                      exact (ihA buf _ hplt).2 ap.1 ap.2 (by rw [hpa])
                  · by_cases h0 : (next_token buf pos).1 = 0
                    · rw [_parse_json_end fuel (by rw [hnt, h0])]
                      exact ⟨error_pos_le hple, fun v q h => Except.noConfusion h⟩
                    · rw [_parse_json_other fuel hnt h34 (by simpa using hd) h110 h116
                        h102 h123 h91 h0]
                      exact ⟨error_pos_le hple, fun v q h => Except.noConfusion h⟩
    · -- parse_array
      intro buf pos hp
      show (∀ e, parse_array_go fuel buf (pos + 1) [] = .error e → e.pos ≤ buf.length)
        ∧ (∀ vs p, parse_array_go fuel buf (pos + 1) [] = .ok (vs, p) → p ≤ buf.length)
      exact ihAgo buf (pos + 1) [] (by omega)
    · -- parse_array_go
      intro buf pos acc hp
      have hple : (next_token buf pos).2 ≤ buf.length := hnt2 buf pos hp
      by_cases h93 : (next_token buf pos).1 = 93
      · simp only [parse_array_go, h93, if_true, reduceIte]
        have hplt : (next_token buf pos).2 < buf.length :=
          next_token_found_lt buf pos (by rw [h93]; omega)
        refine ⟨fun e he => Except.noConfusion he, fun vs q h => ?_⟩
        injection h with h
        injection h with h1 h2
        omega
      · simp only [parse_array_go, h93, if_false, reduceIte, Bool.false_eq_true]
        cases hpj : _parse_json fuel buf (next_token buf pos).2 with
        | error e =>
          refine ⟨fun err herr => ?_, fun vs q h => Except.noConfusion h⟩
          injection herr with h
          rw [← h]
          exact (ihJ buf _ hple).1 e hpj
        | ok vp =>
          simp only []
          have hvp : vp.2 ≤ buf.length :=
            (ihJ buf _ hple).2 vp.1 vp.2 (by rw [hpj])
          have hq2 : (next_token buf vp.2).2 ≤ buf.length := hnt2 buf vp.2 hvp
          by_cases h44 : (next_token buf vp.2).1 = 44
          · simp only [h44, if_true, reduceIte]
            have hlt2 : (next_token buf vp.2).2 < buf.length :=
              next_token_found_lt buf vp.2 (by rw [h44]; omega)
            exact ihAgo buf ((next_token buf vp.2).2 + 1) (acc ++ [vp.1]) (by omega)
          · by_cases h93b : (next_token buf vp.2).1 = 93
            · simp only [h44, h93b, if_true, if_false, reduceIte, Bool.false_eq_true]
              have hlt2 : (next_token buf vp.2).2 < buf.length :=
                next_token_found_lt buf vp.2 (by rw [h93b]; omega)
              refine ⟨fun e he => Except.noConfusion he, fun vs q h => ?_⟩
              injection h with h
              injection h with h1 h2
              omega
            · simp only [h44, h93b, if_false, reduceIte, Bool.false_eq_true]
              exact ⟨error_pos_le hq2, fun vs q h => Except.noConfusion h⟩
    · -- parse_object
      intro buf pos hp
      show (∀ e, parse_object_go fuel buf (pos + 1) [] = .error e → e.pos ≤ buf.length)
        ∧ (∀ kv p, parse_object_go fuel buf (pos + 1) [] = .ok (kv, p) → p ≤ buf.length)
      exact ihOgo buf (pos + 1) [] (by omega)
    · -- parse_object_go
      intro buf pos acc hp
      have hple : (next_token buf pos).2 ≤ buf.length := hnt2 buf pos hp
      by_cases h125 : (next_token buf pos).1 = 125
      · simp only [parse_object_go, h125, if_true, reduceIte]
        have hplt : (next_token buf pos).2 < buf.length :=
          next_token_found_lt buf pos (by rw [h125]; omega)
        refine ⟨fun e he => Except.noConfusion he, fun kv q h => ?_⟩
        injection h with h
        injection h with h1 h2
        omega
      · simp only [parse_object_go, h125, if_false, reduceIte, Bool.false_eq_true]
        cases hks : parse_str buf (next_token buf pos).2 with
        | error e =>
          refine ⟨fun err herr => ?_, fun kv q h => Except.noConfusion h⟩
          injection herr with h
          rw [← h]
          exact (parse_str_le buf _ hple).1 e hks
        | ok kp =>
          simp only []
          have hkp : kp.2 ≤ buf.length :=
            (parse_str_le buf _ hple).2 kp.1 kp.2 (by rw [hks])
          have hc2 : (next_token buf kp.2).2 ≤ buf.length := hnt2 buf kp.2 hkp
          by_cases h58 : (next_token buf kp.2).1 = 58
          · rw [if_neg (by simp [h58])]
            have hlt3 : (next_token buf kp.2).2 < buf.length :=
              next_token_found_lt buf kp.2 (by rw [h58]; omega)
            cases hpj : _parse_json fuel buf ((next_token buf kp.2).2 + 1) with
            | error e =>
              refine ⟨fun err herr => ?_, fun kv q h => Except.noConfusion h⟩
              injection herr with h
              rw [← h]
              exact (ihJ buf ((next_token buf kp.2).2 + 1) (by omega)).1 e hpj
            | ok vp =>
              simp only []
              have hvp : vp.2 ≤ buf.length :=
                (ihJ buf ((next_token buf kp.2).2 + 1) (by omega)).2 vp.1 vp.2
                  (by rw [hpj])
              have hq2 : (next_token buf vp.2).2 ≤ buf.length := hnt2 buf vp.2 hvp
              by_cases h44 : (next_token buf vp.2).1 = 44
              · simp only [h44, if_true, reduceIte]
                have hlt2 : (next_token buf vp.2).2 < buf.length :=
                  next_token_found_lt buf vp.2 (by rw [h44]; omega)
                exact ihOgo buf ((next_token buf vp.2).2 + 1)
                  (insertEntry acc kp.1 vp.1) (by omega)
              · by_cases h125b : (next_token buf vp.2).1 = 125
                · simp only [h44, h125b, if_true, if_false, reduceIte,
                    Bool.false_eq_true]
                  have hlt2 : (next_token buf vp.2).2 < buf.length :=
                    next_token_found_lt buf vp.2 (by rw [h125b]; omega)
                  refine ⟨fun e he => Except.noConfusion he, fun kv q h => ?_⟩
                  injection h with h
                  injection h with h1 h2
                  omega
                · simp only [h44, h125b, if_false, reduceIte, Bool.false_eq_true]
                  exact ⟨error_pos_le hq2, fun kv q h => Except.noConfusion h⟩
          · rw [if_pos h58]
            exact ⟨error_pos_le hc2, fun kv q h => Except.noConfusion h⟩

/-! ## Round-trip: helper lemmas -/

theorem takeWhile_append_all (p : Nat → Bool) (l1 l2 : List Nat)
    (h : ∀ c ∈ l1, p c = true) :
    (l1 ++ l2).takeWhile p = l1 ++ l2.takeWhile p := by
  induction l1 with
  | nil => rfl
  | cons a l ih =>
    simp [List.takeWhile_cons, h a (List.mem_cons_self a l),
      ih (fun c hc => h c (List.mem_cons_of_mem a hc))]

theorem numRun_concat_dot (pre ds suf : List Nat)
    (hds : ∀ c ∈ ds, (isDigit c || c = 46) = true) (hsuf : headSafe suf = true) :
    numRun (pre ++ (ds ++ suf)) pre.length = ds := by
  have h2 : suf.takeWhile (fun c => isDigit c || c = 46) = [] := by
    cases suf with
    | nil => rfl
    | cons c r =>
      have hc : (isDigit c || decide (c = 46)) = false := by
        simpa [headSafe] using hsuf
      simp [List.takeWhile_cons, hc]
  unfold numRun
  rw [List.drop_left, takeWhile_append_all _ ds suf hds, h2, List.append_nil]

theorem numRun_concat (pre ds suf : List Nat)
    (hds : ∀ c ∈ ds, isDigit c = true) (hsuf : headSafe suf = true) :
    numRun (pre ++ (ds ++ suf)) pre.length = ds := by
  have h2 : suf.takeWhile (fun c => isDigit c || c = 46) = [] := by
    cases suf with
    | nil => rfl
    | cons c r =>
      have hc : (isDigit c || decide (c = 46)) = false := by
        simpa [headSafe] using hsuf
      simp [List.takeWhile_cons, hc]
  unfold numRun
  rw [List.drop_left,
    takeWhile_append_all _ ds suf (fun c hc => by simp [hds c hc]), h2,
    List.append_nil]

theorem next_token_ws_head (pre ws : List Nat) (hws : ∀ b ∈ ws, isWs b = true)
    (c : Nat) (hc : isTokenStart c = true) (rest : List Nat) :
    next_token (pre ++ ws ++ (c :: rest)) pre.length
      = (c, pre.length + ws.length) := by
  rw [next_token_skip_ws ws hws pre (c :: rest)]
  have hb : (pre ++ ws ++ (c :: rest))[pre.length + ws.length]? = some c := by
    have := byteAt (pre ++ ws) c rest
    simpa [List.length_append] using this
  exact next_token_token hb hc

theorem rt_okList_mem {xs : List Value} (h : rt_okList xs = true) :
    ∀ x ∈ xs, rt_ok x = true := by
  induction xs with
  | nil => intro x hx; exact absurd hx (List.not_mem_nil x)
  | cons y ys ih =>
    have h' : (rt_ok y && rt_okList ys) = true := h
    simp only [Bool.and_eq_true] at h'
    intro x hx
    rcases List.mem_cons.mp hx with hx | hx
    · subst hx; exact h'.1
    · exact ih h'.2 x hx

theorem rt_okEntries_mem {kvs : List (CowStr × Value)}
    (h : rt_okEntries kvs = true) :
    ∀ e ∈ kvs, validUtf8 e.1.data = true ∧ rt_ok e.2 = true := by
  induction kvs with
  | nil => intro e he; exact absurd he (List.not_mem_nil e)
  | cons y ys ih =>
    obtain ⟨k, v⟩ := y
    have h' : (validUtf8 k.data && rt_ok v && rt_okEntries ys) = true := h
    simp only [Bool.and_eq_true] at h'
    intro e he
    rcases List.mem_cons.mp he with he | he
    · subst he; exact ⟨h'.1.1, h'.1.2⟩
    · exact ih h'.2 e he

theorem serialize_head (v : Value) (hv : rt_ok v = true) :
    ∃ c rest, serialize_json v = c :: rest ∧ isTokenStart c = true
      ∧ c ≠ 93 ∧ c ≠ 125 ∧ c ≠ 44 ∧ c ≠ 58 := by
  cases v with
  | String s =>
    exact ⟨34, serialize_str_content s.data ++ [34],
      by simp only [serialize_json, serialize_str, List.cons_append],
      by decide, by decide, by decide, by decide, by decide⟩
  | Int n =>
    have hv' : (decide (0 ≤ n) && decide (n < 2 ^ 63)) = true := hv
    simp only [Bool.and_eq_true, decide_eq_true_eq] at hv'
    have h0 : ¬(n < 0) := by omega
    cases hnd : natToDigits n.toNat with
    | nil => exact absurd hnd (natToDigits_ne_nil _)
    | cons c r =>
      have hdc : isDigit c = true :=
        natToDigits_all_digit n.toNat c (hnd ▸ List.mem_cons_self c r)
      have hcb : 48 ≤ c ∧ c ≤ 57 := by simpa [isDigit] using hdc
      refine ⟨c, r, ?_, ?_, ?_, ?_, ?_, ?_⟩
      · show intDisplay n = c :: r
        rw [intDisplay, if_neg h0, hnd]
      · simp [isTokenStart, hdc]
      · omega
      · omega
      · omega
      · omega
  | Float x =>
    have hps : floatLitOk x = true := by
      rw [show rt_ok (Value.Float x) = floatLitOk x by simp only [rt_ok]] at hv
      exact hv
    cases x with
    | nan => simp only [floatLitOk] at hps; exact Bool.noConfusion hps
    | ofLit s =>
      cases s with
      | nil => simp only [floatLitOk] at hps; exact Bool.noConfusion hps
      | cons c r =>
        simp only [floatLitOk, Bool.and_eq_true, decide_eq_true_eq] at hps
        obtain ⟨⟨hdc, -⟩, -⟩ := hps
        have hcb : 48 ≤ c ∧ c ≤ 57 := by simpa [isDigit] using hdc
        refine ⟨c, r, ?_, ?_, ?_, ?_, ?_, ?_⟩
        · show serialize_json (Value.Float (F64.ofLit (c :: r))) = c :: r
          simp only [serialize_json, floatDisplay]
        · simp [isTokenStart, hdc]
        · omega
        · omega
        · omega
        · omega
  | Bool b =>
    cases b with
    | true =>
      exact ⟨116, [114, 117, 101], rfl, by decide, by decide, by decide,
        by decide, by decide⟩
    | false =>
      exact ⟨102, [97, 108, 115, 101], rfl, by decide, by decide, by decide,
        by decide, by decide⟩
  | Null =>
    exact ⟨110, [117, 108, 108], rfl, by decide, by decide, by decide,
      by decide, by decide⟩
  | Array xs =>
    exact ⟨91, serialize_arr_items true xs ++ [93],
      by simp only [serialize_json, List.cons_append],
      by decide, by decide, by decide, by decide, by decide⟩
  | Object kvs =>
    exact ⟨123, serialize_obj_items true kvs ++ [125],
      by simp only [serialize_json, List.cons_append],
      by decide, by decide, by decide, by decide, by decide⟩

theorem serialize_len_pos (v : Value) (hv : rt_ok v = true) :
    1 ≤ (serialize_json v).length := by
  obtain ⟨c, rest, h, -, -, -, -, -⟩ := serialize_head v hv
  rw [h]
  simp

theorem fuelNeed_pos (v : Value) : 1 ≤ fuelNeed v := by
  cases v with
  | Array xs => show 1 ≤ 2 + fuelNeedItems xs; omega
  | Object kvs => show 1 ≤ 2 + fuelNeedEntries kvs; omega
  | String s => exact le_refl 1
  | Int n => exact le_refl 1
  | Float x => exact le_refl 1
  | Bool b => exact le_refl 1
  | Null => exact le_refl 1

theorem fuelNeedItems_le (xs : List Value)
    (hel : ∀ x ∈ xs, fuelNeed x ≤ 2 * (serialize_json x).length
            ∧ 1 ≤ (serialize_json x).length) :
    fuelNeedItems xs ≤ 2 * (serialize_arr_items true xs).length + 2 := by
  induction xs with
  | nil => show 1 ≤ 2 * ([] : List Nat).length + 2; simp
  | cons x rest ih =>
    obtain ⟨hx, hxpos⟩ := hel x (List.mem_cons_self x rest)
    have ihr := ih (fun y hy => hel y (List.mem_cons_of_mem x hy))
    have hfp := fuelNeed_pos x
    show 1 + max (fuelNeed x) (fuelNeedItems rest)
        ≤ 2 * (serialize_json x ++ serialize_arr_items false rest).length + 2
    cases rest with
    | nil =>
      show 1 + max (fuelNeed x) 1 ≤ 2 * (serialize_json x ++ []).length + 2
      simp only [List.length_append, List.length_nil]
      omega
    | cons y r =>
      have hb2 : (bytes ", ").length = 2 := by decide
      have hlen : (serialize_arr_items false (y :: r)).length
          = 2 + (serialize_arr_items true (y :: r)).length := by
        show (bytes ", " ++ serialize_json y ++ serialize_arr_items false r).length
            = 2 + (serialize_json y ++ serialize_arr_items false r).length
        simp only [List.length_append, hb2]
        omega
      simp only [List.length_append, hlen]
      omega

theorem fuelNeedEntries_le (kvs : List (CowStr × Value))
    (hel : ∀ e ∈ kvs, fuelNeed e.2 ≤ 2 * (serialize_json e.2).length
            ∧ 1 ≤ (serialize_json e.2).length) :
    fuelNeedEntries kvs ≤ 2 * (serialize_obj_items true kvs).length + 2 := by
  induction kvs with
  | nil => show 1 ≤ 2 * ([] : List Nat).length + 2; simp
  | cons e rest ih =>
    obtain ⟨k, v⟩ := e
    obtain ⟨hx0, hxpos0⟩ := hel (k, v) (List.mem_cons_self (k, v) rest)
    have hx : fuelNeed v ≤ 2 * (serialize_json v).length := hx0
    have hxpos : 1 ≤ (serialize_json v).length := hxpos0
    have ihr := ih (fun y hy => hel y (List.mem_cons_of_mem (k, v) hy))
    have hfp := fuelNeed_pos v
    show 1 + max (fuelNeed v) (fuelNeedEntries rest)
        ≤ 2 * (serialize_str k.data ++ bytes ": " ++ serialize_json v
              ++ serialize_obj_items false rest).length + 2
    cases rest with
    | nil =>
      show 1 + max (fuelNeed v) 1
          ≤ 2 * (serialize_str k.data ++ bytes ": " ++ serialize_json v
                ++ []).length + 2
      simp only [List.length_append, List.length_nil]
      omega
    | cons y r =>
      obtain ⟨k2, v2⟩ := y
      have hb2 : (bytes ", ").length = 2 := by decide
      have hlen : (serialize_obj_items false ((k2, v2) :: r)).length
          = 2 + (serialize_obj_items true ((k2, v2) :: r)).length := by
        show (bytes ", " ++ serialize_str k2.data ++ bytes ": "
              ++ serialize_json v2 ++ serialize_obj_items false r).length
            = 2 + (serialize_str k2.data ++ bytes ": " ++ serialize_json v2
                  ++ serialize_obj_items false r).length
        simp only [List.length_append, hb2]
        omega
      simp only [List.length_append, hlen]
      omega

theorem fuelNeed_le : ∀ (N : Nat) (v : Value), sizeOf v ≤ N → rt_ok v = true →
    fuelNeed v ≤ 2 * (serialize_json v).length := by
  intro N
  induction N with
  | zero =>
    intro v hv
    exfalso
    cases v <;> simp at hv
  | succ N ih =>
    intro v hsv hok
    cases v with
    | String s =>
      show 1 ≤ 2 * (serialize_json (Value.String s)).length
      have := serialize_len_pos (Value.String s) hok
      omega
    | Int n =>
      show 1 ≤ 2 * (serialize_json (Value.Int n)).length
      have := serialize_len_pos (Value.Int n) hok
      omega
    | Float x =>
      have hf1 : fuelNeed (Value.Float x) = 1 := by simp only [fuelNeed]
      rw [hf1]
      have := serialize_len_pos (Value.Float x) hok
      omega
    | Bool b =>
      show 1 ≤ 2 * (serialize_json (Value.Bool b)).length
      have := serialize_len_pos (Value.Bool b) hok
      omega
    | Null =>
      show 1 ≤ 2 * (serialize_json Value.Null).length
      have := serialize_len_pos Value.Null hok
      omega
    | Array xs =>
      have hokl : rt_okList xs = true := hok
      have hsl : sizeOf xs ≤ N := by
        have hs : sizeOf (Value.Array xs) = 1 + sizeOf xs := by simp
        omega
      have hitems := fuelNeedItems_le xs (fun x hx =>
        ⟨ih x (by have := List.sizeOf_lt_of_mem hx; omega) (rt_okList_mem hokl x hx),
         serialize_len_pos x (rt_okList_mem hokl x hx)⟩)
      show 2 + fuelNeedItems xs
          ≤ 2 * ((91 :: serialize_arr_items true xs) ++ [93]).length
      simp only [List.length_append, List.length_cons, List.length_nil]
      omega
    | Object kvs =>
      have hok' : (distinctKeys kvs && rt_okEntries kvs) = true := hok
      simp only [Bool.and_eq_true] at hok'
      have hsl : sizeOf kvs ≤ N := by
        have hs : sizeOf (Value.Object kvs) = 1 + sizeOf kvs := by simp
        omega
      have hentries := fuelNeedEntries_le kvs (fun e he =>
        have hse : sizeOf e.2 ≤ N := by
          have h1 := List.sizeOf_lt_of_mem he
          have h2 : sizeOf e = 1 + sizeOf e.1 + sizeOf e.2 := by
            obtain ⟨a, b⟩ := e
            simp
          omega
        ⟨ih e.2 hse (rt_okEntries_mem hok'.2 e he).2,
         serialize_len_pos e.2 (rt_okEntries_mem hok'.2 e he).2⟩)
      show 2 + fuelNeedEntries kvs
          ≤ 2 * ((123 :: serialize_obj_items true kvs) ++ [125]).length
      simp only [List.length_append, List.length_cons, List.length_nil]
      omega

theorem next_token_at (pre : List Nat) (c : Nat) (hc : isTokenStart c = true)
    (rest : List Nat) :
    next_token (pre ++ c :: rest) pre.length = (c, pre.length) :=
  next_token_token (byteAt pre c rest) hc

theorem bytes_comma : bytes ", " = [44, 32] := by decide

theorem bytes_colon : bytes ": " = [58, 32] := by decide

theorem headSafe_arr_tail (rest : List Value) (suf : List Nat) :
    headSafe (serialize_arr_items false rest ++ 93 :: suf) = true := by
  cases rest with
  | nil =>
    simp only [serialize_arr_items, List.nil_append]
    rfl
  | cons y r =>
    simp only [serialize_arr_items, reduceIte, bytes_comma, List.cons_append]
    rfl

theorem headSafe_obj_tail (rest : List (CowStr × Value)) (suf : List Nat) :
    headSafe (serialize_obj_items false rest ++ 125 :: suf) = true := by
  cases rest with
  | nil =>
    simp only [serialize_obj_items, List.nil_append]
    rfl
  | cons y r =>
    obtain ⟨k, v⟩ := y
    simp only [serialize_obj_items, reduceIte, bytes_comma, List.cons_append]
    rfl

theorem insertEntry_fresh (acc : List (CowStr × Value)) (k : CowStr) (v : Value)
    (h : ∀ e ∈ acc, ¬(e.1.data = k.data)) :
    insertEntry acc k v = acc ++ [(k, v)] := by
  unfold insertEntry
  rw [if_neg]
  intro hany
  simp only [List.any_eq_true, decide_eq_true_eq] at hany
  obtain ⟨e, he, hp⟩ := hany
  exact h e he hp

/-- The element loop of `parse_array` consumes a serialized element list
followed by `]`, given that each element parses correctly. -/
theorem rt_arr_loop : ∀ (xs : List Value),
    (∀ x ∈ xs, ∀ (fuel : Nat) (pre ws suf : List Nat),
      rt_ok x = true → fuelNeed x ≤ fuel → headSafe suf = true →
      (∀ b ∈ ws, isWs b = true) →
      _parse_json fuel (pre ++ ws ++ (serialize_json x ++ suf)) pre.length
        = .ok (normalize x, pre.length + ws.length + (serialize_json x).length)) →
    ∀ (f : Nat) (pre ws suf : List Nat) (acc : List Value),
      rt_okList xs = true → fuelNeedItems xs ≤ f → headSafe suf = true →
      (∀ b ∈ ws, isWs b = true) →
      parse_array_go f (pre ++ ws ++ (serialize_arr_items true xs ++ 93 :: suf))
          pre.length acc
        = .ok (acc ++ normalizeList xs,
               pre.length + ws.length + (serialize_arr_items true xs).length + 1) := by
  intro xs
  induction xs with
  | nil =>
    intro hel f pre ws suf acc hok hfuel hsuf hws
    simp only [fuelNeedItems] at hfuel
    cases f with
    | zero => exact absurd hfuel (by omega)
    | succ f' =>
      have h0 : serialize_arr_items true ([] : List Value) = [] := by
        simp only [serialize_arr_items]
      rw [h0]
      simp only [List.nil_append, List.length_nil]
      have hnt : next_token (pre ++ ws ++ (93 :: suf)) pre.length
          = (93, pre.length + ws.length) :=
        next_token_ws_head pre ws hws 93 (by decide) suf
      have h93 : (next_token (pre ++ ws ++ (93 :: suf)) pre.length).1 = 93 := by
        rw [hnt]
      have h2 : (next_token (pre ++ ws ++ (93 :: suf)) pre.length).2
          = pre.length + ws.length := by
        rw [hnt]
      simp only [parse_array_go, h93, if_true, reduceIte, h2]
      simp only [normalizeList, List.append_nil]
  | cons x rest ih =>
    intro hel f pre ws suf acc hok hfuel hsuf hws
    have hok' : (rt_ok x && rt_okList rest) = true := hok
    simp only [Bool.and_eq_true] at hok'
    simp only [fuelNeedItems] at hfuel
    cases f with
    | zero => exact absurd hfuel (by omega)
    | succ f' =>
      obtain ⟨c, crest, hser, htok, hc93, hc125, hc44, hc58⟩ :=
        serialize_head x hok'.1
      have hitems : serialize_arr_items true (x :: rest)
          = serialize_json x ++ serialize_arr_items false rest := by
        simp only [serialize_arr_items, reduceIte, List.nil_append]
      -- element parse, shared by both tail shapes
      have helx := hel x (List.mem_cons_self x rest) f' (pre ++ ws) []
        (serialize_arr_items false rest ++ 93 :: suf) hok'.1 (by omega)
        (headSafe_arr_tail rest suf) (by intro b hb; exact absurd hb (List.not_mem_nil b))
      simp only [List.append_nil, List.length_nil, Nat.add_zero,
        List.length_append] at helx
      have hserc : serialize_json x ++ (serialize_arr_items false rest ++ 93 :: suf)
          = c :: (crest ++ (serialize_arr_items false rest ++ 93 :: suf)) := by
        rw [hser, List.cons_append]
      have hnt : next_token
          (pre ++ ws ++ (serialize_json x ++ (serialize_arr_items false rest ++ 93 :: suf)))
          pre.length = (c, pre.length + ws.length) := by
        rw [hserc]
        exact next_token_ws_head pre ws hws c htok _
      have hbufa : serialize_arr_items true (x :: rest) ++ 93 :: suf
          = serialize_json x ++ (serialize_arr_items false rest ++ 93 :: suf) := by
        rw [hitems, List.append_assoc]
      rw [hbufa]
      have hn93 : ¬((next_token
          (pre ++ ws ++ (serialize_json x ++ (serialize_arr_items false rest ++ 93 :: suf)))
          pre.length).1 = 93) := by
        rw [hnt]
        exact hc93
      have hp2 : (next_token
          (pre ++ ws ++ (serialize_json x ++ (serialize_arr_items false rest ++ 93 :: suf)))
          pre.length).2 = pre.length + ws.length := by
        rw [hnt]
      simp only [parse_array_go]
      rw [if_neg hn93, hp2, helx]
      simp only []
      cases rest with
      | nil =>
        have h0 : serialize_arr_items false ([] : List Value) = [] := by
          simp only [serialize_arr_items]
        rw [h0]
        simp only [List.nil_append]
        have hbuf2 : pre ++ ws ++ (serialize_json x ++ 93 :: suf)
            = (pre ++ ws ++ serialize_json x) ++ 93 :: suf := by
          simp [List.append_assoc]
        have hE : pre.length + ws.length + (serialize_json x).length
            = (pre ++ ws ++ serialize_json x).length := by
          simp only [List.length_append]
        have hnt2 : next_token (pre ++ ws ++ (serialize_json x ++ 93 :: suf))
            (pre.length + ws.length + (serialize_json x).length)
            = (93, pre.length + ws.length + (serialize_json x).length) := by
          rw [hbuf2, hE]
          exact next_token_at _ 93 (by decide) suf
        have h44 : ¬((next_token (pre ++ ws ++ (serialize_json x ++ 93 :: suf))
            (pre.length + ws.length + (serialize_json x).length)).1 = 44) := by
          rw [hnt2]
          exact (by decide : ¬((93 : Nat) = 44))
        have h93b : (next_token (pre ++ ws ++ (serialize_json x ++ 93 :: suf))
            (pre.length + ws.length + (serialize_json x).length)).1 = 93 := by
          rw [hnt2]
        have h2b : (next_token (pre ++ ws ++ (serialize_json x ++ 93 :: suf))
            (pre.length + ws.length + (serialize_json x).length)).2
            = pre.length + ws.length + (serialize_json x).length := by
          rw [hnt2]
        rw [if_neg h44, if_pos h93b, h2b]
        have hi1 : serialize_arr_items true [x] = serialize_json x := by
          simp only [serialize_arr_items, reduceIte, List.nil_append,
            List.append_nil]
        rw [hi1]
        simp only [normalizeList, Except.ok.injEq, Prod.mk.injEq]
      | cons y r =>
        have hokr : rt_okList (y :: r) = true := hok'.2
        have hfalse : serialize_arr_items false (y :: r)
            = 44 :: 32 :: serialize_arr_items true (y :: r) := by
          simp only [serialize_arr_items, Bool.false_eq_true, if_false, reduceIte,
            List.nil_append, bytes_comma, List.cons_append, List.append_assoc]
        have hbuf3 : pre ++ ws ++ (serialize_json x
              ++ (serialize_arr_items false (y :: r) ++ 93 :: suf))
            = (pre ++ ws ++ serialize_json x ++ [44])
              ++ [32] ++ (serialize_arr_items true (y :: r) ++ 93 :: suf) := by
          rw [hfalse]
          simp [List.append_assoc]
        have hnt2 : next_token (pre ++ ws ++ (serialize_json x
              ++ (serialize_arr_items false (y :: r) ++ 93 :: suf)))
            (pre.length + ws.length + (serialize_json x).length)
            = (44, pre.length + ws.length + (serialize_json x).length) := by
          have hbuf4 : pre ++ ws ++ (serialize_json x
                ++ (serialize_arr_items false (y :: r) ++ 93 :: suf))
              = (pre ++ ws ++ serialize_json x)
                ++ 44 :: (32 :: (serialize_arr_items true (y :: r) ++ 93 :: suf)) := by
            rw [hfalse]
            simp [List.append_assoc]
          have hE : pre.length + ws.length + (serialize_json x).length
              = (pre ++ ws ++ serialize_json x).length := by
            simp only [List.length_append]
          rw [hbuf4, hE]
          exact next_token_at _ 44 (by decide) _
        have h44 : (next_token (pre ++ ws ++ (serialize_json x
              ++ (serialize_arr_items false (y :: r) ++ 93 :: suf)))
            (pre.length + ws.length + (serialize_json x).length)).1 = 44 := by
          rw [hnt2]
        have h2b : (next_token (pre ++ ws ++ (serialize_json x
              ++ (serialize_arr_items false (y :: r) ++ 93 :: suf)))
            (pre.length + ws.length + (serialize_json x).length)).2
            = pre.length + ws.length + (serialize_json x).length := by
          rw [hnt2]
        rw [if_pos h44, h2b]
        have hel' : ∀ z ∈ y :: r, ∀ (fuel : Nat) (pre2 ws2 suf2 : List Nat),
            rt_ok z = true → fuelNeed z ≤ fuel → headSafe suf2 = true →
            (∀ b ∈ ws2, isWs b = true) →
            _parse_json fuel (pre2 ++ ws2 ++ (serialize_json z ++ suf2)) pre2.length
              = .ok (normalize z, pre2.length + ws2.length + (serialize_json z).length) :=
          fun z hz => hel z (List.mem_cons_of_mem x hz)
        have hfr : fuelNeedItems (y :: r) ≤ f' := by omega
        have hloop := ih hel' f' (pre ++ ws ++ serialize_json x ++ [44]) [32] suf
          (acc ++ [normalize x]) hokr hfr hsuf
          (by
            intro b hb
            rw [List.mem_singleton] at hb
            subst hb
            rfl)
        rw [hbuf3]
        have hpos : pre.length + ws.length + (serialize_json x).length + 1
            = (pre ++ ws ++ serialize_json x ++ [44]).length := by
          simp only [List.length_append, List.length_cons, List.length_nil]
        rw [hpos, hloop]
        simp only [Except.ok.injEq, Prod.mk.injEq, normalizeList]
        constructor
        · simp
        · have hlf : (serialize_arr_items false (y :: r)).length
              = 2 + (serialize_arr_items true (y :: r)).length := by
            rw [hfalse]
            simp only [List.length_cons]
            omega
          simp only [List.length_append, List.length_cons, List.length_nil,
            hitems, hlf]
          omega

/-- The member loop of `parse_object` consumes serialized members
followed by `}`, accumulating entries via `insertEntry`, given that each
member value parses correctly.  Distinct keys keep every insert a plain
append. -/
theorem rt_obj_loop : ∀ (kvs : List (CowStr × Value)),
    (∀ (k : CowStr) (v : Value), (k, v) ∈ kvs →
      ∀ (fuel : Nat) (pre ws suf : List Nat),
      rt_ok v = true → fuelNeed v ≤ fuel → headSafe suf = true →
      (∀ b ∈ ws, isWs b = true) →
      _parse_json fuel (pre ++ ws ++ (serialize_json v ++ suf)) pre.length
        = .ok (normalize v, pre.length + ws.length + (serialize_json v).length)) →
    ∀ (f : Nat) (pre ws suf : List Nat) (acc : List (CowStr × Value)),
      rt_okEntries kvs = true →
      (kvs.map (fun e => e.1.data)).Nodup →
      (∀ e ∈ acc, ∀ e2 ∈ kvs, ¬(e.1.data = e2.1.data)) →
      fuelNeedEntries kvs ≤ f → headSafe suf = true →
      (∀ b ∈ ws, isWs b = true) →
      parse_object_go f (pre ++ ws ++ (serialize_obj_items true kvs ++ 125 :: suf))
          pre.length acc
        = .ok (acc ++ normalizeEntries kvs,
               pre.length + ws.length + (serialize_obj_items true kvs).length + 1) := by
  intro kvs
  induction kvs with
  | nil =>
    intro hel f pre ws suf acc hok hnd hfresh hfuel hsuf hws
    simp only [fuelNeedEntries] at hfuel
    cases f with
    | zero => exact absurd hfuel (by omega)
    | succ f' =>
      have h0 : serialize_obj_items true ([] : List (CowStr × Value)) = [] := by
        simp only [serialize_obj_items]
      rw [h0]
      simp only [List.nil_append, List.length_nil]
      have hnt : next_token (pre ++ ws ++ (125 :: suf)) pre.length
          = (125, pre.length + ws.length) :=
        next_token_ws_head pre ws hws 125 (by decide) suf
      have h125 : (next_token (pre ++ ws ++ (125 :: suf)) pre.length).1 = 125 := by
        rw [hnt]
      have h2 : (next_token (pre ++ ws ++ (125 :: suf)) pre.length).2
          = pre.length + ws.length := by
        rw [hnt]
      simp only [parse_object_go, h125, if_true, reduceIte, h2]
      simp only [normalizeEntries, List.append_nil]
  | cons e rest ih =>
    obtain ⟨k, v⟩ := e
    intro hel f pre ws suf acc hok hnd hfresh hfuel hsuf hws
    have hok' : (validUtf8 k.data && rt_ok v && rt_okEntries rest) = true := hok
    simp only [Bool.and_eq_true] at hok'
    obtain ⟨⟨hutf, hokv⟩, hokr⟩ := hok'
    simp only [fuelNeedEntries] at hfuel
    have hnd' : ¬(k.data ∈ rest.map (fun e => e.1.data))
        ∧ (rest.map (fun e => e.1.data)).Nodup := by
      rw [List.map_cons, List.nodup_cons] at hnd
      exact hnd
    cases f with
    | zero => exact absurd hfuel (by omega)
    | succ f' =>
      have hbufa : serialize_obj_items true ((k, v) :: rest) ++ 125 :: suf
          = serialize_str k.data
            ++ (58 :: (32 :: (serialize_json v
                ++ (serialize_obj_items false rest ++ 125 :: suf)))) := by
        simp only [serialize_obj_items, reduceIte, List.nil_append, bytes_colon,
          List.cons_append, List.append_assoc]
      rw [hbufa]
      have hserk : serialize_str k.data
            ++ (58 :: (32 :: (serialize_json v
                ++ (serialize_obj_items false rest ++ 125 :: suf))))
          = 34 :: ((serialize_str_content k.data ++ [34])
            ++ (58 :: (32 :: (serialize_json v
                ++ (serialize_obj_items false rest ++ 125 :: suf))))) := rfl
      have hnt : next_token (pre ++ ws ++ (serialize_str k.data
            ++ (58 :: (32 :: (serialize_json v
                ++ (serialize_obj_items false rest ++ 125 :: suf)))))) pre.length
          = (34, pre.length + ws.length) := by
        rw [hserk]
        exact next_token_ws_head pre ws hws 34 (by decide) _
      have h125 : ¬((next_token (pre ++ ws ++ (serialize_str k.data
            ++ (58 :: (32 :: (serialize_json v
                ++ (serialize_obj_items false rest ++ 125 :: suf)))))) pre.length).1
          = 125) := by
        rw [hnt]
        exact (by decide : ¬((34 : Nat) = 125))
      have hp2 : ((next_token (pre ++ ws ++ (serialize_str k.data
            ++ (58 :: (32 :: (serialize_json v
                ++ (serialize_obj_items false rest ++ 125 :: suf)))))) pre.length).2)
          = pre.length + ws.length := by
        rw [hnt]
      simp only [parse_object_go]
      rw [if_neg h125, hp2]
      have hps := parse_str_serialize k.data hutf (pre ++ ws)
        (58 :: (32 :: (serialize_json v
            ++ (serialize_obj_items false rest ++ 125 :: suf))))
      simp only [List.length_append] at hps
      rw [hps]
      simp only []
      have hbufc : pre ++ ws ++ (serialize_str k.data
            ++ (58 :: (32 :: (serialize_json v
                ++ (serialize_obj_items false rest ++ 125 :: suf)))))
          = (pre ++ ws ++ serialize_str k.data)
            ++ 58 :: (32 :: (serialize_json v
                ++ (serialize_obj_items false rest ++ 125 :: suf))) := by
        simp [List.append_assoc]
      have hKE : pre.length + ws.length + (serialize_str k.data).length
          = (pre ++ ws ++ serialize_str k.data).length := by
        simp only [List.length_append]
      have hnt2 : next_token (pre ++ ws ++ (serialize_str k.data
            ++ (58 :: (32 :: (serialize_json v
                ++ (serialize_obj_items false rest ++ 125 :: suf))))))
          (pre.length + ws.length + (serialize_str k.data).length)
          = (58, pre.length + ws.length + (serialize_str k.data).length) := by
        rw [hbufc, hKE]
        exact next_token_at _ 58 (by decide) _
      have hc58 : ¬((next_token (pre ++ ws ++ (serialize_str k.data
            ++ (58 :: (32 :: (serialize_json v
                ++ (serialize_obj_items false rest ++ 125 :: suf))))))
          (pre.length + ws.length + (serialize_str k.data).length)).1 ≠ 58) := by
        rw [hnt2]
        exact fun h => h rfl
      rw [if_neg hc58]
      have h2c : ((next_token (pre ++ ws ++ (serialize_str k.data
            ++ (58 :: (32 :: (serialize_json v
                ++ (serialize_obj_items false rest ++ 125 :: suf))))))
          (pre.length + ws.length + (serialize_str k.data).length)).2)
          = pre.length + ws.length + (serialize_str k.data).length := by
        rw [hnt2]
      rw [h2c]
      have helv := hel k v (List.mem_cons_self (k, v) rest) f'
        (pre ++ ws ++ serialize_str k.data ++ [58]) [32]
        (serialize_obj_items false rest ++ 125 :: suf) hokv (by omega)
        (headSafe_obj_tail rest suf)
        (by
          intro b hb
          rw [List.mem_singleton] at hb
          subst hb
          rfl)
      have hbufd : (pre ++ ws ++ serialize_str k.data ++ [58]) ++ [32]
            ++ (serialize_json v ++ (serialize_obj_items false rest ++ 125 :: suf))
          = pre ++ ws ++ (serialize_str k.data
            ++ (58 :: (32 :: (serialize_json v
                ++ (serialize_obj_items false rest ++ 125 :: suf))))) := by
        simp [List.append_assoc]
      rw [hbufd] at helv
      simp only [List.length_append, List.length_cons, List.length_nil,
        Nat.add_zero] at helv
      rw [helv]
      simp only []
      cases rest with
      | nil =>
        have h0 : serialize_obj_items false ([] : List (CowStr × Value)) = [] := by
          simp only [serialize_obj_items]
        rw [h0]
        simp only [List.nil_append]
        have hbufe : pre ++ ws ++ (serialize_str k.data
              ++ (58 :: (32 :: (serialize_json v ++ 125 :: suf))))
            = (pre ++ ws ++ serialize_str k.data ++ [58] ++ [32] ++ serialize_json v)
              ++ 125 :: suf := by
          simp [List.append_assoc]
        have hVE : pre.length + ws.length + (serialize_str k.data).length + 1 + 1
              + (serialize_json v).length
            = (pre ++ ws ++ serialize_str k.data ++ [58] ++ [32]
                ++ serialize_json v).length := by
          simp only [List.length_append, List.length_cons, List.length_nil]
        have hnt3 : next_token (pre ++ ws ++ (serialize_str k.data
              ++ (58 :: (32 :: (serialize_json v ++ 125 :: suf)))))
            (pre.length + ws.length + (serialize_str k.data).length + 1 + 1
              + (serialize_json v).length)
            = (125, pre.length + ws.length + (serialize_str k.data).length + 1 + 1
                + (serialize_json v).length) := by
          rw [hbufe, hVE]
          exact next_token_at _ 125 (by decide) _
        have h44b : ¬((next_token (pre ++ ws ++ (serialize_str k.data
              ++ (58 :: (32 :: (serialize_json v ++ 125 :: suf)))))
            (pre.length + ws.length + (serialize_str k.data).length + 1 + 1
              + (serialize_json v).length)).1 = 44) := by
          rw [hnt3]
          exact (by decide : ¬((125 : Nat) = 44))
        have h125b : ((next_token (pre ++ ws ++ (serialize_str k.data
              ++ (58 :: (32 :: (serialize_json v ++ 125 :: suf)))))
            (pre.length + ws.length + (serialize_str k.data).length + 1 + 1
              + (serialize_json v).length)).1 = 125) := by
          rw [hnt3]
        have h2d : ((next_token (pre ++ ws ++ (serialize_str k.data
              ++ (58 :: (32 :: (serialize_json v ++ 125 :: suf)))))
            (pre.length + ws.length + (serialize_str k.data).length + 1 + 1
              + (serialize_json v).length)).2)
            = pre.length + ws.length + (serialize_str k.data).length + 1 + 1
              + (serialize_json v).length := by
          rw [hnt3]
        rw [if_neg h44b, if_pos h125b, h2d]
        rw [insertEntry_fresh acc (reparsedCow k.data) (normalize v)
          (fun e he => by
            rw [reparsedCow_data]
            exact hfresh e he (k, v) (List.mem_cons_self (k, v) []))]
        have hi1 : serialize_obj_items true [(k, v)]
            = serialize_str k.data ++ bytes ": " ++ serialize_json v := by
          simp only [serialize_obj_items, reduceIte, List.nil_append,
            List.append_nil]
        rw [hi1]
        simp only [normalizeEntries, Except.ok.injEq, Prod.mk.injEq]
        constructor
        · simp
        · simp only [List.length_append, bytes_colon, List.length_cons,
            List.length_nil]
          omega
      | cons e2 r =>
        obtain ⟨k2, v2⟩ := e2
        have hfalse : serialize_obj_items false ((k2, v2) :: r)
            = 44 :: 32 :: serialize_obj_items true ((k2, v2) :: r) := by
          simp only [serialize_obj_items, Bool.false_eq_true, if_false, reduceIte,
            List.nil_append, bytes_comma, bytes_colon, List.cons_append,
            List.append_assoc]
        have hbufe : pre ++ ws ++ (serialize_str k.data
              ++ (58 :: (32 :: (serialize_json v
                  ++ (serialize_obj_items false ((k2, v2) :: r) ++ 125 :: suf)))))
            = (pre ++ ws ++ serialize_str k.data ++ [58] ++ [32] ++ serialize_json v)
              ++ 44 :: (32 :: (serialize_obj_items true ((k2, v2) :: r)
                  ++ 125 :: suf)) := by
          rw [hfalse]
          simp [List.append_assoc]
        have hVE : pre.length + ws.length + (serialize_str k.data).length + 1 + 1
              + (serialize_json v).length
            = (pre ++ ws ++ serialize_str k.data ++ [58] ++ [32]
                ++ serialize_json v).length := by
          simp only [List.length_append, List.length_cons, List.length_nil]
        have hnt3 : next_token (pre ++ ws ++ (serialize_str k.data
              ++ (58 :: (32 :: (serialize_json v
                  ++ (serialize_obj_items false ((k2, v2) :: r) ++ 125 :: suf))))))
            (pre.length + ws.length + (serialize_str k.data).length + 1 + 1
              + (serialize_json v).length)
            = (44, pre.length + ws.length + (serialize_str k.data).length + 1 + 1
                + (serialize_json v).length) := by
          rw [hbufe, hVE]
          exact next_token_at _ 44 (by decide) _
        have h44b : ((next_token (pre ++ ws ++ (serialize_str k.data
              ++ (58 :: (32 :: (serialize_json v
                  ++ (serialize_obj_items false ((k2, v2) :: r) ++ 125 :: suf))))))
            (pre.length + ws.length + (serialize_str k.data).length + 1 + 1
              + (serialize_json v).length)).1 = 44) := by
          rw [hnt3]
        have h2d : ((next_token (pre ++ ws ++ (serialize_str k.data
              ++ (58 :: (32 :: (serialize_json v
                  ++ (serialize_obj_items false ((k2, v2) :: r) ++ 125 :: suf))))))
            (pre.length + ws.length + (serialize_str k.data).length + 1 + 1
              + (serialize_json v).length)).2)
            = pre.length + ws.length + (serialize_str k.data).length + 1 + 1
              + (serialize_json v).length := by
          rw [hnt3]
        rw [if_pos h44b, h2d]
        rw [insertEntry_fresh acc (reparsedCow k.data) (normalize v)
          (fun e he => by
            rw [reparsedCow_data]
            exact hfresh e he (k, v) (List.mem_cons_self (k, v) ((k2, v2) :: r)))]
        have hel' : ∀ (k3 : CowStr) (v3 : Value), (k3, v3) ∈ (k2, v2) :: r →
            ∀ (fuel : Nat) (pre2 ws2 suf2 : List Nat),
            rt_ok v3 = true → fuelNeed v3 ≤ fuel → headSafe suf2 = true →
            (∀ b ∈ ws2, isWs b = true) →
            _parse_json fuel (pre2 ++ ws2 ++ (serialize_json v3 ++ suf2)) pre2.length
              = .ok (normalize v3,
                     pre2.length + ws2.length + (serialize_json v3).length) :=
          fun k3 v3 h3 => hel k3 v3 (List.mem_cons_of_mem (k, v) h3)
        have hfresh' : ∀ e ∈ acc ++ [(reparsedCow k.data, normalize v)],
            ∀ e2 ∈ (k2, v2) :: r, ¬(e.1.data = e2.1.data) := by
          intro e he e2 he2
          rcases List.mem_append.mp he with he | he
          · exact hfresh e he e2 (List.mem_cons_of_mem (k, v) he2)
          · rw [List.mem_singleton] at he
            subst he
            show ¬((reparsedCow k.data).data = e2.1.data)
            rw [reparsedCow_data]
            intro hkeq
            exact hnd'.1 (hkeq ▸ List.mem_map_of_mem (fun e => e.1.data) he2)
        have hfr : fuelNeedEntries ((k2, v2) :: r) ≤ f' := by omega
        have hloop := ih hel' f'
          (pre ++ ws ++ serialize_str k.data ++ [58] ++ [32]
            ++ serialize_json v ++ [44]) [32] suf
          (acc ++ [(reparsedCow k.data, normalize v)]) hokr hnd'.2 hfresh' hfr hsuf
          (by
            intro b hb
            rw [List.mem_singleton] at hb
            subst hb
            rfl)
        have hbuf5 : (pre ++ ws ++ serialize_str k.data ++ [58] ++ [32]
              ++ serialize_json v ++ [44]) ++ [32]
              ++ (serialize_obj_items true ((k2, v2) :: r) ++ 125 :: suf)
            = pre ++ ws ++ (serialize_str k.data
              ++ (58 :: (32 :: (serialize_json v
                  ++ (serialize_obj_items false ((k2, v2) :: r) ++ 125 :: suf))))) := by
          rw [hfalse]
          simp [List.append_assoc]
        rw [hbuf5] at hloop
        have hlen5 : (pre ++ ws ++ serialize_str k.data ++ [58] ++ [32]
              ++ serialize_json v ++ [44]).length
            = pre.length + ws.length + (serialize_str k.data).length + 1 + 1
              + (serialize_json v).length + 1 := by
          simp only [List.length_append, List.length_cons, List.length_nil]
        rw [hlen5] at hloop
        rw [hloop]
        simp only [Except.ok.injEq, Prod.mk.injEq, normalizeEntries]
        constructor
        · simp
        · have hlf : (serialize_obj_items false ((k2, v2) :: r)).length
              = 2 + (serialize_obj_items true ((k2, v2) :: r)).length := by
            rw [hfalse]
            simp only [List.length_cons]
            omega
          have hit : serialize_obj_items true ((k, v) :: (k2, v2) :: r)
              = serialize_str k.data ++ bytes ": " ++ serialize_json v
                ++ serialize_obj_items false ((k2, v2) :: r) := by
            simp only [serialize_obj_items, reduceIte, List.nil_append]
          simp only [hit, List.length_append, List.length_cons, List.length_nil,
            bytes_colon, hlf]
          omega

/-- The round-trip core: `_parse_json`, run on any buffer holding a
serialized value (after optional whitespace, before a safe suffix),
returns the normalized value and stops exactly at the value's end. -/
theorem rt_main : ∀ (N : Nat) (v : Value), sizeOf v ≤ N →
    ∀ (fuel : Nat) (pre ws suf : List Nat),
    rt_ok v = true → fuelNeed v ≤ fuel → headSafe suf = true →
    (∀ b ∈ ws, isWs b = true) →
    _parse_json fuel (pre ++ ws ++ (serialize_json v ++ suf)) pre.length
      = .ok (normalize v, pre.length + ws.length + (serialize_json v).length) := by
  intro N
  induction N with
  | zero =>
    intro v hv
    exfalso
    cases v <;> simp at hv
  | succ N ih =>
    intro v hsv fuel pre ws suf hok hfuel hsuf hws
    cases v with
    | Null =>
      cases fuel with
      | zero => exact absurd hfuel (by have := fuelNeed_pos Value.Null; omega)
      | succ f =>
        have hser : serialize_json Value.Null = [110, 117, 108, 108] := by
          simp only [serialize_json]
          decide
        rw [hser]
        have hnt : next_token (pre ++ ws ++ ([110, 117, 108, 108] ++ suf))
            pre.length = (110, pre.length + ws.length) := by
          have hx : [110, 117, 108, 108] ++ suf
              = 110 :: ([117, 108, 108] ++ suf) := rfl
          rw [hx]
          exact next_token_ws_head pre ws hws 110 (by decide) _
        rw [_parse_json_null f hnt]
        have hb4 : bytes "null" = [110, 117, 108, 108] := by decide
        have hc := consume_lit_spec (pre ++ ws) (bytes "null") suf
        rw [hb4, List.append_assoc] at hc
        simp only [List.length_append] at hc
        have hcl : consume_null (pre ++ ws ++ ([110, 117, 108, 108] ++ suf))
            (pre.length + ws.length)
            = .ok (pre.length + ws.length + [110, 117, 108, 108].length) := hc
        rw [hcl]
        simp only [normalize]
    | Bool b =>
      cases fuel with
      | zero => exact absurd hfuel (by have := fuelNeed_pos (Value.Bool b); omega)
      | succ f =>
        cases b with
        | true =>
          have hser : serialize_json (Value.Bool true)
              = [116, 114, 117, 101] := by
            simp only [serialize_json]
            decide
          rw [hser]
          have hnt : next_token (pre ++ ws ++ ([116, 114, 117, 101] ++ suf))
              pre.length = (116, pre.length + ws.length) := by
            have hx : [116, 114, 117, 101] ++ suf
                = 116 :: ([114, 117, 101] ++ suf) := rfl
            rw [hx]
            exact next_token_ws_head pre ws hws 116 (by decide) _
          rw [_parse_json_true f hnt]
          have hb4 : bytes "true" = [116, 114, 117, 101] := by decide
          have hc := consume_lit_spec (pre ++ ws) (bytes "true") suf
          rw [hb4, List.append_assoc] at hc
          simp only [List.length_append] at hc
          have hcl : consume_true (pre ++ ws ++ ([116, 114, 117, 101] ++ suf))
              (pre.length + ws.length)
              = .ok (pre.length + ws.length + [116, 114, 117, 101].length) := hc
          rw [hcl]
          simp only [normalize]
        | false =>
          have hser : serialize_json (Value.Bool false)
              = [102, 97, 108, 115, 101] := by
            simp only [serialize_json]
            decide
          rw [hser]
          have hnt : next_token (pre ++ ws ++ ([102, 97, 108, 115, 101] ++ suf))
              pre.length = (102, pre.length + ws.length) := by
            have hx : [102, 97, 108, 115, 101] ++ suf
                = 102 :: ([97, 108, 115, 101] ++ suf) := rfl
            rw [hx]
            exact next_token_ws_head pre ws hws 102 (by decide) _
          rw [_parse_json_false f hnt]
          have hb4 : bytes "false" = [102, 97, 108, 115, 101] := by decide
          have hc := consume_lit_spec (pre ++ ws) (bytes "false") suf
          rw [hb4, List.append_assoc] at hc
          simp only [List.length_append] at hc
          have hcl : consume_false
              (pre ++ ws ++ ([102, 97, 108, 115, 101] ++ suf))
              (pre.length + ws.length)
              = .ok (pre.length + ws.length + [102, 97, 108, 115, 101].length) :=
            hc
          rw [hcl]
          simp only [normalize]
    | Float x =>
      cases fuel with
      | zero => exact absurd hfuel (by have := fuelNeed_pos (Value.Float x); omega)
      | succ f =>
        have hps : floatLitOk x = true := by
          rw [show rt_ok (Value.Float x) = floatLitOk x by simp only [rt_ok]] at hok
          exact hok
        cases x with
        | nan => simp only [floatLitOk] at hps; exact Bool.noConfusion hps
        | ofLit s =>
          cases s with
          | nil => simp only [floatLitOk] at hps; exact Bool.noConfusion hps
          | cons c r =>
            simp only [floatLitOk, Bool.and_eq_true, decide_eq_true_eq] at hps
            obtain ⟨⟨hdc, hall⟩, hcnt⟩ := hps
            have hall' : ∀ d ∈ c :: r, (isDigit d || d = 46) = true := by
              rw [List.all_eq_true] at hall
              exact hall
            have hser : serialize_json (Value.Float (F64.ofLit (c :: r)))
                = c :: r := by
              simp only [serialize_json, floatDisplay]
            rw [hser]
            have hcr : (c :: r) ++ suf = c :: (r ++ suf) := rfl
            have hnt : next_token (pre ++ ws ++ ((c :: r) ++ suf)) pre.length
                = (c, pre.length + ws.length) := by
              rw [hcr]
              exact next_token_ws_head pre ws hws c (by simp [isTokenStart, hdc]) _
            rw [_parse_json_digit f hnt hdc]
            have hb : (pre ++ ws ++ ((c :: r) ++ suf))[pre.length + ws.length]?
                = some c := by
              have := byteAt (pre ++ ws) c (r ++ suf)
              simpa [List.length_append] using this
            have hrun : numRun (pre ++ ws ++ ((c :: r) ++ suf))
                (pre.length + ws.length) = c :: r := by
              have := numRun_concat_dot (pre ++ ws) (c :: r) suf hall' hsuf
              simpa [List.length_append] using this
            have hmem46 : 46 ∈ c :: r := by
              by_contra hnm
              rw [List.count_eq_zero_of_not_mem hnm] at hcnt
              omega
            have hdot : (46 ∈ numRun (pre ++ ws ++ ((c :: r) ++ suf))
                (pre.length + ws.length)) = True := by
              apply eq_true
              rw [hrun]
              exact hmem46
            have hcount : (numRun (pre ++ ws ++ ((c :: r) ++ suf))
                (pre.length + ws.length)).count 46 ≤ 1 := by
              rw [hrun]
              omega
            rw [parse_number_float_ok hb hdc hdot hcount, hrun]
            simp only [normalize, Except.ok.injEq, Prod.mk.injEq]
    | String s =>
      cases fuel with
      | zero => exact absurd hfuel (by have := fuelNeed_pos (Value.String s); omega)
      | succ f =>
        have hutf : validUtf8 s.data = true := hok
        have hser : serialize_json (Value.String s) = serialize_str s.data := by
          simp only [serialize_json]
        rw [hser]
        have hnt : next_token (pre ++ ws ++ (serialize_str s.data ++ suf))
            pre.length = (34, pre.length + ws.length) := by
          have hx : serialize_str s.data ++ suf
              = 34 :: ((serialize_str_content s.data ++ [34]) ++ suf) := rfl
          rw [hx]
          exact next_token_ws_head pre ws hws 34 (by decide) _
        rw [_parse_json_str f hnt]
        have hps := parse_str_serialize s.data hutf (pre ++ ws) suf
        simp only [List.length_append] at hps
        rw [hps]
        simp only [normalize]
    | Int n =>
      cases fuel with
      | zero => exact absurd hfuel (by have := fuelNeed_pos (Value.Int n); omega)
      | succ f =>
        have hv' : (decide (0 ≤ n) && decide (n < 2 ^ 63)) = true := hok
        simp only [Bool.and_eq_true, decide_eq_true_eq] at hv'
        have h0 : ¬(n < 0) := by omega
        have hser : serialize_json (Value.Int n) = natToDigits n.toNat := by
          simp only [serialize_json, intDisplay, if_neg h0]
        rw [hser]
        cases hnd : natToDigits n.toNat with
        | nil => exact absurd hnd (natToDigits_ne_nil _)
        | cons c r =>
          have hdigits : ∀ d ∈ c :: r, isDigit d = true := fun d hd =>
            natToDigits_all_digit n.toNat d (hnd ▸ hd)
          have hdc : isDigit c = true := hdigits c (List.mem_cons_self c r)
          have hcr : (c :: r) ++ suf = c :: (r ++ suf) := rfl
          have hnt : next_token (pre ++ ws ++ ((c :: r) ++ suf)) pre.length
              = (c, pre.length + ws.length) := by
            rw [hcr]
            exact next_token_ws_head pre ws hws c (by simp [isTokenStart, hdc]) _
          rw [_parse_json_digit f hnt hdc]
          have hb : (pre ++ ws ++ ((c :: r) ++ suf))[pre.length + ws.length]?
              = some c := by
            have := byteAt (pre ++ ws) c (r ++ suf)
            simpa [List.length_append] using this
          have hrun : numRun (pre ++ ws ++ ((c :: r) ++ suf))
              (pre.length + ws.length) = c :: r := by
            have := numRun_concat (pre ++ ws) (c :: r) suf hdigits hsuf
            simpa [List.length_append] using this
          have hnd46 : (46 ∈ numRun (pre ++ ws ++ ((c :: r) ++ suf))
              (pre.length + ws.length)) = False := by
            apply eq_false
            intro h46
            rw [hrun] at h46
            have := hdigits 46 h46
            simp [isDigit] at this
          have hval : digitsToNat (numRun (pre ++ ws ++ ((c :: r) ++ suf))
              (pre.length + ws.length)) 0 = n.toNat := by
            rw [hrun, ← hnd, digitsToNat_natToDigits]
          have htn : (n.toNat : ℤ) = n := Int.toNat_of_nonneg hv'.1
          have hlt : digitsToNat (numRun (pre ++ ws ++ ((c :: r) ++ suf))
              (pre.length + ws.length)) 0 < 2 ^ 63 := by
            rw [hval]
            omega
          rw [parse_number_int_ok hb hdc hnd46 hlt, hval, hrun]
          simp only [normalize, Except.ok.injEq, Prod.mk.injEq]
          constructor
          · rw [htn]
          · trivial
    | Array xs =>
      have hokl : rt_okList xs = true := hok
      have hfa : fuelNeed (Value.Array xs) = 2 + fuelNeedItems xs := by
        simp only [fuelNeed]
      rw [hfa] at hfuel
      cases fuel with
      | zero => exact absurd hfuel (by omega)
      | succ f =>
        have hser : serialize_json (Value.Array xs)
            = 91 :: serialize_arr_items true xs ++ [93] := by
          simp only [serialize_json]
        rw [hser]
        have hsh : (91 :: serialize_arr_items true xs ++ [93]) ++ suf
            = 91 :: (serialize_arr_items true xs ++ 93 :: suf) := by
          simp [List.append_assoc]
        rw [hsh]
        have hnt : next_token
            (pre ++ ws ++ (91 :: (serialize_arr_items true xs ++ 93 :: suf)))
            pre.length = (91, pre.length + ws.length) :=
          next_token_ws_head pre ws hws 91 (by decide) _
        rw [_parse_json_arr f hnt]
        cases f with
        | zero => exact absurd hfuel (by have := fuelNeed_pos (Value.Array xs); omega)
        | succ f2 =>
          have hpa : parse_array (f2 + 1)
              (pre ++ ws ++ (91 :: (serialize_arr_items true xs ++ 93 :: suf)))
              (pre.length + ws.length)
              = parse_array_go f2
                (pre ++ ws ++ (91 :: (serialize_arr_items true xs ++ 93 :: suf)))
                (pre.length + ws.length + 1) [] := by
            simp only [parse_array]
          rw [hpa]
          have hsb : sizeOf xs ≤ N := by
            have hs : sizeOf (Value.Array xs) = 1 + sizeOf xs := by simp
            omega
          have hloop := rt_arr_loop xs
            (fun x hx => ih x (by have := List.sizeOf_lt_of_mem hx; omega))
            f2 (pre ++ ws ++ [91]) [] suf [] hokl (by omega) hsuf
            (by intro b hb; exact absurd hb (List.not_mem_nil b))
          have hbufx : (pre ++ ws ++ [91]) ++ []
                ++ (serialize_arr_items true xs ++ 93 :: suf)
              = pre ++ ws ++ (91 :: (serialize_arr_items true xs ++ 93 :: suf)) := by
            simp [List.append_assoc]
          rw [hbufx] at hloop
          simp only [List.length_append, List.length_cons, List.length_nil,
            Nat.add_zero, List.nil_append] at hloop
          rw [hloop]
          simp only [normalize, Except.ok.injEq, Prod.mk.injEq]
          constructor
          · trivial
          · simp only [List.length_append, List.length_cons, List.length_nil]
            omega
    | Object kvs =>
      have hok' : (distinctKeys kvs && rt_okEntries kvs) = true := hok
      simp only [Bool.and_eq_true] at hok'
      have hnodup : (kvs.map (fun e => e.1.data)).Nodup :=
        of_decide_eq_true hok'.1
      have hfa : fuelNeed (Value.Object kvs) = 2 + fuelNeedEntries kvs := by
        simp only [fuelNeed]
      rw [hfa] at hfuel
      cases fuel with
      | zero => exact absurd hfuel (by omega)
      | succ f =>
        have hser : serialize_json (Value.Object kvs)
            = 123 :: serialize_obj_items true kvs ++ [125] := by
          simp only [serialize_json]
        rw [hser]
        have hsh : (123 :: serialize_obj_items true kvs ++ [125]) ++ suf
            = 123 :: (serialize_obj_items true kvs ++ 125 :: suf) := by
          simp [List.append_assoc]
        rw [hsh]
        have hnt : next_token
            (pre ++ ws ++ (123 :: (serialize_obj_items true kvs ++ 125 :: suf)))
            pre.length = (123, pre.length + ws.length) :=
          next_token_ws_head pre ws hws 123 (by decide) _
        rw [_parse_json_obj f hnt]
        cases f with
        | zero =>
          exact absurd hfuel (by have := fuelNeed_pos (Value.Object kvs); omega)
        | succ f2 =>
          have hpa : parse_object (f2 + 1)
              (pre ++ ws ++ (123 :: (serialize_obj_items true kvs ++ 125 :: suf)))
              (pre.length + ws.length)
              = parse_object_go f2
                (pre ++ ws ++ (123 :: (serialize_obj_items true kvs ++ 125 :: suf)))
                (pre.length + ws.length + 1) [] := by
            simp only [parse_object]
          rw [hpa]
          have hsb : sizeOf kvs ≤ N := by
            have hs : sizeOf (Value.Object kvs) = 1 + sizeOf kvs := by simp
            omega
          have hloop := rt_obj_loop kvs
            (fun k2 v2 hkv => ih v2 (by
              have h1 := List.sizeOf_lt_of_mem hkv
              have h2 : sizeOf (k2, v2) = 1 + sizeOf k2 + sizeOf v2 := by simp
              omega))
            f2 (pre ++ ws ++ [123]) [] suf [] hok'.2 hnodup
            (by intro e he; exact absurd he (List.not_mem_nil e))
            (by omega) hsuf
            (by intro b hb; exact absurd hb (List.not_mem_nil b))
          have hbufx : (pre ++ ws ++ [123]) ++ []
                ++ (serialize_obj_items true kvs ++ 125 :: suf)
              = pre ++ ws ++ (123 :: (serialize_obj_items true kvs ++ 125 :: suf)) := by
            simp [List.append_assoc]
          rw [hbufx] at hloop
          simp only [List.length_append, List.length_cons, List.length_nil,
            Nat.add_zero, List.nil_append] at hloop
          rw [hloop]
          simp only [normalize, Except.ok.injEq, Prod.mk.injEq]
          constructor
          · trivial
          · simp only [List.length_append, List.length_cons, List.length_nil]
            omega

/-! ## Round-trip: `==` between the original and the reparsed value -/

theorem vdepth_pos (v : Value) : 1 ≤ vdepth v := by
  cases v <;> simp only [vdepth] <;> omega

theorem vdepthList_le : ∀ (xs : List Value) (x : Value), x ∈ xs →
    vdepth x ≤ vdepthList xs := by
  intro xs
  induction xs with
  | nil => intro x hx; exact absurd hx (List.not_mem_nil x)
  | cons y ys ih =>
    intro x hx
    rcases List.mem_cons.mp hx with h | h
    · subst h
      simp only [vdepthList]
      exact le_max_left _ _
    · simp only [vdepthList]
      exact le_trans (ih x h) (le_max_right _ _)

theorem vdepthEntries_le : ∀ (kvs : List (CowStr × Value)) (k : CowStr) (v : Value),
    (k, v) ∈ kvs → vdepth v ≤ vdepthEntries kvs := by
  intro kvs
  induction kvs with
  | nil => intro k v hkv; exact absurd hkv (List.not_mem_nil _)
  | cons y ys ih =>
    obtain ⟨k2, v2⟩ := y
    intro k v hkv
    rcases List.mem_cons.mp hkv with h | h
    · injection h with h1 h2
      subst h1
      subst h2
      simp only [vdepthEntries]
      exact le_max_left _ _
    · simp only [vdepthEntries]
      exact le_trans (ih k v h) (le_max_right _ _)

theorem normalizeEntries_length (kvs : List (CowStr × Value)) :
    (normalizeEntries kvs).length = kvs.length := by
  induction kvs with
  | nil => rfl
  | cons y ys ih =>
    obtain ⟨k, v⟩ := y
    simp only [normalizeEntries, List.length_cons, ih]

theorem find?_normalizeEntries : ∀ (kvs : List (CowStr × Value)),
    (kvs.map (fun e => e.1.data)).Nodup →
    ∀ (k : CowStr) (v : Value), (k, v) ∈ kvs →
    (normalizeEntries kvs).find? (fun e => decide (e.1.data = k.data))
      = some (reparsedCow k.data, normalize v) := by
  intro kvs
  induction kvs with
  | nil => intro _ k v hkv; exact absurd hkv (List.not_mem_nil _)
  | cons y ys ih =>
    obtain ⟨k2, v2⟩ := y
    intro hnd k v hkv
    have hnd' : ¬(k2.data ∈ ys.map (fun e => e.1.data))
        ∧ (ys.map (fun e => e.1.data)).Nodup := by
      rw [List.map_cons, List.nodup_cons] at hnd
      exact hnd
    have hne : normalizeEntries ((k2, v2) :: ys)
        = (reparsedCow k2.data, normalize v2) :: normalizeEntries ys := by
      simp only [normalizeEntries]
    rw [hne]
    rcases List.mem_cons.mp hkv with h | h
    · injection h with h1 h2
      subst h1
      subst h2
      rw [List.find?_cons_of_pos]
      simp [reparsedCow_data]
    · have hkne : ¬(k2.data = k.data) := by
        intro he
        apply hnd'.1
        rw [he]
        exact List.mem_map_of_mem (fun e => e.1.data) h
      rw [List.find?_cons_of_neg]
      · exact ih hnd'.2 k v h
      · simp [reparsedCow_data, hkne]

theorem veqList_go_normalize (f : Nat) : ∀ (xs : List Value),
    (∀ x ∈ xs, veq_go f x (normalize x) = true) →
    veqList_go f xs (normalizeList xs) = true := by
  intro xs
  induction xs with
  | nil =>
    intro _
    simp only [normalizeList, veqList_go]
  | cons x ys ih =>
    intro hel
    have hn : normalizeList (x :: ys) = normalize x :: normalizeList ys := by
      simp only [normalizeList]
    rw [hn]
    have hstep : veqList_go f (x :: ys) (normalize x :: normalizeList ys)
        = (veq_go f x (normalize x) && veqList_go f ys (normalizeList ys)) := by
      simp only [veqList_go]
    rw [hstep, hel x (List.mem_cons_self x ys),
      ih (fun y hy => hel y (List.mem_cons_of_mem x hy))]
    rfl

theorem veqEntries_go_normalize (f : Nat) (kvs : List (CowStr × Value))
    (hnd : (kvs.map (fun e => e.1.data)).Nodup)
    (hel : ∀ (k : CowStr) (v : Value), (k, v) ∈ kvs →
      veq_go f v (normalize v) = true) :
    ∀ (sub : List (CowStr × Value)), (∀ e ∈ sub, e ∈ kvs) →
    veqEntries_go f sub (normalizeEntries kvs) = true := by
  intro sub
  induction sub with
  | nil =>
    intro _
    simp only [veqEntries_go]
  | cons y ys ih =>
    obtain ⟨k, v⟩ := y
    intro hsub
    have hmem : (k, v) ∈ kvs := hsub (k, v) (List.mem_cons_self _ _)
    have hfind := find?_normalizeEntries kvs hnd k v hmem
    have hstep : veqEntries_go f ((k, v) :: ys) (normalizeEntries kvs)
        = ((match (normalizeEntries kvs).find?
              (fun e => decide (e.1.data = k.data)) with
            | some e => veq_go f v e.2
            | none => false)
          && veqEntries_go f ys (normalizeEntries kvs)) := by
      simp only [veqEntries_go]
    rw [hstep, hfind]
    simp only []
    rw [hel k v hmem, ih (fun e he => hsub e (List.mem_cons_of_mem _ he))]
    rfl

theorem veq_go_normalize : ∀ (f : Nat) (v : Value), vdepth v ≤ f →
    rt_ok v = true → veq_go f v (normalize v) = true := by
  intro f
  induction f with
  | zero =>
    intro v hv _
    exact absurd hv (by have := vdepth_pos v; omega)
  | succ f ih =>
    intro v hv hok
    cases v with
    | String s =>
      have hn : normalize (Value.String s) = .String (reparsedCow s.data) := by
        simp only [normalize]
      rw [hn]
      simp only [veq_go, reparsedCow_data, decide_eq_true_eq]
    | Int n =>
      have hn : normalize (Value.Int n) = .Int n := by simp only [normalize]
      rw [hn]
      simp only [veq_go, decide_eq_true_eq]
    | Bool b =>
      have hn : normalize (Value.Bool b) = .Bool b := by simp only [normalize]
      rw [hn]
      simp only [veq_go, decide_eq_true_eq]
    | Null =>
      have hn : normalize Value.Null = .Null := by simp only [normalize]
      rw [hn]
      simp only [veq_go]
    | Float x =>
      have hps : floatLitOk x = true := by
        rw [show rt_ok (Value.Float x) = floatLitOk x by simp only [rt_ok]] at hok
        exact hok
      cases x with
      | nan => simp only [floatLitOk] at hps; exact Bool.noConfusion hps
      | ofLit s =>
        have hn : normalize (Value.Float (F64.ofLit s))
            = .Float (F64.ofLit s) := by
          simp only [normalize]
        rw [hn]
        simp only [veq_go, f64eq]
        simp
    | Array xs =>
      have hdl : vdepthList xs ≤ f := by
        have hdv : vdepth (Value.Array xs) = 1 + vdepthList xs := by
          simp only [vdepth]
        omega
      have hokl : rt_okList xs = true := hok
      have hn : normalize (Value.Array xs) = .Array (normalizeList xs) := by
        simp only [normalize]
      rw [hn]
      have hstep : veq_go (f + 1) (.Array xs) (.Array (normalizeList xs))
          = veqList_go f xs (normalizeList xs) := by
        simp only [veq_go]
      rw [hstep]
      exact veqList_go_normalize f xs (fun x hx =>
        ih x (le_trans (vdepthList_le xs x hx) hdl) (rt_okList_mem hokl x hx))
    | Object kvs =>
      have hok' : (distinctKeys kvs && rt_okEntries kvs) = true := hok
      simp only [Bool.and_eq_true] at hok'
      have hnodup : (kvs.map (fun e => e.1.data)).Nodup :=
        of_decide_eq_true hok'.1
      have hde : vdepthEntries kvs ≤ f := by
        have hdv : vdepth (Value.Object kvs) = 1 + vdepthEntries kvs := by
          simp only [vdepth]
        omega
      have hn : normalize (Value.Object kvs) = .Object (normalizeEntries kvs) := by
        simp only [normalize]
      rw [hn]
      have hstep : veq_go (f + 1) (.Object kvs) (.Object (normalizeEntries kvs))
          = (decide (kvs.length = (normalizeEntries kvs).length)
            && veqEntries_go f kvs (normalizeEntries kvs)) := by
        simp only [veq_go]
      rw [hstep]
      have h1 : decide (kvs.length = (normalizeEntries kvs).length) = true := by
        simp [normalizeEntries_length]
      have h2 := veqEntries_go_normalize f kvs hnodup
        (fun k v hkv =>
          ih v (le_trans (vdepthEntries_le kvs k v hkv) hde)
            ((rt_okEntries_mem hok'.2 (k, v) hkv).2))
        kvs (fun e he => he)
      rw [h1, h2]
      rfl

/-- Rust `==` holds between any round-trip-eligible value and its
reparsed form. -/
theorem veq_normalize (v : Value) (h : rt_ok v = true) :
    veq v (normalize v) = true :=
  veq_go_normalize (vdepth v) v (le_refl _) h

/-! ## Sanity examples -/

example : parse_json (bytes "314") = .ok (.Int 314) := by rfl

example : parse_json (bytes "  null ") = .ok .Null := by rfl

example :
    parse_json (bytes "[\"\", 3.14, 314]")
      = .ok (.Array [.String (.borrowed []), .Float (.ofLit (bytes "3.14")), .Int 314]) := by
  rfl

example :
    parse_json (bytes "\x7b\"a\": 1\x7d")
      = .ok (.Object [(.borrowed (bytes "a"), .Int 1)]) := by rfl

example : (parse_json (bytes "hey")).isOk = false := by rfl

/-! ## Claims -/

/-- **C3**: for each line the prime-time handler reads (delimited by the
newline it includes): if the line passes the JSON-parse and shape check
(`checkRequest` yields the `prime` argument `n`), the handler writes the
serialized two-field response object followed by a newline and keeps
processing the rest of the stream; otherwise it writes exactly the
single-line `malformed request` error and stops. -/
theorem claim_C3 (is_prime : Int → Bool) (l rest : List Nat) (hl : 10 ∉ l) :
    handle is_prime (l ++ 10 :: rest)
      = match checkRequest (l ++ [10]) with
        | some n => respBytes is_prime n ++ handle is_prime rest
        | none => errorBytes := by
  have hr := readLine_of_line l rest hl
  cases l with
  | nil =>
    simp only [List.nil_append] at hr ⊢
    rw [handle_cons, hr]
  | cons a l' =>
    rw [show (a :: l') ++ 10 :: rest = a :: (l' ++ 10 :: rest) by simp] at hr ⊢
    rw [handle_cons, hr]

/-- Witness for C3: a concrete conforming request line. -/
theorem claim_C3_witness :
    (10 ∉ bytes "\x7b\"method\": \"isPrime\", \"prime\": 7\x7d")
    ∧ handle (fun _ => true)
        (bytes "\x7b\"method\": \"isPrime\", \"prime\": 7\x7d" ++ 10 :: [])
      = match checkRequest (bytes "\x7b\"method\": \"isPrime\", \"prime\": 7\x7d" ++ [10]) with
        | some n => respBytes (fun _ => true) n ++ handle (fun _ => true) []
        | none => errorBytes :=
  ⟨by decide, claim_C3 (fun _ => true) _ [] (by decide)⟩

/-- **C7** (implicit): the handler writes the `malformed request` error on
a zero-length read (exhausted stream), and consequently the output of
every connection — whatever the stream — ends with that error object. -/
theorem claim_C7 (is_prime : Int → Bool) (stream : List Nat) :
    handle is_prime [] = errorBytes
    ∧ ∃ pre, handle is_prime stream = pre ++ errorBytes :=
  ⟨rfl, handle_tail_error is_prime stream.length stream (le_refl _)⟩

/-- **C4**: number parsing.  (a) At an ASCII-digit first byte the scanner
consumes the maximal run of digits and dots (`numRun` is `takeWhile`);
(b) a digit token dispatches `_parse_json` to `parse_number`; (c) a run
containing a dot converts as `f64`, (d) a dotless run as `i64`; (e) a
first significant byte `-` or `+` is rejected at the dispatcher with a
parse error at its offset; (f,g) malformed dotted runs and runs
exceeding the `i64` range are consumed by the scanner and fail only at
conversion, at the current (end-of-run) offset; (h,i) concretely for
`1.2.3` and `9223372036854775808` (2^63). -/
theorem claim_C4 :
    (∀ (buf : List Nat) (pos c : Nat), buf[pos]? = some c → isDigit c = true →
      consume_number buf pos
        = .ok ((numRun buf pos, decide (46 ∈ numRun buf pos)),
               pos + (numRun buf pos).length))
    ∧ (∀ (buf : List Nat) (pos c p fuel : Nat),
        next_token buf pos = (c, p) → isDigit c = true →
        _parse_json (fuel + 1) buf pos = parse_number buf p)
    ∧ (∀ (buf : List Nat) (pos c : Nat), buf[pos]? = some c → isDigit c = true →
        46 ∈ numRun buf pos → (numRun buf pos).count 46 ≤ 1 →
        parse_number buf pos
          = .ok (.Float (.ofLit (numRun buf pos)), pos + (numRun buf pos).length))
    ∧ (∀ (buf : List Nat) (pos c : Nat), buf[pos]? = some c → isDigit c = true →
        ¬(46 ∈ numRun buf pos) → digitsToNat (numRun buf pos) 0 < 2 ^ 63 →
        parse_number buf pos
          = .ok (.Int (digitsToNat (numRun buf pos) 0), pos + (numRun buf pos).length))
    ∧ (∀ (ws : List Nat) (c : Nat) (rest : List Nat),
        (∀ b ∈ ws, isWs b = true) → (c = 45 ∨ c = 43) →
        parse_json (ws ++ c :: rest) = .error ⟨"Unexpected message end", ws.length⟩)
    ∧ (∀ (buf : List Nat) (pos c : Nat), buf[pos]? = some c → isDigit c = true →
        46 ∈ numRun buf pos → ¬(numRun buf pos).count 46 ≤ 1 →
        parse_number buf pos
          = .error ⟨"Wasn't able to parse number as float",
                    pos + (numRun buf pos).length⟩)
    ∧ (∀ (buf : List Nat) (pos c : Nat), buf[pos]? = some c → isDigit c = true →
        ¬(46 ∈ numRun buf pos) → ¬digitsToNat (numRun buf pos) 0 < 2 ^ 63 →
        parse_number buf pos
          = .error ⟨"Wasn't able to parse number as integer",
                    pos + (numRun buf pos).length⟩)
    ∧ parse_json (bytes "1.2.3") = .error ⟨"Wasn't able to parse number as float", 5⟩
    ∧ parse_json (bytes "9223372036854775808")
        = .error ⟨"Wasn't able to parse number as integer", 19⟩ := by
  refine ⟨fun buf pos c h hd => consume_number_spec h hd,
          fun buf pos c p fuel h hd => _parse_json_digit fuel h hd,
          fun buf pos c h hd hdot hcount =>
            parse_number_float_ok h hd (eq_true hdot) hcount,
          fun buf pos c h hd hnd hlt =>
            parse_number_int_ok h hd (eq_false hnd) hlt,
          fun ws c rest hws hc => parse_json_sign_reject ws hws hc rest,
          fun buf pos c h hd hdot hcount =>
            parse_number_float_err h hd (eq_true hdot) hcount,
          fun buf pos c h hd hnd hge =>
            parse_number_int_overflow h hd (eq_false hnd) hge,
          by rfl, by rfl⟩

/-- Witness for C4: the scanner on `"12.3x"` and the sign rejection on
`" -5"`. -/
theorem claim_C4_witness :
    consume_number (bytes "12.3x") 0
      = .ok ((numRun (bytes "12.3x") 0, decide (46 ∈ numRun (bytes "12.3x") 0)),
             0 + (numRun (bytes "12.3x") 0).length)
    ∧ parse_json ([32] ++ 45 :: bytes "5")
        = .error ⟨"Unexpected message end", [32].length⟩ :=
  ⟨claim_C4.1 (bytes "12.3x") 0 49 (by rfl) (by rfl),
   claim_C4.2.2.2.2.1 [32] 45 (bytes "5") (by decide) (Or.inl rfl)⟩

/-- **C5**: string parsing.  (a) A quoted span without backslash parses
zero-copy to a borrowed view of exactly that span; (b) an escaped quote
does not terminate the scan (the span continues to the later unescaped
quote and is marked escaped); (c) each recognized two-character escape
decodes into an owned buffer; (d) `\u` and any unrecognized escape
letter are parse errors; (e) end of buffer before an unescaped closing
quote is a parse error; (f) non-UTF-8 span bytes are a parse error. -/
theorem claim_C5 :
    (∀ (s pre rest : List Nat), (∀ c ∈ s, c ≠ 34 ∧ c ≠ 92) → validUtf8 s = true →
      parse_str (pre ++ 34 :: (s ++ 34 :: rest)) pre.length
        = .ok (.borrowed s, pre.length + s.length + 2))
    ∧ (∀ (s₁ s₂ pre rest : List Nat),
        (∀ c ∈ s₁, c ≠ 34 ∧ c ≠ 92) → (∀ c ∈ s₂, c ≠ 34 ∧ c ≠ 92) →
        consume_str (pre ++ 34 :: (s₁ ++ 92 :: 34 :: (s₂ ++ 34 :: rest))) pre.length
          = .ok ((s₁ ++ 92 :: 34 :: s₂, true),
                 pre.length + s₁.length + s₂.length + 4))
    ∧ (∀ (c d : Nat) (rest : List Nat), decodeEsc c = some d →
        parse_str (34 :: 92 :: c :: 34 :: rest) 0 = .ok (.owned [d], 4))
    ∧ (∀ (c : Nat) (rest : List Nat), decodeEsc c = none →
        parse_str (34 :: 92 :: c :: 34 :: rest) 0
          = .error ⟨if c = 117 then "Hex character not handled"
                    else "Unrecognised escape sequence", 4⟩)
    ∧ (decodeEsc 117 = none ∧ decodeEsc 34 = some 34 ∧ decodeEsc 92 = some 92
        ∧ decodeEsc 47 = some 47 ∧ decodeEsc 98 = some 8 ∧ decodeEsc 102 = some 12
        ∧ decodeEsc 110 = some 10 ∧ decodeEsc 114 = some 13 ∧ decodeEsc 116 = some 9)
    ∧ (∀ (s pre : List Nat), 34 ∉ s →
        consume_str (pre ++ 34 :: s) pre.length
          = .error ⟨"Unexpected data end while parsing string",
                    (pre ++ 34 :: s).length⟩)
    ∧ (∀ (s pre rest : List Nat), (∀ c ∈ s, c ≠ 34 ∧ c ≠ 92) →
        validUtf8 s = false →
        parse_str (pre ++ 34 :: (s ++ 34 :: rest)) pre.length
          = .error ⟨"String wasn't utf8 encoded", pre.length + s.length + 2⟩) := by
  refine ⟨fun s pre rest hq hutf => parse_str_plain s hq hutf pre rest,
          fun s₁ s₂ pre rest h₁ h₂ => consume_str_escaped_quote s₁ s₂ h₁ h₂ pre rest,
          fun c d rest hd => parse_str_escape_good hd rest,
          fun c rest hd => parse_str_escape_bad hd rest,
          ⟨rfl, rfl, rfl, rfl, rfl, rfl, rfl, rfl, rfl⟩,
          fun s pre h => consume_str_eof s h pre,
          fun s pre rest hq hutf => parse_str_badutf s hq hutf pre rest⟩

/-- Witness for C5: the zero-copy case on the two-byte span `"ab"` and
the escaped-quote case on `"a\"b"`. -/
theorem claim_C5_witness :
    parse_str (([] : List Nat) ++ 34 :: (bytes "ab" ++ 34 :: [])) ([] : List Nat).length
      = .ok (.borrowed (bytes "ab"), ([] : List Nat).length + (bytes "ab").length + 2)
    ∧ consume_str (([] : List Nat)
          ++ 34 :: (bytes "a" ++ 92 :: 34 :: (bytes "b" ++ 34 :: []))) ([] : List Nat).length
      = .ok ((bytes "a" ++ 92 :: 34 :: bytes "b", true),
             ([] : List Nat).length + (bytes "a").length + (bytes "b").length + 4) :=
  ⟨claim_C5.1 (bytes "ab") [] [] (by decide) (by rfl),
   claim_C5.2.1 (bytes "a") (bytes "b") [] [] (by decide) (by decide)⟩

/-- **C6**: serialization shape.  Integers render in decimal with a `-`
sign for negatives (and decimal digits that evaluate back to the value);
`NaN` renders as the literal text `NaN`; booleans as `true`/`false`;
null as `null`; strings are quote-wrapped with exactly the seven special
bytes escaped, `/` and every other byte passing through unchanged;
arrays and objects render with `", "` between items, `": "` after keys,
and no trailing separator. -/
theorem claim_C6 :
    (∀ n : Int, 0 ≤ n → serialize_json (.Int n) = natToDigits n.toNat)
    ∧ (∀ n : Int, n < 0 → serialize_json (.Int n) = 45 :: natToDigits (-n).toNat)
    ∧ (∀ m : Nat, (natToDigits m).all isDigit = true
        ∧ digitsToNat (natToDigits m) 0 = m)
    ∧ serialize_json (.Int 123) = bytes "123"
    ∧ serialize_json (.Int (-123)) = bytes "-123"
    ∧ serialize_json (.Float .nan) = bytes "NaN"
    ∧ serialize_json (.Bool true) = bytes "true"
    ∧ serialize_json (.Bool false) = bytes "false"
    ∧ serialize_json .Null = bytes "null"
    ∧ (∀ s : List Nat, serialize_str s = 34 :: s.flatMap escByte ++ [34])
    ∧ (escByte 34 = [92, 34] ∧ escByte 92 = [92, 92] ∧ escByte 10 = [92, 110]
        ∧ escByte 13 = [92, 114] ∧ escByte 9 = [92, 116] ∧ escByte 8 = [92, 98]
        ∧ escByte 12 = [92, 102] ∧ escByte 47 = [47])
    ∧ (∀ c : Nat, ¬(c = 34 ∨ c = 92 ∨ c = 10 ∨ c = 13 ∨ c = 9 ∨ c = 8 ∨ c = 12) →
        escByte c = [c])
    ∧ (∀ vs : List Value, serialize_json (.Array vs)
        = 91 :: (match vs with
            | [] => ([] : List Nat)
            | v :: rest => serialize_json v
                ++ rest.flatMap (fun u => bytes ", " ++ serialize_json u)) ++ [93])
    ∧ (∀ kvs : List (CowStr × Value), serialize_json (.Object kvs)
        = 123 :: (match kvs with
            | [] => ([] : List Nat)
            | e :: rest => serialize_str e.1.data ++ bytes ": " ++ serialize_json e.2
                ++ rest.flatMap (fun e2 => bytes ", " ++ serialize_str e2.1.data
                     ++ bytes ": " ++ serialize_json e2.2)) ++ [125]) := by
  refine ⟨?_, ?_, ?_, by rfl, by rfl, by rfl, by rfl, by rfl, by rfl, ?_,
          ⟨rfl, rfl, rfl, rfl, rfl, rfl, rfl, rfl⟩, ?_, ?_, ?_⟩
  · intro n hn
    show intDisplay n = _
    unfold intDisplay
    rw [if_neg (by omega)]
  · intro n hn
    show intDisplay n = _
    unfold intDisplay
    rw [if_pos hn]
  · intro m
    exact ⟨by rw [List.all_eq_true]; exact fun c hc => natToDigits_all_digit m c hc,
           digitsToNat_natToDigits m⟩
  · intro s
    show 34 :: serialize_str_content s ++ [34] = _
    rw [serialize_str_content_flatMap]
  · intro c hc
    exact escByte_plain hc
  · intro vs
    cases vs with
    | nil => rfl
    | cons v rest =>
      show 91 :: serialize_arr_items true (v :: rest) ++ [93] = _
      show 91 :: (([] : List Nat) ++ serialize_json v
        ++ serialize_arr_items false rest) ++ [93] = _
      rw [serialize_arr_items_false]
      simp
  · intro kvs
    cases kvs with
    | nil => rfl
    | cons e rest =>
      show 123 :: serialize_obj_items true (e :: rest) ++ [125] = _
      rw [show serialize_obj_items true (e :: rest)
        = ([] : List Nat) ++ serialize_str e.1.data ++ bytes ": " ++ serialize_json e.2
          ++ serialize_obj_items false rest from rfl]
      rw [serialize_obj_items_false]
      simp

/-- Witness for C6: the general string equation at a concrete content
and the non-special passthrough at byte `'x'`. -/
theorem claim_C6_witness :
    serialize_str (bytes "a/b") = 34 :: (bytes "a/b").flatMap escByte ++ [34]
    ∧ escByte 120 = [120]
    ∧ serialize_json (.Int 7) = natToDigits (7 : Int).toNat :=
  ⟨claim_C6.2.2.2.2.2.2.2.2.2.1 (bytes "a/b"),
   claim_C6.2.2.2.2.2.2.2.2.2.2.2.1 120 (by decide),
   claim_C6.1 7 (by decide)⟩

/-- **C8** (implicit): the parser accepts a single trailing comma before
the closing bracket of a nonempty array or object.  At the loop level: if
after the last parsed element (or member) the next token is `,` and the
token after it is the closing bracket, the loop re-enters, immediately
breaks, and returns exactly the elements collected — the same value the
bracket-without-comma exit returns.  Concretely `[1,]` parses to the same
value as `[1]`, and likewise for objects. -/
theorem claim_C8 :
    (∀ (fuel : Nat) (buf : List Nat) (pos : Nat) (acc : List Value) (v : Value)
        (p₂ : Nat),
      (next_token buf pos).1 ≠ 93 →
      _parse_json fuel buf (next_token buf pos).2 = .ok (v, p₂) →
      (next_token buf p₂).1 = 44 →
      (next_token buf ((next_token buf p₂).2 + 1)).1 = 93 →
      parse_array_go (fuel + 1) buf pos acc
        = .ok (acc ++ [v], (next_token buf ((next_token buf p₂).2 + 1)).2 + 1))
    ∧ (∀ (fuel : Nat) (buf : List Nat) (pos : Nat) (acc : List (CowStr × Value))
        (key : CowStr) (v : Value) (p₂ p₃ : Nat),
      (next_token buf pos).1 ≠ 125 →
      parse_str buf (next_token buf pos).2 = .ok (key, p₂) →
      (next_token buf p₂).1 = 58 →
      _parse_json fuel buf ((next_token buf p₂).2 + 1) = .ok (v, p₃) →
      (next_token buf p₃).1 = 44 →
      (next_token buf ((next_token buf p₃).2 + 1)).1 = 125 →
      parse_object_go (fuel + 1) buf pos acc
        = .ok (insertEntry acc key v,
               (next_token buf ((next_token buf p₃).2 + 1)).2 + 1))
    ∧ parse_json (bytes "[1,]") = .ok (.Array [.Int 1])
    ∧ parse_json (bytes "[1]") = .ok (.Array [.Int 1])
    ∧ parse_json (bytes "\x7b\"a\": 1,\x7d")
        = .ok (.Object [(.borrowed (bytes "a"), .Int 1)])
    ∧ parse_json (bytes "\x7b\"a\": 1\x7d")
        = .ok (.Object [(.borrowed (bytes "a"), .Int 1)]) := by
  refine ⟨fun fuel buf pos acc v p₂ h0 h1 h2 h3 =>
            parse_array_go_comma_close h0 h1 h2 h3,
          fun fuel buf pos acc key v p₂ p₃ h0 h1 h2 h3 h4 h5 =>
            parse_object_go_comma_close h0 h1 h2 h3 h4 h5,
          by rfl, by rfl, by rfl, by rfl⟩

/-- Witness for C8: the array loop on the concrete buffer `[1,]`. -/
theorem claim_C8_witness :
    parse_array_go 2 (bytes "[1,]") 1 [] = .ok ([Value.Int 1], 4) :=
  claim_C8.1 1 (bytes "[1,]") 1 [] (.Int 1) 2 (by decide) (by rfl) (by rfl) (by rfl)

/-- C9: whenever `parse_json` returns an `Error`, the reported byte offset is
at most the input buffer's length. The parse aborts at the first problem with
no partial result: the `Except` result carries the error alone. -/
theorem claim_C9 (buf : List Nat) (e : Error)
    (h : parse_json buf = .error e) : e.pos ≤ buf.length := by
  rw [parse_json_eq] at h
  cases hpj : _parse_json (8 * buf.length + 7 + 1) buf 0 with
  | ok vp =>
    rw [hpj] at h
    exact Except.noConfusion h
  | error e2 =>
    rw [hpj] at h
    injection h with h
    rw [← h]
    exact ((parse_bounded (8 * buf.length + 7 + 1)).1 buf 0 (by omega)).1 e2 hpj

theorem claim_C9_witness :
    parse_json (bytes "hey") = .error ⟨"Unexpected message end", 0⟩
    ∧ (Error.mk "Unexpected message end" 0).pos ≤ (bytes "hey").length :=
  ⟨by rfl, claim_C9 (bytes "hey") _ (by rfl)⟩

/-- **C1** (counterexample): the round trip fails beyond the claim's
NaN carve-out.  A negative integer serializes with a leading `-`, which
the parser rejects (`next_token` yields 0 on `-`, so parsing fails with
"Unexpected message end" at offset 0); a negative finite float fails the
same way; and a float whose `Display` form is a bare integer literal
(Rust prints `1.0_f64` as `1`) reparses as `Int`, a different variant,
so the reparsed value is not `==` to the original. -/
theorem claim_C1_counterexample :
    parse_json (serialize_json (Value.Int (-1)))
      = .error ⟨"Unexpected message end", 0⟩
    ∧ parse_json (serialize_json (Value.Float (.ofLit (bytes "-0.5"))))
      = .error ⟨"Unexpected message end", 0⟩
    ∧ parse_json (serialize_json (Value.Float (.ofLit (bytes "1"))))
      = .ok (Value.Int 1)
    ∧ veq (Value.Float (.ofLit (bytes "1"))) (Value.Int 1) = false :=
  ⟨by rfl, by rfl, by rfl, by rfl⟩

/-- **C1** (amended): for every `Value` containing no negative `Int`
and no `Float` beyond those with a dotted `Display` literal (a digit
run starting with a digit and holding exactly one `.`, e.g. `3.14`; the
counterexamples force excluding negative floats and bare-integer
literals such as `1.0` → `"1"`) — together with the invariants every
programmatically constructed Rust `Value` satisfies by its types:
string contents are valid UTF-8, integers fit in `i64`, object keys are
distinct — parsing the serialized bytes succeeds with a value `==` to
the original (`normalize v` differs from `v` only in each string's
`Cow` variant, which Rust's `PartialEq` ignores; `veq` models that
`PartialEq`). -/
theorem claim_C1 (v : Value) (h : rt_ok v = true) :
    parse_json (serialize_json v) = .ok (normalize v)
    ∧ veq v (normalize v) = true := by
  constructor
  · rw [parse_json_eq]
    have hfuel : fuelNeed v ≤ 8 * (serialize_json v).length + 7 + 1 := by
      have := fuelNeed_le (sizeOf v) v (le_refl _) h
      omega
    have hm := rt_main (sizeOf v) v (le_refl _)
      (8 * (serialize_json v).length + 7 + 1) [] [] [] h hfuel (by rfl)
      (by intro b hb; exact absurd hb (List.not_mem_nil b))
    simp only [List.nil_append, List.append_nil, List.length_nil, Nat.zero_add,
      Nat.add_zero] at hm
    rw [hm]
  · exact veq_normalize v h

theorem claim_C1_witness :
    rt_ok (Value.Object [(.borrowed (bytes "a"),
        .Array [.Int 1, .Float (.ofLit (bytes "3.14")), .Null])]) = true
    ∧ (parse_json (serialize_json (Value.Object [(.borrowed (bytes "a"),
          .Array [.Int 1, .Float (.ofLit (bytes "3.14")), .Null])]))
        = .ok (normalize (Value.Object [(.borrowed (bytes "a"),
            .Array [.Int 1, .Float (.ofLit (bytes "3.14")), .Null])]))
      ∧ veq (Value.Object [(.borrowed (bytes "a"),
            .Array [.Int 1, .Float (.ofLit (bytes "3.14")), .Null])])
          (normalize (Value.Object [(.borrowed (bytes "a"),
            .Array [.Int 1, .Float (.ofLit (bytes "3.14")), .Null])]))
          = true) :=
  ⟨by rfl, claim_C1 _ (by rfl)⟩

end Protohackers
